import Mathlib

/-!
The zaplog line encoder: a shallow embedding of `zaplog/line_encoder.go` and a
verification of its specification.

* A Go `string` and a Go `[]byte` are both a `List Byte`.
* `buffer.Buffer` (go.uber.org/zap/buffer) is the list of the bytes written so
  far; every method of it that the encoder uses appends.
* A method on `*lineEncoder` is a function from the encoder before the call to
  the encoder after it.
-/

namespace zaplog

/-! ## Bytes, strings and the zap buffer -/

/-- One byte. -/
abbrev Byte := Fin 256

/-- The content of a `buffer.Buffer`. -/
abbrev Buffer := List Byte

/-- The bytes of a string literal of ASCII characters. -/
def ascii (s : String) : List Byte := s.data.map (fun c => Fin.ofNat c.toNat)

/-- Decimal digit `d` as a character. -/
def digitByte (d : Nat) : Byte := Fin.ofNat (48 + d % 10)

/-- Decimal digits of `n`, most significant first, in front of `acc`
(`strconv.FormatUint` in base 10). The first argument bounds the number of
digits. -/
def decimalAux : Nat → Nat → List Byte → List Byte
  | 0, _, acc => acc
  | fuel + 1, n, acc =>
    if n < 10 then digitByte n :: acc
    else decimalAux fuel (n / 10) (digitByte n :: acc)

/-- The text of `strconv.AppendUint(_, n, 10)`. -/
def formatUint (n : Nat) : List Byte := decimalAux (n + 1) n []

/-- The text of `strconv.AppendInt(_, i, 10)`. -/
def formatInt (i : Int) : List Byte :=
  if i < 0 then 45 :: formatUint i.natAbs else formatUint i.natAbs

namespace Buffer

/-- Method `Len` of the buffer. -/
def Len (b : Buffer) : Nat := b.length

/-- Method `AppendByte` of the buffer. -/
def AppendByte (b : Buffer) (v : Byte) : Buffer := b ++ [v]

/-- Method `AppendString` of the buffer: the bytes of the string, unchanged. -/
def AppendString (b : Buffer) (s : List Byte) : Buffer := b ++ s

/-- Method `Write` of the buffer: the bytes of the slice, unchanged. -/
def Write (b : Buffer) (bs : List Byte) : Buffer := b ++ bs

/-- Method `AppendInt` of the buffer. -/
def AppendInt (b : Buffer) (i : Int) : Buffer := b ++ formatInt i

/-- Method `AppendUint` of the buffer. -/
def AppendUint (b : Buffer) (i : Nat) : Buffer := b ++ formatUint i

/-- Method `AppendBool` of the buffer. -/
def AppendBool (b : Buffer) (v : Bool) : Buffer :=
  b ++ (if v then ascii "true" else ascii "false")

end Buffer

/-! ## unicode/utf8 -/

/-- Constant `utf8.RuneSelf`. -/
def RuneSelf : Nat := 0x80

/-- Constant `utf8.RuneError`. -/
def RuneError : Nat := 0xFFFD

/-- Table `first` of package unicode/utf8, written by ranges of the first byte:
`as` = 0xF0 (ASCII), `xx` = 0xF1 (invalid), and for a leading byte the low
three bits give the size and the high four the index of the accept range. -/
def first (b : Byte) : Nat :=
  if b.val < 0x80 then 0xF0
  else if b.val < 0xC2 then 0xF1
  else if b.val < 0xE0 then 0x02
  else if b.val = 0xE0 then 0x13
  else if b.val < 0xED then 0x03
  else if b.val = 0xED then 0x23
  else if b.val < 0xF0 then 0x03
  else if b.val = 0xF0 then 0x34
  else if b.val < 0xF4 then 0x04
  else if b.val = 0xF4 then 0x44
  else 0xF1

/-- Table `acceptRanges` of package unicode/utf8: the bounds `(lo, hi)` of the
second byte. -/
def acceptRanges (i : Nat) : Nat × Nat :=
  match i with
  | 0 => (0x80, 0xBF)
  | 1 => (0xA0, 0xBF)
  | 2 => (0x80, 0x9F)
  | 3 => (0x90, 0xBF)
  | 4 => (0x80, 0x8F)
  | _ => (0, 0)

/-- Function `utf8.DecodeRune` of the Go standard library: the rune at the head
of `p` and its width in bytes; `(RuneError, 1)` when the head is not a
well-formed sequence and `(RuneError, 0)` when `p` is empty. -/
def DecodeRune (p : List Byte) : Nat × Nat :=
  match p with
  | [] => (RuneError, 0)
  | p0 :: t =>
    let x := first p0
    if x ≥ 0xF0 then
      -- the mask is all ones exactly when x is xx (odd)
      (if x % 2 = 1 then RuneError else p0.val, 1)
    else
      let sz := x % 8
      let accept := acceptRanges (x / 16)
      if p.length < sz then (RuneError, 1)
      else
        match t with
        | [] => (RuneError, 1)
        | b1 :: t1 =>
          if b1.val < accept.1 ∨ accept.2 < b1.val then (RuneError, 1)
          else if sz ≤ 2 then ((p0.val % 32) * 64 + b1.val % 64, 2)
          else
            match t1 with
            | [] => (RuneError, 1)
            | b2 :: t2 =>
              if b2.val < 0x80 ∨ 0xBF < b2.val then (RuneError, 1)
              else if sz ≤ 3 then
                ((p0.val % 16) * 4096 + (b1.val % 64) * 64 + b2.val % 64, 3)
              else
                match t2 with
                | [] => (RuneError, 1)
                | b3 :: _ =>
                  if b3.val < 0x80 ∨ 0xBF < b3.val then (RuneError, 1)
                  else
                    ((p0.val % 8) * 262144 + (b1.val % 64) * 4096
                      + (b2.val % 64) * 64 + b3.val % 64, 4)

/-- Function `utf8.DecodeRuneInString`: the same decoder over the bytes of a
string. -/
def DecodeRuneInString (s : List Byte) : Nat × Nat := DecodeRune s

/-! ## zapcore: entries, configuration and fields -/

/-- Type `time.Time`, by the instant `UnixNano` returns. -/
structure Time where
  UnixNano : Int
  deriving DecidableEq

/-- Type `zapcore.EntryCaller`. -/
structure EntryCaller where
  Defined : Bool
  File : List Byte
  Line : Int
  Function : List Byte
  deriving DecidableEq

/-- Type `zapcore.Level` (an int8). -/
abbrev Level := Int

/-- Method `String` of `zapcore.Level`. -/
def Level.String (l : Level) : List Byte :=
  if l = -1 then ascii "debug"
  else if l = 0 then ascii "info"
  else if l = 1 then ascii "warn"
  else if l = 2 then ascii "error"
  else if l = 3 then ascii "dpanic"
  else if l = 4 then ascii "panic"
  else if l = 5 then ascii "fatal"
  else ascii "Level(" ++ formatInt l ++ ascii ")"

/-- Method `String` of `zapcore.EntryCaller` (its `FullPath`). -/
def EntryCaller.String (ec : EntryCaller) : List Byte :=
  if ec.Defined then ec.File ++ ascii ":" ++ formatInt ec.Line else ascii "undefined"

/-- Type `zapcore.Entry`, with the fields `EncodeEntry` reads. -/
structure Entry where
  Level : Level
  Time : Time
  Message : List Byte
  Caller : EntryCaller
  Stack : List Byte

/-- A renderer of the configuration (`zapcore.TimeEncoder`, `LevelEncoder`,
`DurationEncoder`, `CallerEncoder`): a Go function of the value and the target
encoder. It reaches the encoder through `zapcore.PrimitiveArrayEncoder`, whose
methods only append, so it is given by the bytes it appends. -/
abbrev Renderer (α : Type) := α → List Byte

/-- Type `zapcore.EncoderConfig`, with the fields that the methods embedded
below read. A renderer that is `nil` is `none`. -/
structure EncoderConfig where
  MessageKey : List Byte
  LevelKey : List Byte
  TimeKey : List Byte
  CallerKey : List Byte
  FunctionKey : List Byte
  StacktraceKey : List Byte
  SkipLineEnding : Bool
  LineEnding : List Byte
  EncodeLevel : Option (Renderer Level)
  EncodeTime : Option (Renderer Time)
  EncodeDuration : Option (Renderer Int)
  EncodeCaller : Option (Renderer EntryCaller)
  ConsoleSeparator : List Byte

/-- Constant `zapcore.DefaultLineEnding`. -/
def DefaultLineEnding : List Byte := [10]

/-- Constant `zapcore.OmitKey`. -/
def OmitKey : List Byte := []

/-! ## line_encoder.go -/

/-- Constant `_hex`. -/
def _hex : List Byte := ascii "0123456789abcdef"

/-- Constant `_log_field_split`. -/
def _log_field_split : List Byte := ascii "|"

/-- Type `lineEncoder`: the configuration it points to, the content of its
buffer and the `spaced` flag. The scratch buffer and encoder of the reflected
values, which the reflected path alone uses, are in `ReflectingEncoder`. -/
structure lineEncoder where
  EncoderConfig : EncoderConfig
  buf : Buffer
  spaced : Bool

/-- A Go `error`, by its message. -/
abbrev Error := List Byte

/-- Type `zapcore.ArrayMarshaler`: what `MarshalLogArray` does to the encoder it
is given, and the error it returns. -/
abbrev ArrayMarshaler := lineEncoder → lineEncoder × Option Error

/-- Type `zapcore.ObjectMarshaler`: what `MarshalLogObject` does to the encoder
it is given, and the error it returns. -/
abbrev ObjectMarshaler := lineEncoder → lineEncoder × Option Error

/-- Function `NewLineEncoder`; the buffer taken from the pool is empty. -/
def NewLineEncoder (cfg : EncoderConfig) (spaced : Bool) : lineEncoder :=
  let cfg :=
    if cfg.SkipLineEnding then { cfg with LineEnding := [] }
    else if cfg.LineEnding = [] then { cfg with LineEnding := DefaultLineEnding }
    else cfg
  { EncoderConfig := cfg, buf := [], spaced := spaced }

namespace lineEncoder

/-- A call `e(val, enc)` of a renderer on the encoder. -/
def render {α : Type} (enc : lineEncoder) (e : Renderer α) (val : α) : lineEncoder :=
  { enc with buf := enc.buf ++ e val }

/-- Method `addKey`. -/
def addKey (enc : lineEncoder) (key : List Byte) : lineEncoder :=
  if key ≠ [] then { enc with buf := enc.buf.AppendString key } else enc

/-- Method `tryAddRuneSelf`. -/
def tryAddRuneSelf (enc : lineEncoder) (b : Byte) : lineEncoder × Bool :=
  if b.val ≥ RuneSelf then (enc, false)
  else if b.val ≥ 0x20 ∧ b.val ≠ 0x5C ∧ b.val ≠ 0x22 then
    ({ enc with buf := enc.buf.AppendByte b }, true)
  else if b.val = 0x5C ∨ b.val = 0x22 then
    ({ enc with buf := (enc.buf.AppendByte 0x5C).AppendByte b }, true)
  else if b.val = 0x0A then
    ({ enc with buf := (enc.buf.AppendByte 0x5C).AppendByte 0x6E }, true)
  else if b.val = 0x0D then
    ({ enc with buf := (enc.buf.AppendByte 0x5C).AppendByte 0x72 }, true)
  else if b.val = 0x09 then
    ({ enc with buf := (enc.buf.AppendByte 0x5C).AppendByte 0x74 }, true)
  else
    ({ enc with buf := ((enc.buf.AppendString (ascii "\\u00")).AppendByte
        (_hex.getD (b.val >>> 4) 0)).AppendByte (_hex.getD (b.val &&& 0xF) 0) }, true)

/-- Method `tryAddRuneError`. -/
def tryAddRuneError (enc : lineEncoder) (r : Nat) (size : Nat) : lineEncoder × Bool :=
  if r = RuneError ∧ size = 1 then
    ({ enc with buf := enc.buf.AppendString (ascii "\\ufffd") }, true)
  else (enc, false)

/-- Method `addElementSeparator`. -/
def addElementSeparator (enc : lineEncoder) : lineEncoder :=
  let last : Int := (enc.buf.Len : Int) - 1
  if last < 0 then enc
  else
    let c := enc.buf.getD last.toNat 0
    if c.val = 0x7B ∨ c.val = 0x5B ∨ c.val = 0x3A ∨ c.val = 0x2C ∨ c.val = 0x20 then enc
    else
      let enc := { enc with buf := enc.buf.AppendByte 0x2C }
      if enc.spaced then { enc with buf := enc.buf.AppendByte 0x20 } else enc

/-- The loop of `safeAddByteString`. The index `i` is kept as the unread part
`s[i:]`; each turn reads at least one byte, so `len(s)` turns are enough and the
first argument starts there. -/
def safeAddByteStringLoop : Nat → lineEncoder → List Byte → lineEncoder
  | 0, enc, _ => enc
  | _ + 1, enc, [] => enc
  | n + 1, enc, b :: rest =>
    let r1 := enc.tryAddRuneSelf b
    if r1.2 then safeAddByteStringLoop n r1.1 rest
    else
      let d := DecodeRune (b :: rest)
      let r2 := r1.1.tryAddRuneError d.1 d.2
      if r2.2 then safeAddByteStringLoop n r2.1 rest
      else
        safeAddByteStringLoop n
          { r2.1 with buf := r2.1.buf.Write ((b :: rest).take d.2) }
          ((b :: rest).drop d.2)

/-- Method `safeAddByteString`. -/
def safeAddByteString (enc : lineEncoder) (s : List Byte) : lineEncoder :=
  safeAddByteStringLoop s.length enc s

/-- The loop of `safeAddString`, as for `safeAddByteString`. -/
def safeAddStringLoop : Nat → lineEncoder → List Byte → lineEncoder
  | 0, enc, _ => enc
  | _ + 1, enc, [] => enc
  | n + 1, enc, b :: rest =>
    let r1 := enc.tryAddRuneSelf b
    if r1.2 then safeAddStringLoop n r1.1 rest
    else
      let d := DecodeRuneInString (b :: rest)
      let r2 := r1.1.tryAddRuneError d.1 d.2
      if r2.2 then safeAddStringLoop n r2.1 rest
      else
        safeAddStringLoop n
          { r2.1 with buf := r2.1.buf.AppendString ((b :: rest).take d.2) }
          ((b :: rest).drop d.2)

/-- Method `safeAddString`. -/
def safeAddString (enc : lineEncoder) (s : List Byte) : lineEncoder :=
  safeAddStringLoop s.length enc s

/-- Method `AppendBool`. -/
def AppendBool (enc : lineEncoder) (val : Bool) : lineEncoder :=
  { enc with buf := enc.buf.AppendBool val }

/-- Method `AppendByteString`. -/
def AppendByteString (enc : lineEncoder) (val : List Byte) : lineEncoder :=
  enc.safeAddByteString val

/-- Method `AppendInt64`. -/
def AppendInt64 (enc : lineEncoder) (val : Int) : lineEncoder :=
  { enc with buf := enc.buf.AppendInt val }

/-- Method `AppendUint64`. -/
def AppendUint64 (enc : lineEncoder) (val : Nat) : lineEncoder :=
  { enc with buf := enc.buf.AppendUint val }

/-- Method `AppendString`. -/
def AppendString (enc : lineEncoder) (val : List Byte) : lineEncoder :=
  enc.safeAddString val

/-- Method `AppendDuration`. -/
def AppendDuration (enc : lineEncoder) (val : Int) : lineEncoder :=
  let cur := enc.buf.Len
  let enc :=
    match enc.EncoderConfig.EncodeDuration with
    | some e => enc.render e val
    | none => enc
  if cur = enc.buf.Len then enc.AppendInt64 val else enc

/-- Method `AppendTime`. -/
def AppendTime (enc : lineEncoder) (val : Time) : lineEncoder :=
  let cur := enc.buf.Len
  let enc :=
    match enc.EncoderConfig.EncodeTime with
    | some e => enc.render e val
    | none => enc
  if cur = enc.buf.Len then enc.AppendInt64 val.UnixNano else enc

/-- Method `AppendArray`. -/
def AppendArray (enc : lineEncoder) (arr : ArrayMarshaler) : lineEncoder × Option Error :=
  let enc := { enc with buf := enc.buf.AppendByte 0x5B }
  let r := arr enc
  ({ r.1 with buf := r.1.buf.AppendByte 0x5D }, r.2)

/-- Method `AppendObject`. -/
def AppendObject (enc : lineEncoder) (obj : ObjectMarshaler) : lineEncoder × Option Error :=
  obj enc

/-- Method `AddArray`. -/
def AddArray (enc : lineEncoder) (key : List Byte) (arr : ArrayMarshaler) :
    lineEncoder × Option Error :=
  (enc.addKey key).AppendArray arr

/-- Method `AddObject`. -/
def AddObject (enc : lineEncoder) (key : List Byte) (obj : ObjectMarshaler) :
    lineEncoder × Option Error :=
  (enc.addKey key).AppendObject obj

/-- Method `AddByteString`. -/
def AddByteString (enc : lineEncoder) (key : List Byte) (val : List Byte) : lineEncoder :=
  (enc.addKey key).AppendByteString val

/-- Method `AddBool`. -/
def AddBool (enc : lineEncoder) (key : List Byte) (val : Bool) : lineEncoder :=
  (enc.addKey key).AppendBool val

/-- Method `AddDuration`. -/
def AddDuration (enc : lineEncoder) (key : List Byte) (val : Int) : lineEncoder :=
  (enc.addKey key).AppendDuration val

/-- Method `AddInt64`. -/
def AddInt64 (enc : lineEncoder) (key : List Byte) (val : Int) : lineEncoder :=
  (enc.addKey key).AppendInt64 val

/-- Method `OpenNamespace`. -/
def OpenNamespace (enc : lineEncoder) (key : List Byte) : lineEncoder :=
  let enc := enc.addKey key
  { enc with buf := enc.buf.AppendByte 0x7B }

/-- Method `AddString`. -/
def AddString (enc : lineEncoder) (key val : List Byte) : lineEncoder :=
  (enc.addKey key).AppendString val

/-- Method `AddTime`. -/
def AddTime (enc : lineEncoder) (key : List Byte) (val : Time) : lineEncoder :=
  (enc.addKey key).AppendTime val

/-- Method `AddUint64`. -/
def AddUint64 (enc : lineEncoder) (key : List Byte) (val : Nat) : lineEncoder :=
  (enc.addKey key).AppendUint64 val

/-- Method `clone`. `pooled` is the instance `_linePool.Get()` hands out; the
method sets its configuration and gives it an empty buffer from `_bufferPool`,
and leaves its other fields as they are. -/
def clone (enc pooled : lineEncoder) : lineEncoder :=
  { pooled with EncoderConfig := enc.EncoderConfig, buf := [] }

/-- Method `Clone`. -/
def Clone (enc pooled : lineEncoder) : lineEncoder :=
  let clone := enc.clone pooled
  { clone with buf := clone.buf.Write enc.buf }

end lineEncoder

/-- Type `zapcore.Field`, for the field types whose text the encoder itself
produces: the constructor is the `FieldType`, then the key and the value. The
narrower integer types reach the encoder as `Int64Type` and `Uint64Type`. -/
inductive Field
  | BoolType (key : List Byte) (val : Bool)
  | ByteStringType (key : List Byte) (val : List Byte)
  | DurationType (key : List Byte) (val : Int)
  | Int64Type (key : List Byte) (val : Int)
  | StringType (key : List Byte) (val : List Byte)
  | TimeType (key : List Byte) (val : Time)
  | Uint64Type (key : List Byte) (val : Nat)

/-- Method `AddTo` of `zapcore.Field`, on a line encoder. -/
def Field.AddTo (f : Field) (enc : lineEncoder) : lineEncoder :=
  match f with
  | .BoolType k v => enc.AddBool k v
  | .ByteStringType k v => enc.AddByteString k v
  | .DurationType k v => enc.AddDuration k v
  | .Int64Type k v => enc.AddInt64 k v
  | .StringType k v => enc.AddString k v
  | .TimeType k v => enc.AddTime k v
  | .Uint64Type k v => enc.AddUint64 k v

/-- Function `addFields`. -/
def addFields (enc : lineEncoder) (fields : List Field) : lineEncoder :=
  fields.foldl (fun e f => f.AddTo e) enc

/-- The block `// time` of `EncodeEntry`. -/
def entryTime (enc final : lineEncoder) (ent : Entry) : lineEncoder :=
  let final := final.AddTime final.EncoderConfig.TimeKey ent.Time
  final.AppendString enc.EncoderConfig.ConsoleSeparator

/-- The block `// level` of `EncodeEntry`. -/
def entryLevel (enc final : lineEncoder) (ent : Entry) : lineEncoder :=
  match final.EncoderConfig.EncodeLevel with
  | some e =>
    if final.EncoderConfig.LevelKey ≠ [] then
      let cur := final.buf.Len
      let final := final.render e ent.Level
      let final :=
        if cur = final.buf.Len then final.AppendString ent.Level.String else final
      final.AppendString enc.EncoderConfig.ConsoleSeparator
    else final
  | none => final

/-- The block `// final log` of `EncodeEntry`: the bytes accumulated in the
receiver. -/
def entryAccumulated (enc final : lineEncoder) : lineEncoder :=
  if enc.buf.Len > 0 then { final with buf := final.buf.Write enc.buf } else final

/-- The block `// caller` of `EncodeEntry`. The result is `none` where Go
panics, on the call of a `nil` caller renderer. -/
def entryCaller (enc final : lineEncoder) (ent : Entry) : Option lineEncoder :=
  if ent.Caller.Defined then
    let keyed : Option lineEncoder :=
      if final.EncoderConfig.CallerKey ≠ [] then
        let final := final.addKey final.EncoderConfig.CallerKey
        let cur := final.buf.Len
        match final.EncoderConfig.EncodeCaller with
        | none => none
        | some e =>
          let final := final.render e ent.Caller
          some (if cur = final.buf.Len then final.AppendString ent.Caller.String
            else final)
      else some final
    keyed.map fun final =>
      let final :=
        if final.EncoderConfig.FunctionKey ≠ [] then
          (final.addKey final.EncoderConfig.FunctionKey).AppendString ent.Caller.Function
        else final
      final.AppendString enc.EncoderConfig.ConsoleSeparator
  else some final

/-- The part of `EncodeEntry` before the message, block by block: the clone,
the time, the level, the accumulated fields, the caller and the reserved
segment (`// hierachy_id, ignore field`). -/
def encodeEntryHead (enc pooled : lineEncoder) (ent : Entry) : Option lineEncoder :=
  let final := enc.clone pooled
  let final := entryTime enc final ent
  let final := entryLevel enc final ent
  let final := entryAccumulated enc final
  (entryCaller enc final ent).map fun final =>
    final.AppendString enc.EncoderConfig.ConsoleSeparator

/-- Method `EncodeEntry`: the content of the buffer it returns, `none` where Go
panics. -/
def EncodeEntry (enc pooled : lineEncoder) (ent : Entry) (fields : List Field) :
    Option Buffer :=
  (encodeEntryHead enc pooled ent).map fun final =>
    -- message
    let final := final.addKey enc.EncoderConfig.MessageKey
    let final := final.AppendString ent.Message
    -- another fields
    let final := addFields final fields
    -- strack
    let final := final.AddString final.EncoderConfig.StacktraceKey ent.Stack
    let final := { final with buf := final.buf.AppendString final.EncoderConfig.LineEnding }
    final.buf

/-! ## Well-formed UTF-8 -/

/-- Least second byte after the leading byte `b0` (Unicode, table 3-7). -/
def secondLo (b0 : Byte) : Nat :=
  if b0.val = 0xE0 then 0xA0 else if b0.val = 0xF0 then 0x90 else 0x80

/-- Greatest second byte after the leading byte `b0` (Unicode, table 3-7). -/
def secondHi (b0 : Byte) : Nat :=
  if b0.val = 0xED then 0x9F else if b0.val = 0xF4 then 0x8F else 0xBF

/-- A well-formed sequence of two bytes (Unicode, table 3-7). -/
def seq2 (b0 b1 : Byte) : Bool :=
  decide (0xC2 ≤ b0.val ∧ b0.val ≤ 0xDF ∧ 0x80 ≤ b1.val ∧ b1.val ≤ 0xBF)

/-- A well-formed sequence of three bytes (Unicode, table 3-7). -/
def seq3 (b0 b1 b2 : Byte) : Bool :=
  decide (0xE0 ≤ b0.val ∧ b0.val ≤ 0xEF ∧ secondLo b0 ≤ b1.val ∧ b1.val ≤ secondHi b0
    ∧ 0x80 ≤ b2.val ∧ b2.val ≤ 0xBF)

/-- A well-formed sequence of four bytes (Unicode, table 3-7). -/
def seq4 (b0 b1 b2 b3 : Byte) : Bool :=
  decide (0xF0 ≤ b0.val ∧ b0.val ≤ 0xF4 ∧ secondLo b0 ≤ b1.val ∧ b1.val ≤ secondHi b0
    ∧ 0x80 ≤ b2.val ∧ b2.val ≤ 0xBF ∧ 0x80 ≤ b3.val ∧ b3.val ≤ 0xBF)

/-- Length of the well-formed UTF-8 byte sequence at the head of `s`, and 0 when
there is none. -/
def wellFormedLen (s : List Byte) : Nat :=
  match s with
  | [] => 0
  | b0 :: t =>
    if b0.val ≤ 0x7F then 1
    else
      match t with
      | [] => 0
      | b1 :: t1 =>
        if seq2 b0 b1 then 2
        else
          match t1 with
          | [] => 0
          | b2 :: t2 =>
            if seq3 b0 b1 b2 then 3
            else
              match t2 with
              | [] => 0
              | b3 :: _ => if seq4 b0 b1 b2 b3 then 4 else 0

/-- Whether `s` splits into well-formed sequences, reading at most as many
sequences as the first argument says. -/
def validUTF8Aux : Nat → List Byte → Bool
  | _, [] => true
  | 0, _ :: _ => false
  | n + 1, b :: rest =>
    wellFormedLen (b :: rest) != 0
      && validUTF8Aux n ((b :: rest).drop (wellFormedLen (b :: rest)))

/-- Whether `s` is valid UTF-8. -/
def validUTF8 (s : List Byte) : Bool := validUTF8Aux s.length s

/-! ## The text of the escaper -/

/-- The bytes `tryAddRuneSelf` appends for the byte `b`. -/
def selfText (b : Byte) : List Byte :=
  if 0x80 ≤ b.val then []
  else if 0x20 ≤ b.val ∧ b.val ≠ 0x5C ∧ b.val ≠ 0x22 then [b]
  else if b.val = 0x5C ∨ b.val = 0x22 then [0x5C, b]
  else if b.val = 0x0A then [0x5C, 0x6E]
  else if b.val = 0x0D then [0x5C, 0x72]
  else if b.val = 0x09 then [0x5C, 0x74]
  else ascii "\\u00" ++ [_hex.getD (b.val >>> 4) 0, _hex.getD (b.val &&& 0xF) 0]

/-- The bytes the escaper appends for `s`, sequence by sequence; the first
argument bounds the number of sequences. -/
def escapeAux : Nat → List Byte → List Byte
  | 0, _ => []
  | _ + 1, [] => []
  | n + 1, b :: rest =>
    if b.val < 0x80 then selfText b ++ escapeAux n rest
    else if wellFormedLen (b :: rest) = 0 then ascii "\\ufffd" ++ escapeAux n rest
    else
      (b :: rest).take (wellFormedLen (b :: rest))
        ++ escapeAux n ((b :: rest).drop (wellFormedLen (b :: rest)))

/-- The bytes the escaper appends for `s`. -/
def escape (s : List Byte) : List Byte := escapeAux s.length s

/-- Lowercase hexadecimal digit of `n`, for `n` below 16. -/
def lowerHexDigit (n : Nat) : Byte :=
  if n < 10 then Fin.ofNat (0x30 + n) else Fin.ofNat (0x61 + (n - 10))

/-- Value of a lowercase hexadecimal digit. -/
def hexVal (c : Byte) : Nat := if c.val < 0x3A then c.val - 0x30 else c.val - 0x57

/-- Reading back the text of the escaper: a backslash starts an escape, any
other byte stands for itself. -/
def unescape : List Byte → List Byte
  | [] => []
  | c :: rest =>
    if c.val ≠ 0x5C then c :: unescape rest
    else
      match rest with
      | [] => [c]
      | d :: rest1 =>
        if d.val = 0x6E then 0x0A :: unescape rest1
        else if d.val = 0x72 then 0x0D :: unescape rest1
        else if d.val = 0x74 then 0x09 :: unescape rest1
        else if d.val = 0x75 then
          match rest1 with
          | _ :: _ :: h :: l :: rest2 => Fin.ofNat (hexVal h * 16 + hexVal l) :: unescape rest2
          | _ => []
        else d :: unescape rest1

/-- Method `CapitalString` of `zapcore.Level`. -/
def Level.CapitalString (l : Level) : List Byte :=
  if l = -1 then ascii "DEBUG"
  else if l = 0 then ascii "INFO"
  else if l = 1 then ascii "WARN"
  else if l = 2 then ascii "ERROR"
  else if l = 3 then ascii "DPANIC"
  else if l = 4 then ascii "PANIC"
  else if l = 5 then ascii "FATAL"
  else ascii "LEVEL(" ++ formatInt l ++ ascii ")"

/-- Function `zapcore.CapitalLevelEncoder`: it calls `AppendString` of the
encoder on the capital name of the level. -/
def CapitalLevelEncoder : Renderer Level := fun l => escape l.CapitalString

/-- Function `zapcore.FullCallerEncoder`: it calls `AppendString` of the encoder
on `caller.String()`. -/
def FullCallerEncoder : Renderer EntryCaller := fun c => escape c.String

/-- The configuration `InitLogger` builds in zaplog.go, with the full caller
renderer for the short one and without the renderers of time and duration,
which format with the standard library. -/
def initLoggerConfig : EncoderConfig :=
  { MessageKey := OmitKey
    LevelKey := _log_field_split
    TimeKey := OmitKey
    CallerKey := _log_field_split
    FunctionKey := OmitKey
    StacktraceKey := OmitKey
    SkipLineEnding := false
    LineEnding := DefaultLineEnding
    EncodeLevel := some CapitalLevelEncoder
    EncodeTime := none
    EncodeDuration := none
    EncodeCaller := some FullCallerEncoder
    ConsoleSeparator := ascii "|" }

/-! ## The segments of a line, in the words of the specification -/

/-- The rendered time: the text of the time renderer, and the nanoseconds since
the epoch in decimal when the renderer is absent or writes nothing. -/
def timeText (cfg : EncoderConfig) (t : Time) : List Byte :=
  match cfg.EncodeTime with
  | some e => if e t = [] then formatInt t.UnixNano else e t
  | none => formatInt t.UnixNano

/-- The rendered duration: the text of the duration renderer, and the tick
count in decimal when the renderer is absent or writes nothing. -/
def durationText (cfg : EncoderConfig) (d : Int) : List Byte :=
  match cfg.EncodeDuration with
  | some e => if e d = [] then formatInt d else e d
  | none => formatInt d

/-- The level segment: the text of the level renderer, and the escaped name of
the level when the renderer writes nothing. -/
def levelText (e : Renderer Level) (l : Level) : List Byte :=
  if e l = [] then escape l.String else e l

/-- The location of the caller: the text of the caller renderer, and the
escaped `file:line` form when the renderer is absent or writes nothing. -/
def locationText (cfg : EncoderConfig) (c : EntryCaller) : List Byte :=
  match cfg.EncodeCaller with
  | some e => if e c = [] then escape c.String else e c
  | none => escape c.String

/-- The caller segment: caller key and location when a caller key is
configured, then function key and function name when a function key is. -/
def callerSegment (cfg : EncoderConfig) (c : EntryCaller) : List Byte :=
  (if cfg.CallerKey ≠ [] then cfg.CallerKey ++ locationText cfg c else [])
    ++ (if cfg.FunctionKey ≠ [] then cfg.FunctionKey ++ escape c.Function else [])

/-- The text of one field: its key, then its value. -/
def fieldText (cfg : EncoderConfig) (f : Field) : List Byte :=
  match f with
  | .BoolType k v => k ++ (if v then ascii "true" else ascii "false")
  | .ByteStringType k v => k ++ escape v
  | .DurationType k v => k ++ durationText cfg v
  | .Int64Type k v => k ++ formatInt v
  | .StringType k v => k ++ escape v
  | .TimeType k v => k ++ timeText cfg v
  | .Uint64Type k v => k ++ formatUint v

/-- Whether the level segment is written: a level key and a level renderer are
configured. -/
def levelConfigured (cfg : EncoderConfig) : Bool :=
  cfg.EncodeLevel.isSome && decide (cfg.LevelKey ≠ [])

/-- The level segment followed by `sep`, when it is written. -/
def levelSegment (sep : List Byte) (cfg : EncoderConfig) (l : Level) : List Byte :=
  match cfg.EncodeLevel with
  | some e => if cfg.LevelKey ≠ [] then levelText e l ++ sep else []
  | none => []

/-- The line of the fixed segment order, the nine segments one after the
other; `sep` is the text that stands for the separator token. -/
def segmentOrderLine (sep : List Byte) (enc : lineEncoder) (ent : Entry)
    (fields : List Field) : List Byte :=
  (enc.EncoderConfig.TimeKey ++ timeText enc.EncoderConfig ent.Time ++ sep)
    ++ levelSegment sep enc.EncoderConfig ent.Level
    ++ enc.buf
    ++ (if ent.Caller.Defined then callerSegment enc.EncoderConfig ent.Caller ++ sep else [])
    ++ sep
    ++ (enc.EncoderConfig.MessageKey ++ escape ent.Message)
    ++ (fields.map (fieldText enc.EncoderConfig)).flatten
    ++ (enc.EncoderConfig.StacktraceKey ++ escape ent.Stack)
    ++ enc.EncoderConfig.LineEnding

/-- The columns before the message: what stands in front of each separator
token that `EncodeEntry` writes there. -/
def headColumns (enc : lineEncoder) (ent : Entry) : List (List Byte) :=
  [enc.EncoderConfig.TimeKey ++ timeText enc.EncoderConfig ent.Time]
    ++ (match enc.EncoderConfig.EncodeLevel with
        | some e => if enc.EncoderConfig.LevelKey ≠ [] then [levelText e ent.Level] else []
        | none => [])
    ++ (if ent.Caller.Defined then
          [enc.buf ++ callerSegment enc.EncoderConfig ent.Caller, []]
        else [enc.buf])

/-- The caller renderer is there when `EncodeEntry` calls it: for an entry
with a defined caller under a configured caller key. -/
def callerRenderable (cfg : EncoderConfig) (ent : Entry) : Bool :=
  !ent.Caller.Defined || decide (cfg.CallerKey = []) || cfg.EncodeCaller.isSome

/-- The bytes in front of the message, with `sep` for the separator token. -/
def headText (sep : List Byte) (enc : lineEncoder) (ent : Entry) : List Byte :=
  (enc.EncoderConfig.TimeKey ++ timeText enc.EncoderConfig ent.Time ++ sep)
    ++ levelSegment sep enc.EncoderConfig ent.Level
    ++ enc.buf
    ++ (if ent.Caller.Defined then callerSegment enc.EncoderConfig ent.Caller ++ sep else [])
    ++ sep

/-! ## Examples -/

/-- The zero `EncoderConfig`. -/
def zeroConfig : EncoderConfig :=
  { MessageKey := []
    LevelKey := []
    TimeKey := []
    CallerKey := []
    FunctionKey := []
    StacktraceKey := []
    SkipLineEnding := false
    LineEnding := []
    EncodeLevel := none
    EncodeTime := none
    EncodeDuration := none
    EncodeCaller := none
    ConsoleSeparator := [] }

/-- What `_linePool.New` returns, the zero `lineEncoder`; `clone` sets its
configuration before any use. -/
def linePoolNew : lineEncoder := { EncoderConfig := zeroConfig, buf := [], spaced := false }

/-- An entry at level INFO with the caller `file.go:10` and the message
`hello`. -/
def entryHello : Entry :=
  { Level := 0
    Time := { UnixNano := 0 }
    Message := ascii "hello"
    Caller := { Defined := true, File := ascii "file.go", Line := 10, Function := [] }
    Stack := [] }

/-- The entry `entryHello` without a caller. -/
def entryNoCaller : Entry := { entryHello with Caller := { entryHello.Caller with Defined := false } }

/-- A configuration whose keys hold no separator byte. -/
def plainConfig : EncoderConfig :=
  { initLoggerConfig with LevelKey := ascii "L", CallerKey := ascii "at " }

/-- An encoder whose buffer holds `a=1`. -/
def encoderA1 (spaced : Bool) : lineEncoder :=
  (NewLineEncoder initLoggerConfig spaced).AddInt64 (ascii "a=") 1

/-- A marshaler that appends 1, then 2. -/
def marshalOneTwo : ArrayMarshaler := fun enc => ((enc.AppendInt64 1).AppendInt64 2, none)

/-! ## Encoders by reference: the buffers and the pools -/

/-- The memory the encoders share. `bufs` is the content of each
`buffer.Buffer` by address, `next` the first address never handed out,
`freeBufs` the buffers in `_bufferPool` (returned by `Free`), `freeLines` the
instances in `_linePool`, each by the `spaced` flag `putLineEncoder` leaves in
it. -/
structure Heap where
  bufs : Nat → Buffer
  next : Nat
  freeBufs : List Nat
  freeLines : List Bool

/-- A `*lineEncoder`: its configuration, the address of its buffer and its
`spaced` flag. -/
structure EncoderRef where
  EncoderConfig : EncoderConfig
  buf : Nat
  spaced : Bool

namespace Heap

/-- The content of the buffer at `p`. -/
def read (h : Heap) (p : Nat) : Buffer := h.bufs p

/-- The heap after the buffer at `p` got the content `b`. -/
def write (h : Heap) (p : Nat) (b : Buffer) : Heap :=
  { h with bufs := fun q => if q = p then b else h.bufs q }

/-- The encoder `r` points to, with the content of its buffer. -/
def load (h : Heap) (r : EncoderRef) : lineEncoder :=
  { EncoderConfig := r.EncoderConfig, buf := h.read r.buf, spaced := r.spaced }

/-- A call `_bufferPool.Get()`: the pool hands out one of its buffers, reset, or
a new one when it has none to give; `pick` is the choice of `sync.Pool`. -/
def bufferPoolGet (h : Heap) (pick : Nat) : Nat × Heap :=
  match h.freeBufs.get? pick with
  | some p => (p, { h.write p [] with freeBufs := h.freeBufs.eraseIdx pick })
  | none => (h.next, { h.write h.next [] with next := h.next + 1 })

/-- A call `_linePool.Get()`: the `spaced` flag of the instance handed out, one
of the pool or a new one (`&lineEncoder{}`). -/
def linePoolGet (h : Heap) (pick : Nat) : Bool × Heap :=
  match h.freeLines.get? pick with
  | some s => (s, { h with freeLines := h.freeLines.eraseIdx pick })
  | none => (false, h)

/-- Method `clone`, on references. -/
def clone (h : Heap) (enc : EncoderRef) (pickLine pickBuf : Nat) : EncoderRef × Heap :=
  let l := h.linePoolGet pickLine
  let b := l.2.bufferPoolGet pickBuf
  ({ EncoderConfig := enc.EncoderConfig, buf := b.1, spaced := l.1 }, b.2)

/-- Method `Clone`, on references. -/
def Clone (h : Heap) (enc : EncoderRef) (pickLine pickBuf : Nat) : EncoderRef × Heap :=
  let c := h.clone enc pickLine pickBuf
  (c.1, c.2.write c.1.buf (Buffer.Write (c.2.read c.1.buf) (c.2.read enc.buf)))

end Heap

/-- A call of an `Add*` or `Append*` method with its arguments. -/
inductive Op
  | AddBool (key : List Byte) (val : Bool)
  | AddByteString (key : List Byte) (val : List Byte)
  | AddDuration (key : List Byte) (val : Int)
  | AddInt64 (key : List Byte) (val : Int)
  | AddString (key : List Byte) (val : List Byte)
  | AddTime (key : List Byte) (val : Time)
  | AddUint64 (key : List Byte) (val : Nat)
  | AppendBool (val : Bool)
  | AppendByteString (val : List Byte)
  | AppendDuration (val : Int)
  | AppendInt64 (val : Int)
  | AppendString (val : List Byte)
  | AppendTime (val : Time)
  | AppendUint64 (val : Nat)
  | OpenNamespace (key : List Byte)

/-- The call `op` on the encoder `enc`. -/
def Op.run (op : Op) (enc : lineEncoder) : lineEncoder :=
  match op with
  | .AddBool k v => enc.AddBool k v
  | .AddByteString k v => enc.AddByteString k v
  | .AddDuration k v => enc.AddDuration k v
  | .AddInt64 k v => enc.AddInt64 k v
  | .AddString k v => enc.AddString k v
  | .AddTime k v => enc.AddTime k v
  | .AddUint64 k v => enc.AddUint64 k v
  | .AppendBool v => enc.AppendBool v
  | .AppendByteString v => enc.AppendByteString v
  | .AppendDuration v => enc.AppendDuration v
  | .AppendInt64 v => enc.AppendInt64 v
  | .AppendString v => enc.AppendString v
  | .AppendTime v => enc.AppendTime v
  | .AppendUint64 v => enc.AppendUint64 v
  | .OpenNamespace k => enc.OpenNamespace k

/-- The call `op` on the encoder `r` points to: the method writes into the
buffer of `r`. -/
def Heap.apply (h : Heap) (r : EncoderRef) (op : Op) : Heap :=
  h.write r.buf (op.run (h.load r)).buf

/-- A sequence of calls on the encoder `r` points to. -/
def Heap.applyAll (h : Heap) (r : EncoderRef) (ops : List Op) : Heap :=
  ops.foldl (fun h op => h.apply r op) h

/-- A heap with one buffer, holding `a=1`, and empty pools. -/
def heapA1 : Heap :=
  { bufs := fun p => if p = 0 then ascii "a=1" else [], next := 1, freeBufs := []
    freeLines := [] }

/-- The encoder whose buffer is the one of `heapA1`. -/
def refA1 : EncoderRef := { EncoderConfig := initLoggerConfig, buf := 0, spaced := true }

/-! ## Binary fields -/

/-- The alphabet of `base64.StdEncoding`. -/
def base64Alphabet : List Byte :=
  ascii "ABCDEFGHIJKLMNOPQRSTUVWXYZabcdefghijklmnopqrstuvwxyz0123456789+/"

/-- The character of `base64.StdEncoding` for the six bits `n`. -/
def base64Char (n : Nat) : Byte := base64Alphabet.getD (n % 64) 0

/-- Method `EncodeToString` of `base64.StdEncoding` (Go standard library): four
characters for each three bytes, the last group padded with `=`. -/
def base64Encode : List Byte → List Byte
  | [] => []
  | [a] => [base64Char (a.val / 4), base64Char (a.val % 4 * 16), 0x3D, 0x3D]
  | [a, b] =>
    [base64Char (a.val / 4), base64Char (a.val % 4 * 16 + b.val / 16),
      base64Char (b.val % 16 * 4), 0x3D]
  | a :: b :: c :: rest =>
    [base64Char (a.val / 4), base64Char (a.val % 4 * 16 + b.val / 16),
      base64Char (b.val % 16 * 4 + c.val / 64), base64Char (c.val % 64)]
      ++ base64Encode rest

/-- Method `AddBinary`. -/
def lineEncoder.AddBinary (enc : lineEncoder) (key : List Byte) (val : List Byte) :
    lineEncoder :=
  enc.AddString key (base64Encode val)

/-! ## Reflected values -/

/-- Variable `nullLiteralBytes`. -/
def nullLiteralBytes : List Byte := ascii "null"

/-- Method `TrimNewline` of the buffer: it drops one newline at the end. -/
def Buffer.TrimNewline (b : Buffer) : Buffer :=
  if b.getLast? = some 0x0A then b.dropLast else b

/-- Type `zapcore.ReflectedEncoder`, as `NewReflectedEncoder` binds it to the
scratch buffer: what `Encode(obj)` writes to the buffer and the error it
returns, `none` for `nil`. The values `V` are those of `interface{}` other than
`nil`. -/
abbrev ReflectedEncoder (V : Type) := V → List Byte × Option Error

/-- A `lineEncoder` with what the reflected path uses besides: the factory
`NewReflectedEncoder` of its configuration, set by `NewLineEncoder`, and its
field `reflectBuf` (`none` for `nil`). The field `reflectEnc` is the factory
bound to `reflectBuf`, there exactly when `reflectBuf` is. -/
structure ReflectingEncoder (V : Type) where
  enc : lineEncoder
  NewReflectedEncoder : ReflectedEncoder V
  reflectBuf : Option Buffer

namespace ReflectingEncoder

variable {V : Type}

/-- Method `resetReflectBuf`: a buffer from the pool, or the scratch buffer
reset. -/
def resetReflectBuf (e : ReflectingEncoder V) : ReflectingEncoder V :=
  match e.reflectBuf with
  | none => { e with reflectBuf := some [] }
  | some _ => { e with reflectBuf := some [] }

/-- Method `encodeReflected`; `obj` is `none` for `nil`. -/
def encodeReflected (e : ReflectingEncoder V) (obj : Option V) :
    ReflectingEncoder V × Except Error (List Byte) :=
  match obj with
  | none => (e, .ok nullLiteralBytes)
  | some v =>
    let e := e.resetReflectBuf
    let r := e.NewReflectedEncoder v
    let e := { e with reflectBuf := e.reflectBuf.map (fun b => b.Write r.1) }
    match r.2 with
    | some err => (e, .error err)
    | none =>
      let e := { e with reflectBuf := e.reflectBuf.map Buffer.TrimNewline }
      (e, .ok (e.reflectBuf.getD []))

/-- Method `AddReflected`: the encoder after the call and the error returned. -/
def AddReflected (e : ReflectingEncoder V) (key : List Byte) (obj : Option V) :
    ReflectingEncoder V × Option Error :=
  match e.encodeReflected obj with
  | (e, .error err) => (e, some err)
  | (e, .ok valueBytes) =>
    let enc := e.enc.addKey key
    ({ e with enc := { enc with buf := enc.buf.Write valueBytes } }, none)

/-- Method `AppendReflected`: the encoder after the call and the error
returned. -/
def AppendReflected (e : ReflectingEncoder V) (val : Option V) :
    ReflectingEncoder V × Option Error :=
  match e.encodeReflected val with
  | (e, .error err) => (e, some err)
  | (e, .ok valueBytes) =>
    ({ e with enc := { e.enc with buf := e.enc.buf.Write valueBytes } }, none)

end ReflectingEncoder

/-- Values for an example of the reflected path: an integer, or a channel. -/
inductive SampleValue
  | int (i : Int)
  | chan

/-- The JSON encoder on `SampleValue`: the digits and a newline for an integer,
an error for a channel. -/
def sampleJSON : ReflectedEncoder SampleValue
  | .int i => (formatInt i ++ [0x0A], none)
  | .chan => ([], some (ascii "json: unsupported type: chan int"))

/-- An encoder holding `a=1`, with the sample JSON encoder. -/
def reflectingA1 : ReflectingEncoder SampleValue :=
  { enc := encoderA1 false, NewReflectedEncoder := sampleJSON, reflectBuf := none }

/-! ## Floats -/

/-- A `float64`, by the three fields of its IEEE 754 representation. -/
structure Float64 where
  sign : Bool
  exp : Fin 2048
  mant : Fin 4503599627370496

/-- A `float32`, by the three fields of its IEEE 754 representation. -/
structure Float32 where
  sign : Bool
  exp : Fin 256
  mant : Fin 8388608

/-- Function `math.IsNaN`. -/
def Float64.IsNaN (f : Float64) : Bool := decide (f.exp.val = 2047 ∧ f.mant.val ≠ 0)

/-- Function `math.IsInf`: with `sign` above 0 whether `f` is positive infinity,
below 0 whether it is negative infinity, at 0 whether it is either. -/
def Float64.IsInf (f : Float64) (sign : Int) : Bool :=
  decide (f.exp.val = 2047 ∧ f.mant.val = 0
    ∧ ((sign ≥ 0 ∧ f.sign = false) ∨ (sign ≤ 0 ∧ f.sign = true)))

/-- Whether a `float32` is a NaN. -/
def Float32.IsNaN (f : Float32) : Bool := decide (f.exp.val = 255 ∧ f.mant.val ≠ 0)

/-- Whether a `float32` is an infinity, with `sign` as for `math.IsInf`. -/
def Float32.IsInf (f : Float32) (sign : Int) : Bool :=
  decide (f.exp.val = 255 ∧ f.mant.val = 0
    ∧ ((sign ≥ 0 ∧ f.sign = false) ∨ (sign ≤ 0 ∧ f.sign = true)))

/-- The conversion `float64(v)` of a `float32`, which is exact: the exponent is
rebiased, a subnormal number is normalised, an infinity or a NaN stays one. For
a NaN the payload is widened as it is; hardware may set the quiet bit of a
signalling NaN in addition, and the result is a NaN either way. -/
def Float32.toFloat64 (v : Float32) : Float64 :=
  if v.exp.val = 255 then
    { sign := v.sign, exp := 2047, mant := Fin.ofNat (v.mant.val * 536870912) }
  else if v.exp.val = 0 then
    if v.mant.val = 0 then { sign := v.sign, exp := 0, mant := 0 }
    else
      { sign := v.sign
        exp := Fin.ofNat (Nat.log2 v.mant.val + 874)
        mant := Fin.ofNat
          ((v.mant.val - 2 ^ Nat.log2 v.mant.val) * 2 ^ (52 - Nat.log2 v.mant.val)) }
  else
    { sign := v.sign
      exp := Fin.ofNat (v.exp.val + 896)
      mant := Fin.ofNat (v.mant.val * 536870912) }

/-- The text of `strconv.AppendFloat(_, f, 'f', -1, bitSize)` for a float and a
bit size, which the standard library computes. -/
abbrev FloatFormatter := Float64 → Nat → List Byte

/-- Method `AppendFloat` of the buffer, over the formatter of the standard
library. -/
def Buffer.AppendFloat (fmt : FloatFormatter) (b : Buffer) (f : Float64) (bitSize : Nat) :
    Buffer :=
  b ++ fmt f bitSize

/-- Method `appendFloat`. -/
def lineEncoder.appendFloat (fmt : FloatFormatter) (enc : lineEncoder) (val : Float64)
    (bitSize : Nat) : lineEncoder :=
  if val.IsNaN then { enc with buf := enc.buf.AppendString (ascii "\"NaN\"") }
  else if val.IsInf 1 then { enc with buf := enc.buf.AppendString (ascii "\"+Inf\"") }
  else if val.IsInf (-1) then { enc with buf := enc.buf.AppendString (ascii "\"-Inf\"") }
  else { enc with buf := enc.buf.AppendFloat fmt val bitSize }

/-- Method `AppendFloat64`. -/
def lineEncoder.AppendFloat64 (fmt : FloatFormatter) (enc : lineEncoder) (v : Float64) :
    lineEncoder :=
  enc.appendFloat fmt v 64

/-- Method `AppendFloat32`. -/
def lineEncoder.AppendFloat32 (fmt : FloatFormatter) (enc : lineEncoder) (v : Float32) :
    lineEncoder :=
  enc.appendFloat fmt v.toFloat64 32

/-- Method `AddFloat64`. -/
def lineEncoder.AddFloat64 (fmt : FloatFormatter) (enc : lineEncoder) (key : List Byte)
    (val : Float64) : lineEncoder :=
  (enc.addKey key).AppendFloat64 fmt val

/-- Method `AddFloat32`. -/
def lineEncoder.AddFloat32 (fmt : FloatFormatter) (enc : lineEncoder) (key : List Byte)
    (val : Float32) : lineEncoder :=
  (enc.addKey key).AppendFloat32 fmt val

/-! ## EncodeEntry by reference -/

/-- The blocks `// message`, `// another fields` and `// strack` of
`EncodeEntry` and the line ending: what `EncodeEntry` does after the reserved
segment. -/
def entryTail (enc final : lineEncoder) (ent : Entry) (fields : List Field) : lineEncoder :=
  let final := final.addKey enc.EncoderConfig.MessageKey
  let final := final.AppendString ent.Message
  let final := addFields final fields
  let final := final.AddString final.EncoderConfig.StacktraceKey ent.Stack
  { final with buf := final.buf.AppendString final.EncoderConfig.LineEnding }

namespace Heap

/-- Method `Free` of the buffer at `p`: it goes back to `_bufferPool`. -/
def Free (h : Heap) (p : Nat) : Heap := { h with freeBufs := p :: h.freeBufs }

/-- Function `putLineEncoder`, on references: the instance goes back to
`_linePool` with its configuration and its buffers set to `nil`, and its
`spaced` flag as it is. -/
def putLineEncoder (h : Heap) (enc : EncoderRef) : Heap :=
  { h with freeLines := enc.spaced :: h.freeLines }

/-- One block of `EncodeEntry` on references: it reads the receiver and `final`
where the heap has them, and writes into the buffer of `final`. -/
def step (h : Heap) (enc final : EncoderRef)
    (block : lineEncoder → lineEncoder → lineEncoder) : Heap :=
  h.write final.buf (block (h.load enc) (h.load final)).buf

/-- Method `EncodeEntry`, on references: the address of the buffer it returns
and the heap after the call, `none` where Go panics. -/
def EncodeEntry (h : Heap) (enc : EncoderRef) (ent : Entry) (fields : List Field)
    (pickLine pickBuf : Nat) : Option (Nat × Heap) :=
  let c := h.clone enc pickLine pickBuf
  let final := c.1
  let h := c.2
  let h := h.step enc final (fun e f => entryTime e f ent)
  let h := h.step enc final (fun e f => entryLevel e f ent)
  let h := h.step enc final entryAccumulated
  match entryCaller (h.load enc) (h.load final) ent with
  | none => none
  | some f =>
    let h := h.write final.buf f.buf
    let h := h.step enc final (fun e f => f.AppendString e.EncoderConfig.ConsoleSeparator)
    let h := h.step enc final (fun e f => entryTail e f ent fields)
    some (final.buf, h.putLineEncoder final)

end Heap

/-! ## Theorems -/

/-! ## The decoder and well-formed sequences -/

theorem first_of_lt_C2 (b0 : Byte) (h0 : 0x80 ≤ b0.val) (h1 : b0.val < 0xC2) :
    first b0 = 0xF1 := by
  have a1 : ¬ b0.val < 0x80 := by omega
  simp only [first, a1, h1, if_true, if_false]

theorem first_of_C2_DF (b0 : Byte) (h1 : 0xC2 ≤ b0.val) (h2 : b0.val ≤ 0xDF) :
    first b0 = 0x02 := by
  have a1 : ¬ b0.val < 0x80 := by omega
  have a2 : ¬ b0.val < 0xC2 := by omega
  have a3 : b0.val < 0xE0 := by omega
  simp only [first, a1, a2, a3, if_true, if_false]

theorem first_of_E1_EC (b0 : Byte) (h1 : 0xE1 ≤ b0.val) (h2 : b0.val ≤ 0xEC) :
    first b0 = 0x03 := by
  have a1 : ¬ b0.val < 0x80 := by omega
  have a2 : ¬ b0.val < 0xC2 := by omega
  have a3 : ¬ b0.val < 0xE0 := by omega
  have a4 : ¬ b0.val = 0xE0 := by omega
  have a5 : b0.val < 0xED := by omega
  simp only [first, a1, a2, a3, a4, a5, if_true, if_false]

theorem first_of_EE_EF (b0 : Byte) (h1 : 0xEE ≤ b0.val) (h2 : b0.val ≤ 0xEF) :
    first b0 = 0x03 := by
  have a1 : ¬ b0.val < 0x80 := by omega
  have a2 : ¬ b0.val < 0xC2 := by omega
  have a3 : ¬ b0.val < 0xE0 := by omega
  have a4 : ¬ b0.val = 0xE0 := by omega
  have a5 : ¬ b0.val < 0xED := by omega
  have a6 : ¬ b0.val = 0xED := by omega
  have a7 : b0.val < 0xF0 := by omega
  simp only [first, a1, a2, a3, a4, a5, a6, a7, if_true, if_false]

theorem first_of_F1_F3 (b0 : Byte) (h1 : 0xF1 ≤ b0.val) (h2 : b0.val ≤ 0xF3) :
    first b0 = 0x04 := by
  have a1 : ¬ b0.val < 0x80 := by omega
  have a2 : ¬ b0.val < 0xC2 := by omega
  have a3 : ¬ b0.val < 0xE0 := by omega
  have a4 : ¬ b0.val = 0xE0 := by omega
  have a5 : ¬ b0.val < 0xED := by omega
  have a6 : ¬ b0.val = 0xED := by omega
  have a7 : ¬ b0.val < 0xF0 := by omega
  have a8 : ¬ b0.val = 0xF0 := by omega
  have a9 : b0.val < 0xF4 := by omega
  simp only [first, a1, a2, a3, a4, a5, a6, a7, a8, a9, if_true, if_false]

theorem first_of_gt_F4 (b0 : Byte) (h1 : 0xF5 ≤ b0.val) : first b0 = 0xF1 := by
  have a1 : ¬ b0.val < 0x80 := by omega
  have a2 : ¬ b0.val < 0xC2 := by omega
  have a3 : ¬ b0.val < 0xE0 := by omega
  have a4 : ¬ b0.val = 0xE0 := by omega
  have a5 : ¬ b0.val < 0xED := by omega
  have a6 : ¬ b0.val = 0xED := by omega
  have a7 : ¬ b0.val < 0xF0 := by omega
  have a8 : ¬ b0.val = 0xF0 := by omega
  have a9 : ¬ b0.val < 0xF4 := by omega
  have a10 : ¬ b0.val = 0xF4 := by omega
  simp only [first, a1, a2, a3, a4, a5, a6, a7, a8, a9, a10, if_false]

theorem first_of_E0 (b0 : Byte) (h1 : b0.val = 0xE0) : first b0 = 0x13 := by
  simp [first, h1]

theorem first_of_ED (b0 : Byte) (h1 : b0.val = 0xED) : first b0 = 0x23 := by
  simp [first, h1]

theorem first_of_F0 (b0 : Byte) (h1 : b0.val = 0xF0) : first b0 = 0x34 := by
  simp [first, h1]

theorem first_of_F4 (b0 : Byte) (h1 : b0.val = 0xF4) : first b0 = 0x44 := by
  simp [first, h1]

theorem secondLo_cases (b0 : Byte) :
    (b0.val = 0xE0 ∧ secondLo b0 = 0xA0) ∨ (b0.val = 0xF0 ∧ secondLo b0 = 0x90) ∨
      (b0.val ≠ 0xE0 ∧ b0.val ≠ 0xF0 ∧ secondLo b0 = 0x80) := by
  unfold secondLo
  split_ifs <;> omega

theorem secondHi_cases (b0 : Byte) :
    (b0.val = 0xED ∧ secondHi b0 = 0x9F) ∨ (b0.val = 0xF4 ∧ secondHi b0 = 0x8F) ∨
      (b0.val ≠ 0xED ∧ b0.val ≠ 0xF4 ∧ secondHi b0 = 0xBF) := by
  unfold secondHi
  split_ifs <;> omega

theorem DecodeRune_wellFormedLen_lt_C2 (b0 : Byte) (t : List Byte) (h0 : 0x80 ≤ b0.val) (h1 : b0.val < 0xC2) :
    (wellFormedLen (b0 :: t) = 0 → DecodeRune (b0 :: t) = (RuneError, 1)) ∧
    (wellFormedLen (b0 :: t) ≠ 0 → (DecodeRune (b0 :: t)).2 = wellFormedLen (b0 :: t)) := by
  have e1 : ¬ b0.val ≤ 0x7F := by omega
  have hlo := secondLo_cases b0
  have hhi := secondHi_cases b0
  have hf := first_of_lt_C2 b0 h0 h1
  rcases t with _ | ⟨b1, _ | ⟨b2, _ | ⟨b3, t3⟩⟩⟩ <;>
    simp only [wellFormedLen, e1, seq2, seq3, seq4, DecodeRune, hf, acceptRanges] <;>
    simp <;> split_ifs <;> (try simp) <;> intros <;> omega

theorem DecodeRune_wellFormedLen_C2_DF (b0 : Byte) (t : List Byte) (h1 : 0xC2 ≤ b0.val) (h2 : b0.val ≤ 0xDF) :
    (wellFormedLen (b0 :: t) = 0 → DecodeRune (b0 :: t) = (RuneError, 1)) ∧
    (wellFormedLen (b0 :: t) ≠ 0 → (DecodeRune (b0 :: t)).2 = wellFormedLen (b0 :: t)) := by
  have e1 : ¬ b0.val ≤ 0x7F := by omega
  have hlo := secondLo_cases b0
  have hhi := secondHi_cases b0
  have hf := first_of_C2_DF b0 h1 h2
  rcases t with _ | ⟨b1, _ | ⟨b2, _ | ⟨b3, t3⟩⟩⟩ <;>
    simp only [wellFormedLen, e1, seq2, seq3, seq4, DecodeRune, hf, acceptRanges] <;>
    simp <;> split_ifs <;> (try simp) <;> intros <;> omega

theorem DecodeRune_wellFormedLen_E0 (b0 : Byte) (t : List Byte) (h1 : b0.val = 0xE0) :
    (wellFormedLen (b0 :: t) = 0 → DecodeRune (b0 :: t) = (RuneError, 1)) ∧
    (wellFormedLen (b0 :: t) ≠ 0 → (DecodeRune (b0 :: t)).2 = wellFormedLen (b0 :: t)) := by
  have e1 : ¬ b0.val ≤ 0x7F := by omega
  have hlo := secondLo_cases b0
  have hhi := secondHi_cases b0
  have hf := first_of_E0 b0 h1
  rcases t with _ | ⟨b1, _ | ⟨b2, _ | ⟨b3, t3⟩⟩⟩ <;>
    simp only [wellFormedLen, e1, seq2, seq3, seq4, DecodeRune, hf, acceptRanges] <;>
    simp <;> split_ifs <;> (try simp) <;> intros <;> omega

theorem DecodeRune_wellFormedLen_E1_EC (b0 : Byte) (t : List Byte) (h1 : 0xE1 ≤ b0.val) (h2 : b0.val ≤ 0xEC) :
    (wellFormedLen (b0 :: t) = 0 → DecodeRune (b0 :: t) = (RuneError, 1)) ∧
    (wellFormedLen (b0 :: t) ≠ 0 → (DecodeRune (b0 :: t)).2 = wellFormedLen (b0 :: t)) := by
  have e1 : ¬ b0.val ≤ 0x7F := by omega
  have hlo := secondLo_cases b0
  have hhi := secondHi_cases b0
  have hf := first_of_E1_EC b0 h1 h2
  rcases t with _ | ⟨b1, _ | ⟨b2, _ | ⟨b3, t3⟩⟩⟩ <;>
    simp only [wellFormedLen, e1, seq2, seq3, seq4, DecodeRune, hf, acceptRanges] <;>
    simp <;> split_ifs <;> (try simp) <;> intros <;> omega

theorem DecodeRune_wellFormedLen_ED (b0 : Byte) (t : List Byte) (h1 : b0.val = 0xED) :
    (wellFormedLen (b0 :: t) = 0 → DecodeRune (b0 :: t) = (RuneError, 1)) ∧
    (wellFormedLen (b0 :: t) ≠ 0 → (DecodeRune (b0 :: t)).2 = wellFormedLen (b0 :: t)) := by
  have e1 : ¬ b0.val ≤ 0x7F := by omega
  have hlo := secondLo_cases b0
  have hhi := secondHi_cases b0
  have hf := first_of_ED b0 h1
  rcases t with _ | ⟨b1, _ | ⟨b2, _ | ⟨b3, t3⟩⟩⟩ <;>
    simp only [wellFormedLen, e1, seq2, seq3, seq4, DecodeRune, hf, acceptRanges] <;>
    simp <;> split_ifs <;> (try simp) <;> intros <;> omega

theorem DecodeRune_wellFormedLen_EE_EF (b0 : Byte) (t : List Byte) (h1 : 0xEE ≤ b0.val) (h2 : b0.val ≤ 0xEF) :
    (wellFormedLen (b0 :: t) = 0 → DecodeRune (b0 :: t) = (RuneError, 1)) ∧
    (wellFormedLen (b0 :: t) ≠ 0 → (DecodeRune (b0 :: t)).2 = wellFormedLen (b0 :: t)) := by
  have e1 : ¬ b0.val ≤ 0x7F := by omega
  have hlo := secondLo_cases b0
  have hhi := secondHi_cases b0
  have hf := first_of_EE_EF b0 h1 h2
  rcases t with _ | ⟨b1, _ | ⟨b2, _ | ⟨b3, t3⟩⟩⟩ <;>
    simp only [wellFormedLen, e1, seq2, seq3, seq4, DecodeRune, hf, acceptRanges] <;>
    simp <;> split_ifs <;> (try simp) <;> intros <;> omega

theorem DecodeRune_wellFormedLen_F0 (b0 : Byte) (t : List Byte) (h1 : b0.val = 0xF0) :
    (wellFormedLen (b0 :: t) = 0 → DecodeRune (b0 :: t) = (RuneError, 1)) ∧
    (wellFormedLen (b0 :: t) ≠ 0 → (DecodeRune (b0 :: t)).2 = wellFormedLen (b0 :: t)) := by
  have e1 : ¬ b0.val ≤ 0x7F := by omega
  have hlo := secondLo_cases b0
  have hhi := secondHi_cases b0
  have hf := first_of_F0 b0 h1
  rcases t with _ | ⟨b1, _ | ⟨b2, _ | ⟨b3, t3⟩⟩⟩ <;>
    simp only [wellFormedLen, e1, seq2, seq3, seq4, DecodeRune, hf, acceptRanges] <;>
    simp <;> split_ifs <;> (try simp) <;> intros <;> omega

theorem DecodeRune_wellFormedLen_F1_F3 (b0 : Byte) (t : List Byte) (h1 : 0xF1 ≤ b0.val) (h2 : b0.val ≤ 0xF3) :
    (wellFormedLen (b0 :: t) = 0 → DecodeRune (b0 :: t) = (RuneError, 1)) ∧
    (wellFormedLen (b0 :: t) ≠ 0 → (DecodeRune (b0 :: t)).2 = wellFormedLen (b0 :: t)) := by
  have e1 : ¬ b0.val ≤ 0x7F := by omega
  have hlo := secondLo_cases b0
  have hhi := secondHi_cases b0
  have hf := first_of_F1_F3 b0 h1 h2
  rcases t with _ | ⟨b1, _ | ⟨b2, _ | ⟨b3, t3⟩⟩⟩ <;>
    simp only [wellFormedLen, e1, seq2, seq3, seq4, DecodeRune, hf, acceptRanges] <;>
    simp <;> split_ifs <;> (try simp) <;> intros <;> omega

theorem DecodeRune_wellFormedLen_F4 (b0 : Byte) (t : List Byte) (h1 : b0.val = 0xF4) :
    (wellFormedLen (b0 :: t) = 0 → DecodeRune (b0 :: t) = (RuneError, 1)) ∧
    (wellFormedLen (b0 :: t) ≠ 0 → (DecodeRune (b0 :: t)).2 = wellFormedLen (b0 :: t)) := by
  have e1 : ¬ b0.val ≤ 0x7F := by omega
  have hlo := secondLo_cases b0
  have hhi := secondHi_cases b0
  have hf := first_of_F4 b0 h1
  rcases t with _ | ⟨b1, _ | ⟨b2, _ | ⟨b3, t3⟩⟩⟩ <;>
    simp only [wellFormedLen, e1, seq2, seq3, seq4, DecodeRune, hf, acceptRanges] <;>
    simp <;> split_ifs <;> (try simp) <;> intros <;> omega

theorem DecodeRune_wellFormedLen_gt_F4 (b0 : Byte) (t : List Byte) (h1 : 0xF5 ≤ b0.val) :
    (wellFormedLen (b0 :: t) = 0 → DecodeRune (b0 :: t) = (RuneError, 1)) ∧
    (wellFormedLen (b0 :: t) ≠ 0 → (DecodeRune (b0 :: t)).2 = wellFormedLen (b0 :: t)) := by
  have e1 : ¬ b0.val ≤ 0x7F := by omega
  have hlo := secondLo_cases b0
  have hhi := secondHi_cases b0
  have hf := first_of_gt_F4 b0 h1
  rcases t with _ | ⟨b1, _ | ⟨b2, _ | ⟨b3, t3⟩⟩⟩ <;>
    simp only [wellFormedLen, e1, seq2, seq3, seq4, DecodeRune, hf, acceptRanges] <;>
    simp <;> split_ifs <;> (try simp) <;> intros <;> omega

/-- The decoder agrees with the table of well-formed sequences: on a head that
is not ASCII it reports the replacement rune with width 1 exactly when no
well-formed sequence starts there, and the width of that sequence otherwise. -/
theorem DecodeRune_wellFormedLen (b0 : Byte) (t : List Byte) (h0 : 0x80 ≤ b0.val) :
    (wellFormedLen (b0 :: t) = 0 → DecodeRune (b0 :: t) = (RuneError, 1)) ∧
    (wellFormedLen (b0 :: t) ≠ 0 → (DecodeRune (b0 :: t)).2 = wellFormedLen (b0 :: t)) := by
  have hc : b0.val < 0xC2 ∨ (0xC2 ≤ b0.val ∧ b0.val ≤ 0xDF) ∨ b0.val = 0xE0 ∨
      (0xE1 ≤ b0.val ∧ b0.val ≤ 0xEC) ∨ b0.val = 0xED ∨ (0xEE ≤ b0.val ∧ b0.val ≤ 0xEF) ∨
      b0.val = 0xF0 ∨ (0xF1 ≤ b0.val ∧ b0.val ≤ 0xF3) ∨ b0.val = 0xF4 ∨ 0xF5 ≤ b0.val := by
    omega
  rcases hc with h1 | ⟨h1, h2⟩ | h1 | ⟨h1, h2⟩ | h1 | ⟨h1, h2⟩ | h1 | ⟨h1, h2⟩ | h1 | h1
  · exact DecodeRune_wellFormedLen_lt_C2 b0 t h0 h1
  · exact DecodeRune_wellFormedLen_C2_DF b0 t h1 h2
  · exact DecodeRune_wellFormedLen_E0 b0 t h1
  · exact DecodeRune_wellFormedLen_E1_EC b0 t h1 h2
  · exact DecodeRune_wellFormedLen_ED b0 t h1
  · exact DecodeRune_wellFormedLen_EE_EF b0 t h1 h2
  · exact DecodeRune_wellFormedLen_F0 b0 t h1
  · exact DecodeRune_wellFormedLen_F1_F3 b0 t h1 h2
  · exact DecodeRune_wellFormedLen_F4 b0 t h1
  · exact DecodeRune_wellFormedLen_gt_F4 b0 t h1

/-! ## Well-formed sequences -/

theorem wellFormedLen_ascii (b0 : Byte) (t : List Byte) (h : b0.val < 0x80) :
    wellFormedLen (b0 :: t) = 1 := by
  have e : b0.val ≤ 0x7F := by omega
  simp only [wellFormedLen, e, if_true]

theorem wellFormedLen_two (b0 b1 : Byte) (t : List Byte) (h : seq2 b0 b1 = true) :
    wellFormedLen (b0 :: b1 :: t) = 2 := by
  have e : ¬ b0.val ≤ 0x7F := by
    simp only [seq2, decide_eq_true_eq] at h
    omega
  simp only [wellFormedLen, e, h, if_true, if_false]

theorem wellFormedLen_three (b0 b1 b2 : Byte) (t : List Byte) (h : seq3 b0 b1 b2 = true) :
    wellFormedLen (b0 :: b1 :: b2 :: t) = 3 := by
  have e : ¬ b0.val ≤ 0x7F := by
    simp only [seq3, decide_eq_true_eq] at h
    omega
  have e2 : ¬ seq2 b0 b1 = true := by
    simp only [seq3, seq2, decide_eq_true_eq] at h ⊢
    omega
  simp [wellFormedLen, e, e2, h]

theorem wellFormedLen_four (b0 b1 b2 b3 : Byte) (t : List Byte)
    (h : seq4 b0 b1 b2 b3 = true) : wellFormedLen (b0 :: b1 :: b2 :: b3 :: t) = 4 := by
  have e : ¬ b0.val ≤ 0x7F := by
    simp only [seq4, decide_eq_true_eq] at h
    omega
  have e2 : ¬ seq2 b0 b1 = true := by
    simp only [seq4, seq2, decide_eq_true_eq] at h ⊢
    omega
  have e3 : ¬ seq3 b0 b1 b2 = true := by
    simp only [seq4, seq3, decide_eq_true_eq] at h ⊢
    omega
  simp [wellFormedLen, e, e2, e3, h]

/-- A sequence that starts with a byte that is not ASCII is one of the three
multi-byte forms. -/
theorem wellFormedLen_cases (b0 : Byte) (t : List Byte) (h0 : 0x80 ≤ b0.val)
    (h : wellFormedLen (b0 :: t) ≠ 0) :
    (∃ b1 t1, t = b1 :: t1 ∧ seq2 b0 b1 = true ∧ wellFormedLen (b0 :: t) = 2) ∨
    (∃ b1 b2 t2, t = b1 :: b2 :: t2 ∧ seq3 b0 b1 b2 = true
      ∧ wellFormedLen (b0 :: t) = 3) ∨
    (∃ b1 b2 b3 t3, t = b1 :: b2 :: b3 :: t3 ∧ seq4 b0 b1 b2 b3 = true
      ∧ wellFormedLen (b0 :: t) = 4) := by
  have e : ¬ b0.val ≤ 0x7F := by omega
  rcases t with _ | ⟨b1, t1⟩
  · simp [wellFormedLen, e] at h
  by_cases s2 : seq2 b0 b1 = true
  · exact Or.inl ⟨b1, t1, rfl, s2, wellFormedLen_two b0 b1 t1 s2⟩
  rcases t1 with _ | ⟨b2, t2⟩
  · simp [wellFormedLen, e, s2] at h
  by_cases s3 : seq3 b0 b1 b2 = true
  · exact Or.inr (Or.inl ⟨b1, b2, t2, rfl, s3, wellFormedLen_three b0 b1 b2 t2 s3⟩)
  rcases t2 with _ | ⟨b3, t3⟩
  · simp [wellFormedLen, e, s2, s3] at h
  by_cases s4 : seq4 b0 b1 b2 b3 = true
  · exact Or.inr (Or.inr ⟨b1, b2, b3, t3, rfl, s4, wellFormedLen_four b0 b1 b2 b3 t3 s4⟩)
  · simp [wellFormedLen, e, s2, s3, s4] at h

theorem seq2_ge (b0 b1 : Byte) (h : seq2 b0 b1 = true) : 0x80 ≤ b0.val ∧ 0x80 ≤ b1.val := by
  simp only [seq2, decide_eq_true_eq] at h
  omega

theorem seq3_ge (b0 b1 b2 : Byte) (h : seq3 b0 b1 b2 = true) :
    0x80 ≤ b0.val ∧ 0x80 ≤ b1.val ∧ 0x80 ≤ b2.val := by
  have hlo := secondLo_cases b0
  simp only [seq3, decide_eq_true_eq] at h
  omega

theorem seq4_ge (b0 b1 b2 b3 : Byte) (h : seq4 b0 b1 b2 b3 = true) :
    0x80 ≤ b0.val ∧ 0x80 ≤ b1.val ∧ 0x80 ≤ b2.val ∧ 0x80 ≤ b3.val := by
  have hlo := secondLo_cases b0
  simp only [seq4, decide_eq_true_eq] at h
  omega

theorem wellFormedLen_le (s : List Byte) : wellFormedLen s ≤ s.length := by
  rcases s with _ | ⟨b0, t⟩
  · simp [wellFormedLen]
  by_cases h0 : b0.val < 0x80
  · rw [wellFormedLen_ascii b0 t h0]
    simp
  by_cases h : wellFormedLen (b0 :: t) = 0
  · omega
  rcases wellFormedLen_cases b0 t (by omega) h with ⟨b1, t1, rfl, _, e⟩ |
    ⟨b1, b2, t2, rfl, _, e⟩ | ⟨b1, b2, b3, t3, rfl, _, e⟩ <;>
    rw [e] <;> simp

theorem wellFormedLen_ne_one (b0 : Byte) (t : List Byte) (h0 : 0x80 ≤ b0.val) :
    wellFormedLen (b0 :: t) ≠ 1 := by
  by_cases h : wellFormedLen (b0 :: t) = 0
  · omega
  rcases wellFormedLen_cases b0 t h0 h with ⟨b1, t1, rfl, _, e⟩ |
    ⟨b1, b2, t2, rfl, _, e⟩ | ⟨b1, b2, b3, t3, rfl, _, e⟩ <;> omega

/-- The bytes of a multi-byte sequence are all at least 0x80. -/
theorem wellFormedLen_take_ge (b0 : Byte) (t : List Byte) (h0 : 0x80 ≤ b0.val) :
    ∀ b ∈ (b0 :: t).take (wellFormedLen (b0 :: t)), 0x80 ≤ b.val := by
  by_cases h : wellFormedLen (b0 :: t) = 0
  · simp [h]
  rcases wellFormedLen_cases b0 t h0 h with ⟨b1, t1, rfl, s, e⟩ |
    ⟨b1, b2, t2, rfl, s, e⟩ | ⟨b1, b2, b3, t3, rfl, s, e⟩
  · have := seq2_ge b0 b1 s
    rw [e]
    simp
    omega
  · have := seq3_ge b0 b1 b2 s
    rw [e]
    simp
    omega
  · have := seq4_ge b0 b1 b2 b3 s
    rw [e]
    simp
    omega

/-- The length of the sequence at the head depends on that sequence only. -/
theorem wellFormedLen_take_append (s out : List Byte) (h : wellFormedLen s ≠ 0) :
    wellFormedLen (s.take (wellFormedLen s) ++ out) = wellFormedLen s := by
  rcases s with _ | ⟨b0, t⟩
  · simp [wellFormedLen] at h
  by_cases h0 : b0.val < 0x80
  · rw [wellFormedLen_ascii b0 t h0]
    simpa using wellFormedLen_ascii b0 out h0
  rcases wellFormedLen_cases b0 t (by omega) h with ⟨b1, t1, rfl, s, e⟩ |
    ⟨b1, b2, t2, rfl, s, e⟩ | ⟨b1, b2, b3, t3, rfl, s, e⟩
  · rw [e]
    simpa using wellFormedLen_two b0 b1 out s
  · rw [e]
    simpa using wellFormedLen_three b0 b1 b2 out s
  · rw [e]
    simpa using wellFormedLen_four b0 b1 b2 b3 out s

/-- An ASCII byte after `p` never completes a sequence that starts in `p`. -/
theorem wellFormedLen_append_ascii (b0 c : Byte) (p q : List Byte) (h0 : 0x80 ≤ b0.val)
    (hc : c.val < 0x80) :
    wellFormedLen (b0 :: p ++ c :: q) = wellFormedLen (b0 :: p) := by
  by_cases h : wellFormedLen (b0 :: p) = 0
  · rw [h]
    by_contra hne
    rcases wellFormedLen_cases b0 (p ++ c :: q) h0 hne with ⟨b1, t1, e, s, _⟩ |
      ⟨b1, b2, t2, e, s, _⟩ | ⟨b1, b2, b3, t3, e, s, _⟩
    · rcases p with _ | ⟨a1, p1⟩
      · simp at e
        have := seq2_ge b0 b1 s
        rw [← e.1] at this
        omega
      · simp at e
        rw [← e.1] at s
        rw [wellFormedLen_two b0 a1 p1 s] at h
        omega
    · rcases p with _ | ⟨a1, _ | ⟨a2, p2⟩⟩
      · simp at e
        have := seq3_ge b0 b1 b2 s
        rw [← e.1] at this
        omega
      · simp at e
        have := seq3_ge b0 b1 b2 s
        rw [← e.2.1] at this
        omega
      · simp at e
        rw [← e.1, ← e.2.1] at s
        rw [wellFormedLen_three b0 a1 a2 p2 s] at h
        omega
    · rcases p with _ | ⟨a1, _ | ⟨a2, _ | ⟨a3, p3⟩⟩⟩
      · simp at e
        have := seq4_ge b0 b1 b2 b3 s
        rw [← e.1] at this
        omega
      · simp at e
        have := seq4_ge b0 b1 b2 b3 s
        rw [← e.2.1] at this
        omega
      · simp at e
        have := seq4_ge b0 b1 b2 b3 s
        rw [← e.2.2.1] at this
        omega
      · simp at e
        rw [← e.1, ← e.2.1, ← e.2.2.1] at s
        rw [wellFormedLen_four b0 a1 a2 a3 p3 s] at h
        omega
  · rcases wellFormedLen_cases b0 p h0 h with ⟨b1, t1, rfl, s, e⟩ |
      ⟨b1, b2, t2, rfl, s, e⟩ | ⟨b1, b2, b3, t3, rfl, s, e⟩
    · rw [e]
      exact wellFormedLen_two b0 b1 _ s
    · rw [e]
      exact wellFormedLen_three b0 b1 b2 _ s
    · rw [e]
      exact wellFormedLen_four b0 b1 b2 b3 _ s

/-! ## The escaper appends `escape s` -/

theorem lineEncoder.tryAddRuneSelf_eq (enc : lineEncoder) (b : Byte) :
    enc.tryAddRuneSelf b =
      ({ enc with buf := enc.buf ++ selfText b }, decide (b.val < 0x80)) := by
  unfold lineEncoder.tryAddRuneSelf selfText
  by_cases h1 : b.val ≥ RuneSelf
  · have h1' : 0x80 ≤ b.val := h1
    have h1'' : ¬ b.val < 0x80 := by omega
    simp [h1, h1', h1'']
  · have h1' : ¬ 0x80 ≤ b.val := h1
    have h1'' : b.val < 0x80 := by omega
    simp only [h1, h1', h1'', if_false, decide_True]
    split_ifs <;> simp [Buffer.AppendByte, Buffer.AppendString]

theorem lineEncoder.safeAddStringLoop_eq (n : Nat) (enc : lineEncoder) (s : List Byte) :
    lineEncoder.safeAddStringLoop n enc s = { enc with buf := enc.buf ++ escapeAux n s } := by
  induction n generalizing enc s with
  | zero => simp [lineEncoder.safeAddStringLoop, escapeAux]
  | succ n ih =>
    rcases s with _ | ⟨b, rest⟩
    · simp [lineEncoder.safeAddStringLoop, escapeAux]
    · simp only [lineEncoder.safeAddStringLoop, escapeAux, lineEncoder.tryAddRuneSelf_eq,
        DecodeRuneInString]
      by_cases hb : b.val < 0x80
      · simp [hb, ih]
      · have hs : selfText b = [] := by
          have : 0x80 ≤ b.val := by omega
          simp [selfText, this]
        have hd := DecodeRune_wellFormedLen b rest (by omega)
        simp only [hb, hs, decide_False, Bool.false_eq_true, if_false, List.append_nil]
        by_cases hw : wellFormedLen (b :: rest) = 0
        · simp [hw, hd.1 hw, lineEncoder.tryAddRuneError, ih, Buffer.AppendString]
        · have h1 := wellFormedLen_ne_one b rest (by omega)
          have h2 := hd.2 hw
          have h3 : ¬ ((DecodeRune (b :: rest)).1 = RuneError
              ∧ wellFormedLen (b :: rest) = 1) := fun h => h1 h.2
          simp [hw, lineEncoder.tryAddRuneError, h3, h2, ih, Buffer.AppendString]

theorem lineEncoder.safeAddByteStringLoop_eq (n : Nat) (enc : lineEncoder) (s : List Byte) :
    lineEncoder.safeAddByteStringLoop n enc s = lineEncoder.safeAddStringLoop n enc s := by
  induction n generalizing enc s with
  | zero => rfl
  | succ n ih =>
    rcases s with _ | ⟨b, rest⟩
    · rfl
    · simp only [lineEncoder.safeAddByteStringLoop, lineEncoder.safeAddStringLoop,
        DecodeRuneInString, ih, Buffer.Write, Buffer.AppendString]

/-- More turns than `len(s)` change nothing: the loop is never cut short. -/
theorem escapeAux_fuel (n m : Nat) (s : List Byte) (hn : s.length ≤ n) (hm : s.length ≤ m) :
    escapeAux n s = escapeAux m s := by
  induction n generalizing m s with
  | zero =>
    have : s = [] := List.eq_nil_of_length_eq_zero (by omega)
    subst this
    cases m <;> rfl
  | succ n ih =>
    rcases s with _ | ⟨b, rest⟩
    · cases m <;> rfl
    · rcases m with _ | m
      · simp at hm
      · simp only [List.length_cons] at hn hm
        simp only [escapeAux]
        have e1 := ih m rest (by omega) (by omega)
        have hl : ((b :: rest).drop (wellFormedLen (b :: rest))).length
            = rest.length + 1 - wellFormedLen (b :: rest) := by simp
        by_cases hw : wellFormedLen (b :: rest) = 0
        · simp [hw, e1]
        · have e2 := ih m ((b :: rest).drop (wellFormedLen (b :: rest))) (by omega) (by omega)
          rw [e1, e2]

theorem escape_nil : escape [] = [] := rfl

theorem escape_cons_ascii (b : Byte) (rest : List Byte) (h : b.val < 0x80) :
    escape (b :: rest) = selfText b ++ escape rest := by
  simp [escape, escapeAux, h]

theorem escape_cons_invalid (b : Byte) (rest : List Byte) (h : 0x80 ≤ b.val)
    (hw : wellFormedLen (b :: rest) = 0) :
    escape (b :: rest) = ascii "\\ufffd" ++ escape rest := by
  have h' : ¬ b.val < 0x80 := by omega
  simp [escape, escapeAux, h', hw]

theorem escape_cons_seq (b : Byte) (rest : List Byte) (h : 0x80 ≤ b.val)
    (hw : wellFormedLen (b :: rest) ≠ 0) :
    escape (b :: rest) = (b :: rest).take (wellFormedLen (b :: rest))
      ++ escape ((b :: rest).drop (wellFormedLen (b :: rest))) := by
  have h' : ¬ b.val < 0x80 := by omega
  have hl : ((b :: rest).drop (wellFormedLen (b :: rest))).length ≤ rest.length := by
    simp
    omega
  simp only [escape, escapeAux, h', hw, if_false, List.length_cons]
  rw [escapeAux_fuel rest.length _ _ hl (le_refl _)]

theorem lineEncoder.safeAddString_eq (enc : lineEncoder) (s : List Byte) :
    enc.safeAddString s = { enc with buf := enc.buf ++ escape s } :=
  lineEncoder.safeAddStringLoop_eq s.length enc s

theorem lineEncoder.safeAddByteString_eq (enc : lineEncoder) (s : List Byte) :
    enc.safeAddByteString s = { enc with buf := enc.buf ++ escape s } := by
  unfold lineEncoder.safeAddByteString
  rw [lineEncoder.safeAddByteStringLoop_eq]
  exact lineEncoder.safeAddStringLoop_eq s.length enc s

/-! ## Properties of the text of the escaper -/

theorem validUTF8Aux_fuel (n m : Nat) (s : List Byte) (hn : s.length ≤ n)
    (hm : s.length ≤ m) : validUTF8Aux n s = validUTF8Aux m s := by
  induction n generalizing m s with
  | zero =>
    have : s = [] := List.eq_nil_of_length_eq_zero (by omega)
    subst this
    cases m <;> rfl
  | succ n ih =>
    rcases s with _ | ⟨b, rest⟩
    · cases m <;> rfl
    · rcases m with _ | m
      · simp at hm
      · simp only [List.length_cons] at hn hm
        simp only [validUTF8Aux]
        by_cases hw : wellFormedLen (b :: rest) = 0
        · simp [hw]
        · have hl : ((b :: rest).drop (wellFormedLen (b :: rest))).length
              = rest.length + 1 - wellFormedLen (b :: rest) := by simp
          rw [ih m ((b :: rest).drop (wellFormedLen (b :: rest))) (by omega) (by omega)]

theorem validUTF8_cons (b : Byte) (rest : List Byte) :
    validUTF8 (b :: rest) = (wellFormedLen (b :: rest) != 0
      && validUTF8 ((b :: rest).drop (wellFormedLen (b :: rest)))) := by
  simp only [validUTF8, validUTF8Aux, List.length_cons]
  by_cases hw : wellFormedLen (b :: rest) = 0
  · simp [hw]
  · have hl : ((b :: rest).drop (wellFormedLen (b :: rest))).length ≤ rest.length := by
      simp
      omega
    rw [validUTF8Aux_fuel rest.length _ _ hl (le_refl _)]

theorem validUTF8_cons_ascii (b : Byte) (rest : List Byte) (h : b.val < 0x80) :
    validUTF8 (b :: rest) = validUTF8 rest := by
  rw [validUTF8_cons, wellFormedLen_ascii b rest h]
  simp

theorem validUTF8_ascii_append (a x : List Byte) (h : ∀ b ∈ a, b.val < 0x80) :
    validUTF8 (a ++ x) = validUTF8 x := by
  induction a with
  | nil => rfl
  | cons b a ih =>
    rw [List.cons_append, validUTF8_cons_ascii b _ (h b (by simp))]
    exact ih (fun c hc => h c (by simp [hc]))

theorem validUTF8_seq_append (s x : List Byte) (h : wellFormedLen s ≠ 0) :
    validUTF8 (s.take (wellFormedLen s) ++ x) = validUTF8 x := by
  have hle := wellFormedLen_le s
  have hlen : (s.take (wellFormedLen s)).length = wellFormedLen s := by
    rw [List.length_take]
    omega
  have hne : s.take (wellFormedLen s) ++ x ≠ [] := by
    intro e
    have := congrArg List.length e
    rw [List.length_append, hlen] at this
    simp at this
    omega
  obtain ⟨b, rest, e⟩ := List.exists_cons_of_ne_nil hne
  have hw := wellFormedLen_take_append s x h
  have hd : (s.take (wellFormedLen s) ++ x).drop (wellFormedLen s) = x :=
    List.drop_left' hlen
  rw [e] at hw hd
  rw [e, validUTF8_cons, hw, hd]
  simp [h]

set_option maxRecDepth 100000 in
theorem selfText_ge : ∀ b : Byte, (selfText b).all (fun c => decide (0x20 ≤ c.val ∧ c.val < 0x80))
    = true := by
  decide

set_option maxRecDepth 100000 in
theorem selfText_control : ∀ b : Byte, b.val < 0x20 → b.val ≠ 0x0A → b.val ≠ 0x0D →
    b.val ≠ 0x09 →
    selfText b
      = [0x5C, 0x75, 0x30, 0x30, lowerHexDigit (b.val / 16), lowerHexDigit (b.val % 16)] := by
  decide

set_option maxRecDepth 100000 in
theorem hexVal_lowerHexDigit : ∀ b : Byte, b.val < 0x20 →
    (Fin.ofNat (hexVal (lowerHexDigit (b.val / 16)) * 16
      + hexVal (lowerHexDigit (b.val % 16))) : Byte) = b := by
  decide

theorem selfText_mem (b c : Byte) (h : c ∈ selfText b) : 0x20 ≤ c.val ∧ c.val < 0x80 := by
  have := selfText_ge b
  rw [List.all_eq_true] at this
  simpa using this c h

/-- No byte below 0x20 in the text of the escaper. -/
theorem escape_ge (s : List Byte) : ∀ c ∈ escape s, 0x20 ≤ c.val := by
  induction' hn : s.length using Nat.strong_induction_on with n ih generalizing s
  rcases s with _ | ⟨b, rest⟩
  · simp [escape_nil]
  · simp only [List.length_cons] at hn
    by_cases hb : b.val < 0x80
    · rw [escape_cons_ascii b rest hb]
      intro c hc
      rcases List.mem_append.1 hc with h | h
      · exact (selfText_mem b c h).1
      · exact ih rest.length (by omega) rest rfl c h
    · by_cases hw : wellFormedLen (b :: rest) = 0
      · rw [escape_cons_invalid b rest (by omega) hw]
        intro c hc
        rcases List.mem_append.1 hc with h | h
        · have : c ∈ ([0x5C, 0x75, 0x66, 0x66, 0x66, 0x64] : List Byte) := h
          simp at this
          rcases this with e | e | e | e <;> subst e <;> decide
        · exact ih rest.length (by omega) rest rfl c h
      · rw [escape_cons_seq b rest (by omega) hw]
        intro c hc
        rcases List.mem_append.1 hc with h | h
        · have := wellFormedLen_take_ge b rest (by omega) c h
          omega
        · have hl : ((b :: rest).drop (wellFormedLen (b :: rest))).length < n := by
            simp
            omega
          exact ih _ hl _ rfl c h

/-- The text of the escaper is valid UTF-8, whatever the input. -/
theorem validUTF8_escape (s : List Byte) : validUTF8 (escape s) = true := by
  induction' hn : s.length using Nat.strong_induction_on with n ih generalizing s
  rcases s with _ | ⟨b, rest⟩
  · rfl
  · simp only [List.length_cons] at hn
    by_cases hb : b.val < 0x80
    · rw [escape_cons_ascii b rest hb,
        validUTF8_ascii_append _ _ (fun c hc => (selfText_mem b c hc).2)]
      exact ih rest.length (by omega) rest rfl
    · by_cases hw : wellFormedLen (b :: rest) = 0
      · rw [escape_cons_invalid b rest (by omega) hw, validUTF8_ascii_append]
        · exact ih rest.length (by omega) rest rfl
        · intro c hc
          have : c ∈ ([0x5C, 0x75, 0x66, 0x66, 0x66, 0x64] : List Byte) := hc
          simp at this
          rcases this with e | e | e | e <;> subst e <;> decide
      · rw [escape_cons_seq b rest (by omega) hw, validUTF8_seq_append _ _ hw]
        have hl : ((b :: rest).drop (wellFormedLen (b :: rest))).length < n := by
          simp
          omega
        exact ih _ hl _ rfl

/-- The escaper works through an ASCII byte independently of what is around
it. -/
theorem escape_append_ascii (p q : List Byte) (c : Byte) (hc : c.val < 0x80) :
    escape (p ++ c :: q) = escape p ++ (selfText c ++ escape q) := by
  induction' hn : p.length using Nat.strong_induction_on with n ih generalizing p
  rcases p with _ | ⟨b, rest⟩
  · simp [escape_nil, escape_cons_ascii c q hc]
  · simp only [List.length_cons] at hn
    by_cases hb : b.val < 0x80
    · rw [List.cons_append, escape_cons_ascii b _ hb, escape_cons_ascii b rest hb,
        ih rest.length (by omega) rest rfl, List.append_assoc]
    · have hwe := wellFormedLen_append_ascii b c rest q (by omega) hc
      by_cases hw : wellFormedLen (b :: rest) = 0
      · rw [List.cons_append, escape_cons_invalid b _ (by omega) (by rw [← List.cons_append, hwe, hw]),
          escape_cons_invalid b rest (by omega) hw, ih rest.length (by omega) rest rfl,
          List.append_assoc]
      · have hle := wellFormedLen_le (b :: rest)
        have hl : ((b :: rest).drop (wellFormedLen (b :: rest))).length < n := by
          simp
          omega
        rw [escape_cons_seq b rest (by omega) hw, List.cons_append,
          escape_cons_seq b _ (by omega) (by rw [← List.cons_append, hwe]; exact hw),
          ← List.cons_append, hwe, List.take_append_of_le_length hle,
          List.drop_append_of_le_length hle, ih _ hl _ rfl, List.append_assoc]

/-- On valid UTF-8 without control bytes, backslash or quote the escaper copies
its input. -/
theorem escape_safe (s : List Byte) (hv : validUTF8 s = true)
    (hs : ∀ b ∈ s, 0x20 ≤ b.val ∧ b.val ≠ 0x5C ∧ b.val ≠ 0x22) : escape s = s := by
  induction' hn : s.length using Nat.strong_induction_on with n ih generalizing s
  rcases s with _ | ⟨b, rest⟩
  · rfl
  · simp only [List.length_cons] at hn
    have hb0 := hs b (by simp)
    by_cases hb : b.val < 0x80
    · rw [validUTF8_cons_ascii b rest hb] at hv
      have e1 : ¬ 0x80 ≤ b.val := by omega
      have hst : selfText b = [b] := by simp [selfText, e1, hb0]
      rw [escape_cons_ascii b rest hb, hst,
        ih rest.length (by omega) rest hv (fun c hc => hs c (by simp [hc])) rfl]
      rfl
    · rw [validUTF8_cons] at hv
      simp only [Bool.and_eq_true, bne_iff_ne, ne_eq] at hv
      have hl : ((b :: rest).drop (wellFormedLen (b :: rest))).length < n := by
        simp
        omega
      rw [escape_cons_seq b rest (by omega) hv.1,
        ih _ hl _ hv.2 (fun c hc => hs c (List.mem_of_mem_drop hc)) rfl]
      exact List.take_append_drop _ _

theorem val_5C : ((0x5C : Byte) : Nat) = 0x5C := rfl

theorem val_75 : ((0x75 : Byte) : Nat) = 0x75 := rfl

theorem val_6E : ((0x6E : Byte) : Nat) = 0x6E := rfl

theorem val_72 : ((0x72 : Byte) : Nat) = 0x72 := rfl

theorem val_74 : ((0x74 : Byte) : Nat) = 0x74 := rfl

theorem unescape_cons_plain (c : Byte) (out : List Byte) (h : c.val ≠ 0x5C) :
    unescape (c :: out) = c :: unescape out := by
  rw [unescape.eq_def]
  simp [h]

theorem unescape_unicode (h l : Byte) (out : List Byte) :
    unescape (0x5C :: 0x75 :: 0x30 :: 0x30 :: h :: l :: out)
      = Fin.ofNat (hexVal h * 16 + hexVal l) :: unescape out := by
  rw [unescape.eq_def]
  simp [val_5C, val_75]

theorem unescape_two (d : Byte) (out : List Byte) :
    unescape (0x5C :: d :: out) =
      if d.val = 0x6E then 0x0A :: unescape out
      else if d.val = 0x72 then 0x0D :: unescape out
      else if d.val = 0x74 then 0x09 :: unescape out
      else if d.val = 0x75 then
        match out with
        | _ :: _ :: h :: l :: rest2 => Fin.ofNat (hexVal h * 16 + hexVal l) :: unescape rest2
        | _ => []
      else d :: unescape out := by
  rw [unescape.eq_def]
  simp [val_5C]

theorem unescape_self (b : Byte) (out : List Byte) (h : b.val < 0x80) :
    unescape (selfText b ++ out) = b :: unescape out := by
  have e1 : ¬ 0x80 ≤ b.val := by omega
  by_cases hp : 0x20 ≤ b.val
  · by_cases h1 : b.val = 0x5C
    · have hs : selfText b = [0x5C, b] := by simp [selfText, h1]
      rw [hs, List.cons_append, List.cons_append, List.nil_append, unescape_two]
      simp [h1]
    · by_cases h2 : b.val = 0x22
      · have hs : selfText b = [0x5C, b] := by simp [selfText, h2]
        rw [hs, List.cons_append, List.cons_append, List.nil_append, unescape_two]
        simp [h2]
      · have hs : selfText b = [b] := by simp [selfText, e1, hp, h1, h2]
        rw [hs]
        exact unescape_cons_plain b out h1
  · by_cases h1 : b.val = 0x0A
    · have hb : b = 0x0A := Fin.ext h1
      subst hb
      rw [show selfText 0x0A = [0x5C, 0x6E] from rfl, List.cons_append, List.cons_append,
        List.nil_append, unescape_two]
      simp [val_6E, val_72, val_74]
    by_cases h2 : b.val = 0x0D
    · have hb : b = 0x0D := Fin.ext h2
      subst hb
      rw [show selfText 0x0D = [0x5C, 0x72] from rfl, List.cons_append, List.cons_append,
        List.nil_append, unescape_two]
      simp [val_6E, val_72, val_74]
    by_cases h3 : b.val = 0x09
    · have hb : b = 0x09 := Fin.ext h3
      subst hb
      rw [show selfText 0x09 = [0x5C, 0x74] from rfl, List.cons_append, List.cons_append,
        List.nil_append, unescape_two]
      simp [val_6E, val_72, val_74]
    rw [selfText_control b (by omega) h1 h2 h3]
    simp only [List.cons_append, List.nil_append]
    rw [unescape_unicode, hexVal_lowerHexDigit b (by omega)]

theorem unescape_high_append (w out : List Byte) (h : ∀ b ∈ w, 0x80 ≤ b.val) :
    unescape (w ++ out) = w ++ unescape out := by
  induction w with
  | nil => rfl
  | cons b w ih =>
    have hb := h b (by simp)
    rw [List.cons_append, unescape_cons_plain b _ (by omega),
      ih (fun c hc => h c (by simp [hc]))]
    rfl

/-- Reading back the text of the escaper gives the input, when it is valid
UTF-8. -/
theorem unescape_escape (s : List Byte) (hv : validUTF8 s = true) :
    unescape (escape s) = s := by
  induction' hn : s.length using Nat.strong_induction_on with n ih generalizing s
  rcases s with _ | ⟨b, rest⟩
  · rfl
  · simp only [List.length_cons] at hn
    by_cases hb : b.val < 0x80
    · rw [validUTF8_cons_ascii b rest hb] at hv
      rw [escape_cons_ascii b rest hb, unescape_self b _ hb,
        ih rest.length (by omega) rest hv rfl]
    · rw [validUTF8_cons] at hv
      simp only [Bool.and_eq_true, bne_iff_ne, ne_eq] at hv
      have hl : ((b :: rest).drop (wellFormedLen (b :: rest))).length < n := by
        simp
        omega
      rw [escape_cons_seq b rest (by omega) hv.1,
        unescape_high_append _ _ (wellFormedLen_take_ge b rest (by omega)),
        ih _ hl _ hv.2 rfl]
      exact List.take_append_drop _ _

/-! ## The escaper: claims C5 to C9 -/

/-- C5. The escaper appends no byte below 0x20, for `safeAddString` and for
`safeAddByteString` (which append the same bytes); and a newline, carriage
return, tab, backslash or double quote anywhere in the input, between any `p`
and `q`, is written as its two-character escape: the result is that of
escaping `p`, writing the escape, and escaping `q`. -/
theorem escaper_writes_no_control_byte (enc : lineEncoder) (s p q : List Byte) :
    (enc.safeAddString s).buf.take enc.buf.length = enc.buf ∧
    ((enc.safeAddString s).buf.drop enc.buf.length).all (fun b => decide (0x20 ≤ b.val)) = true ∧
    enc.safeAddByteString s = enc.safeAddString s ∧
    enc.safeAddString (p ++ 0x0A :: q) =
      lineEncoder.safeAddString
        { enc.safeAddString p with buf := (enc.safeAddString p).buf ++ [0x5C, 0x6E] } q ∧
    enc.safeAddString (p ++ 0x0D :: q) =
      lineEncoder.safeAddString
        { enc.safeAddString p with buf := (enc.safeAddString p).buf ++ [0x5C, 0x72] } q ∧
    enc.safeAddString (p ++ 0x09 :: q) =
      lineEncoder.safeAddString
        { enc.safeAddString p with buf := (enc.safeAddString p).buf ++ [0x5C, 0x74] } q ∧
    enc.safeAddString (p ++ 0x5C :: q) =
      lineEncoder.safeAddString
        { enc.safeAddString p with buf := (enc.safeAddString p).buf ++ [0x5C, 0x5C] } q ∧
    enc.safeAddString (p ++ 0x22 :: q) =
      lineEncoder.safeAddString
        { enc.safeAddString p with buf := (enc.safeAddString p).buf ++ [0x5C, 0x22] } q := by
  have key : ∀ c : Byte, c.val < 0x80 → enc.safeAddString (p ++ c :: q) =
      lineEncoder.safeAddString
        { enc.safeAddString p with buf := (enc.safeAddString p).buf ++ selfText c } q := by
    intro c hc
    simp only [lineEncoder.safeAddString_eq, escape_append_ascii p q c hc, List.append_assoc]
  refine ⟨?_, ?_, ?_, key 0x0A (by decide), key 0x0D (by decide), key 0x09 (by decide),
    key 0x5C (by decide), key 0x22 (by decide)⟩
  · simp [lineEncoder.safeAddString_eq]
  · rw [lineEncoder.safeAddString_eq, List.all_eq_true]
    intro b hb
    simp only [List.drop_left] at hb
    simpa using escape_ge s b hb
  · rw [lineEncoder.safeAddString_eq, lineEncoder.safeAddByteString_eq]

/-- C6. For a byte `b` from 0x00 to 0x1F other than newline, carriage return
and tab, escaping the one-byte input `b` appends backslash, `u`, `0`, `0` and
the two lowercase hexadecimal digits of `b`, high nibble first. -/
theorem control_byte_is_unicode_escaped (enc : lineEncoder) (b : Byte) (h : b.val ≤ 0x1F)
    (hn : b.val ≠ 0x0A) (hr : b.val ≠ 0x0D) (ht : b.val ≠ 0x09) :
    (enc.safeAddString [b]).buf
        = enc.buf ++ [0x5C, 0x75, 0x30, 0x30, lowerHexDigit (b.val / 16),
            lowerHexDigit (b.val % 16)] ∧
    (enc.safeAddByteString [b]).buf
        = enc.buf ++ [0x5C, 0x75, 0x30, 0x30, lowerHexDigit (b.val / 16),
            lowerHexDigit (b.val % 16)] := by
  have e : escape [b] = [0x5C, 0x75, 0x30, 0x30, lowerHexDigit (b.val / 16),
      lowerHexDigit (b.val % 16)] := by
    rw [escape_cons_ascii b [] (by omega), escape_nil, List.append_nil,
      selfText_control b (by omega) hn hr ht]
  rw [lineEncoder.safeAddString_eq, lineEncoder.safeAddByteString_eq, e]
  exact ⟨rfl, rfl⟩

/-- C6, at the bytes 0x01 and 0x1f. -/
theorem control_byte_is_unicode_escaped_witness :
    ((NewLineEncoder initLoggerConfig true).safeAddString [0x01]).buf = ascii "\\u0001" ∧
    ((NewLineEncoder initLoggerConfig true).safeAddByteString [0x1F]).buf = ascii "\\u001f" :=
  ⟨(control_byte_is_unicode_escaped (NewLineEncoder initLoggerConfig true) 0x01 (by decide)
      (by decide) (by decide) (by decide)).1,
    (control_byte_is_unicode_escaped (NewLineEncoder initLoggerConfig true) 0x1F (by decide)
      (by decide) (by decide) (by decide)).2⟩

/-- C7. On a valid UTF-8 string with no byte below 0x20, no backslash and no
double quote, the escaper appends the input bytes unchanged. -/
theorem escaper_copies_safe_text (enc : lineEncoder) (s : List Byte)
    (hv : validUTF8 s = true)
    (hs : ∀ b ∈ s, 0x20 ≤ b.val ∧ b.val ≠ 0x5C ∧ b.val ≠ 0x22) :
    (enc.safeAddString s).buf = enc.buf ++ s ∧
    (enc.safeAddByteString s).buf = enc.buf ++ s := by
  rw [lineEncoder.safeAddString_eq, lineEncoder.safeAddByteString_eq, escape_safe s hv hs]
  exact ⟨rfl, rfl⟩

set_option maxRecDepth 10000 in
/-- C7, at the text `a=1` followed by a three-byte sequence. -/
theorem escaper_copies_safe_text_witness :
    ((NewLineEncoder initLoggerConfig true).safeAddString
        (ascii "a=1" ++ [0xE4, 0xB8, 0xAD])).buf = ascii "a=1" ++ [0xE4, 0xB8, 0xAD] :=
  (escaper_copies_safe_text (NewLineEncoder initLoggerConfig true)
    (ascii "a=1" ++ [0xE4, 0xB8, 0xAD]) (by decide) (by decide)).1

/-- C8. Where the decoder fails at the head of the unread input (replacement
rune, width 1), the escaper appends the six characters backslash-ufffd and goes
on one byte further; what the escaper appends is valid UTF-8 for every input;
and `AddByteString` of the byte 0xFF appends the key and backslash-ufffd. -/
theorem invalid_encoding_is_replaced (enc : lineEncoder) (b : Byte)
    (rest s key : List Byte) :
    (DecodeRune (b :: rest) = (RuneError, 1) →
      enc.safeAddByteString (b :: rest)
          = lineEncoder.safeAddByteString
              { enc with buf := enc.buf ++ ascii "\\ufffd" } rest ∧
      enc.safeAddString (b :: rest)
          = lineEncoder.safeAddString
              { enc with buf := enc.buf ++ ascii "\\ufffd" } rest) ∧
    validUTF8 ((enc.safeAddByteString s).buf.drop enc.buf.length) = true ∧
    validUTF8 ((enc.safeAddString s).buf.drop enc.buf.length) = true ∧
    (enc.AddByteString key [0xFF]).buf = enc.buf ++ key ++ ascii "\\ufffd" := by
  refine ⟨?_, ?_, ?_, ?_⟩
  · intro hd
    have hb : 0x80 ≤ b.val := by
      by_contra hlt
      have h1 : first b = 0xF0 := by
        have : b.val < 0x80 := by omega
        simp [first, this]
      have h2 : DecodeRune (b :: rest) = (b.val, 1) := by
        simp [DecodeRune, h1]
      rw [h2] at hd
      have := congrArg Prod.fst hd
      simp only [RuneError] at this
      omega
    have hw : wellFormedLen (b :: rest) = 0 := by
      by_contra hne
      have h1 := (DecodeRune_wellFormedLen b rest hb).2 hne
      rw [hd] at h1
      exact wellFormedLen_ne_one b rest hb h1.symm
    simp only [lineEncoder.safeAddString_eq, lineEncoder.safeAddByteString_eq,
      escape_cons_invalid b rest hb hw, List.append_assoc, and_self]
  · rw [lineEncoder.safeAddByteString_eq]
    simp only [List.drop_left]
    exact validUTF8_escape s
  · rw [lineEncoder.safeAddString_eq]
    simp only [List.drop_left]
    exact validUTF8_escape s
  · have e : escape [0xFF] = ascii "\\ufffd" := by decide
    simp only [lineEncoder.AddByteString, lineEncoder.AppendByteString,
      lineEncoder.safeAddByteString_eq, e, lineEncoder.addKey, Buffer.AppendString]
    by_cases hk : key = []
    · simp [hk]
    · simp [hk]

/-- C8, at the input 0xFF then `a`. -/
theorem invalid_encoding_is_replaced_witness :
    ((NewLineEncoder initLoggerConfig true).safeAddByteString [0xFF, 0x61]).buf
      = ascii "\\ufffda" :=
  (congrArg lineEncoder.buf
    ((invalid_encoding_is_replaced (NewLineEncoder initLoggerConfig true) 0xFF [0x61] [] []).1
      (by decide)).1).trans (by decide)

/-- C9. The escaper is injective on valid UTF-8: two valid strings that it
escapes to the same bytes, from the same buffer, are equal. -/
theorem escaper_injective_on_valid_utf8 (enc : lineEncoder) (s t : List Byte)
    (hs : validUTF8 s = true) (ht : validUTF8 t = true)
    (h : (enc.safeAddString s).buf = (enc.safeAddString t).buf) : s = t := by
  rw [lineEncoder.safeAddString_eq, lineEncoder.safeAddString_eq] at h
  have h' : escape s = escape t := List.append_cancel_left h
  rw [← unescape_escape s hs, ← unescape_escape t ht, h']

/-- C9, at a newline byte and at the two characters backslash and `n`: the
inputs differ, so do the escaped texts. -/
theorem escaper_injective_on_valid_utf8_witness :
    ((NewLineEncoder initLoggerConfig true).safeAddString [0x0A]).buf
      ≠ ((NewLineEncoder initLoggerConfig true).safeAddString [0x5C, 0x6E]).buf :=
  fun h => absurd
    (escaper_injective_on_valid_utf8 (NewLineEncoder initLoggerConfig true) [0x0A] [0x5C, 0x6E]
      (by decide) (by decide) h) (by decide)

/-! ## The operations append -/

theorem lineEncoder.addKey_eq (enc : lineEncoder) (key : List Byte) :
    enc.addKey key = { enc with buf := enc.buf ++ key } := by
  unfold lineEncoder.addKey
  by_cases h : key = []
  · simp [h]
  · simp [h, Buffer.AppendString]

theorem lineEncoder.AppendString_eq (enc : lineEncoder) (s : List Byte) :
    enc.AppendString s = { enc with buf := enc.buf ++ escape s } :=
  lineEncoder.safeAddString_eq enc s

theorem lineEncoder.AppendByteString_eq (enc : lineEncoder) (s : List Byte) :
    enc.AppendByteString s = { enc with buf := enc.buf ++ escape s } :=
  lineEncoder.safeAddByteString_eq enc s

theorem lineEncoder.AppendTime_eq (enc : lineEncoder) (t : Time) :
    enc.AppendTime t = { enc with buf := enc.buf ++ timeText enc.EncoderConfig t } := by
  unfold lineEncoder.AppendTime timeText
  rcases h : enc.EncoderConfig.EncodeTime with _ | e
  · simp [lineEncoder.AppendInt64, Buffer.AppendInt, Buffer.Len]
  · by_cases he : e t = []
    · simp [lineEncoder.render, he, lineEncoder.AppendInt64, Buffer.AppendInt, Buffer.Len]
    · simp [lineEncoder.render, he, Buffer.Len]

theorem lineEncoder.AppendDuration_eq (enc : lineEncoder) (d : Int) :
    enc.AppendDuration d = { enc with buf := enc.buf ++ durationText enc.EncoderConfig d } := by
  unfold lineEncoder.AppendDuration durationText
  rcases h : enc.EncoderConfig.EncodeDuration with _ | e
  · simp [lineEncoder.AppendInt64, Buffer.AppendInt, Buffer.Len]
  · by_cases he : e d = []
    · simp [lineEncoder.render, he, lineEncoder.AppendInt64, Buffer.AppendInt, Buffer.Len]
    · simp [lineEncoder.render, he, Buffer.Len]

theorem Field.AddTo_eq (f : Field) (enc : lineEncoder) :
    f.AddTo enc = { enc with buf := enc.buf ++ fieldText enc.EncoderConfig f } := by
  cases f <;>
    simp [Field.AddTo, fieldText, lineEncoder.AddBool, lineEncoder.AddByteString,
      lineEncoder.AddDuration, lineEncoder.AddInt64, lineEncoder.AddString,
      lineEncoder.AddTime, lineEncoder.AddUint64, lineEncoder.addKey_eq,
      lineEncoder.AppendString_eq, lineEncoder.AppendByteString_eq,
      lineEncoder.AppendTime_eq, lineEncoder.AppendDuration_eq, lineEncoder.AppendBool,
      lineEncoder.AppendInt64, lineEncoder.AppendUint64, Buffer.AppendBool,
      Buffer.AppendInt, Buffer.AppendUint]

theorem addFields_eq (fields : List Field) (enc : lineEncoder) :
    addFields enc fields
      = { enc with buf := enc.buf ++ (fields.map (fieldText enc.EncoderConfig)).flatten } := by
  unfold addFields
  induction fields generalizing enc with
  | nil => simp
  | cons f fs ih =>
    rw [List.foldl_cons, ih, Field.AddTo_eq]
    simp

/-! ## The entry assembler -/

theorem length_eq_length_append {α : Type} (a b : List α) :
    (a.length = (a ++ b).length) ↔ b = [] := by
  rw [List.length_append]
  constructor
  · intro h
    exact List.eq_nil_of_length_eq_zero (by omega)
  · intro h
    simp [h]

theorem entryTime_eq (enc final : lineEncoder) (ent : Entry) :
    entryTime enc final ent
      = { final with buf := (final.buf ++ (final.EncoderConfig.TimeKey
            ++ timeText final.EncoderConfig ent.Time
            ++ escape enc.EncoderConfig.ConsoleSeparator)) } := by
  simp [entryTime, lineEncoder.AddTime, lineEncoder.addKey_eq, lineEncoder.AppendTime_eq,
    lineEncoder.AppendString_eq]

theorem entryLevel_eq (enc final : lineEncoder) (ent : Entry) :
    entryLevel enc final ent
      = { final with buf := (final.buf
            ++ levelSegment (escape enc.EncoderConfig.ConsoleSeparator) final.EncoderConfig
                ent.Level) } := by
  unfold entryLevel levelSegment levelText
  rcases hl : final.EncoderConfig.EncodeLevel with _ | el
  · simp
  · by_cases hk : final.EncoderConfig.LevelKey = []
    · simp [hk]
    · by_cases he : el ent.Level = []
      · simp [hk, he, lineEncoder.render, lineEncoder.AppendString_eq, Buffer.Len]
      · simp [hk, he, lineEncoder.render, lineEncoder.AppendString_eq, Buffer.Len,
          length_eq_length_append]

theorem entryAccumulated_eq (enc final : lineEncoder) :
    entryAccumulated enc final = { final with buf := final.buf ++ enc.buf } := by
  unfold entryAccumulated
  by_cases hb : enc.buf = []
  · simp [hb, Buffer.Len]
  · have : enc.buf.Len > 0 := List.length_pos.2 hb
    simp [this, Buffer.Write]

theorem entryCaller_eq (enc final : lineEncoder) (ent : Entry)
    (hc : callerRenderable final.EncoderConfig ent = true) :
    entryCaller enc final ent
      = some { final with buf := (final.buf
            ++ (if ent.Caller.Defined then
                  callerSegment final.EncoderConfig ent.Caller
                    ++ escape enc.EncoderConfig.ConsoleSeparator
                else [])) } := by
  unfold entryCaller callerSegment locationText
  by_cases hd : ent.Caller.Defined = true
  · by_cases hk : final.EncoderConfig.CallerKey = []
    · by_cases hf : final.EncoderConfig.FunctionKey = []
      · simp [hd, hk, hf, lineEncoder.AppendString_eq]
      · simp [hd, hk, hf, lineEncoder.AppendString_eq, lineEncoder.addKey_eq]
    · have hs : final.EncoderConfig.EncodeCaller.isSome = true := by
        simpa [callerRenderable, hd, hk] using hc
      rcases hcr : final.EncoderConfig.EncodeCaller with _ | ec
      · simp [hcr] at hs
      · by_cases he : ec ent.Caller = [] <;>
        by_cases hf : final.EncoderConfig.FunctionKey = [] <;>
        simp [hd, hk, hf, he, hcr, lineEncoder.render, lineEncoder.AppendString_eq,
          lineEncoder.addKey_eq, Buffer.Len, length_eq_length_append]
  · simp [hd]

theorem encodeEntryHead_eq (enc pooled : lineEncoder) (ent : Entry)
    (hc : callerRenderable enc.EncoderConfig ent = true) :
    encodeEntryHead enc pooled ent
      = some { EncoderConfig := enc.EncoderConfig
               buf := headText (escape enc.EncoderConfig.ConsoleSeparator) enc ent
               spaced := pooled.spaced } := by
  unfold encodeEntryHead
  simp only [entryTime_eq, entryLevel_eq, entryAccumulated_eq]
  rw [entryCaller_eq _ _ _ (by simpa [lineEncoder.clone] using hc)]
  simp [lineEncoder.clone, headText, lineEncoder.AppendString_eq]

theorem EncodeEntry_eq (enc pooled : lineEncoder) (ent : Entry) (fields : List Field)
    (hc : callerRenderable enc.EncoderConfig ent = true) :
    EncodeEntry enc pooled ent fields
      = some (segmentOrderLine (escape enc.EncoderConfig.ConsoleSeparator) enc ent fields) := by
  unfold EncodeEntry
  rw [encodeEntryHead_eq enc pooled ent hc]
  simp [lineEncoder.addKey_eq, lineEncoder.AppendString_eq, addFields_eq,
    lineEncoder.AddString, Buffer.AppendString, segmentOrderLine, headText]

theorem headColumns_flatten (sep : List Byte) (enc : lineEncoder) (ent : Entry) :
    ((headColumns enc ent).map (fun col => col ++ sep)).flatten = headText sep enc ent := by
  unfold headColumns headText levelSegment
  rcases hl : enc.EncoderConfig.EncodeLevel with _ | el <;>
  by_cases hk : enc.EncoderConfig.LevelKey = [] <;>
  by_cases hd : ent.Caller.Defined = true <;>
  simp [hk, hd]

theorem headColumns_length (enc : lineEncoder) (ent : Entry) :
    (headColumns enc ent).length
      = 2 + (if levelConfigured enc.EncoderConfig then 1 else 0)
          + (if ent.Caller.Defined then 1 else 0) := by
  unfold headColumns levelConfigured
  rcases hl : enc.EncoderConfig.EncodeLevel with _ | el <;>
  by_cases hk : enc.EncoderConfig.LevelKey = [] <;>
  by_cases hd : ent.Caller.Defined = true <;>
  simp [hk, hd]

/-! ## Separators and the entry assembler: claims C1 to C4 -/

/-- C1, counterexample. With `a=1` in the buffer, adding the field `b=2` gives
`a=1b=2`, in spaced mode too, and `AppendArray` with a marshaler that appends
1 then 2 gives `[12]`: no comma is written. -/
theorem separator_rule_counterexample :
    ((encoderA1 false).AddInt64 (ascii "b=") 2).buf = ascii "a=1b=2" ∧
    ((encoderA1 false).AddInt64 (ascii "b=") 2).buf ≠ ascii "a=1,b=2" ∧
    ((encoderA1 true).AddInt64 (ascii "b=") 2).buf ≠ ascii "a=1, b=2" ∧
    ((NewLineEncoder initLoggerConfig false).AppendArray marshalOneTwo).1.buf = ascii "[12]" ∧
    ((NewLineEncoder initLoggerConfig false).AppendArray marshalOneTwo).1.buf
      ≠ ascii "[1,2]" := by
  decide

/-- C1, amended. No field-add or value-append operation writes a separator:
each appends the key (when there is one) and then the text of the value,
directly after what the buffer holds, whatever its last byte and whatever the
`spaced` flag. The separator rule is what `addElementSeparator` does when it
is called (nothing on an empty buffer or after one of the five bytes, else a
comma and, in spaced mode, a space), and no operation calls it. -/
theorem no_operation_writes_a_separator (enc : lineEncoder) (key val : List Byte) (i : Int)
    (n : Nat) (v : Bool) (f : Field) :
    (enc.AddString key val).buf = enc.buf ++ key ++ escape val ∧
    (enc.AddByteString key val).buf = enc.buf ++ key ++ escape val ∧
    (enc.AddInt64 key i).buf = enc.buf ++ key ++ formatInt i ∧
    (enc.AddUint64 key n).buf = enc.buf ++ key ++ formatUint n ∧
    (enc.AddBool key v).buf = enc.buf ++ key ++ (if v then ascii "true" else ascii "false") ∧
    (enc.AppendString val).buf = enc.buf ++ escape val ∧
    (enc.AppendInt64 i).buf = enc.buf ++ formatInt i ∧
    (enc.AppendUint64 n).buf = enc.buf ++ formatUint n ∧
    (f.AddTo enc).buf = enc.buf ++ fieldText enc.EncoderConfig f ∧
    (enc.buf = [] → enc.addElementSeparator = enc) ∧
    (∀ init c, enc.buf = init ++ [c] →
      (c.val = 0x7B ∨ c.val = 0x5B ∨ c.val = 0x3A ∨ c.val = 0x2C ∨ c.val = 0x20 →
        enc.addElementSeparator = enc) ∧
      (¬ (c.val = 0x7B ∨ c.val = 0x5B ∨ c.val = 0x3A ∨ c.val = 0x2C ∨ c.val = 0x20) →
        enc.addElementSeparator
          = { enc with buf := enc.buf ++ (if enc.spaced then [0x2C, 0x20] else [0x2C]) })) := by
  refine ⟨?_, ?_, ?_, ?_, ?_, ?_, ?_, ?_, ?_, ?_, ?_⟩
  · simp [lineEncoder.AddString, lineEncoder.addKey_eq, lineEncoder.AppendString_eq]
  · simp [lineEncoder.AddByteString, lineEncoder.addKey_eq, lineEncoder.AppendByteString_eq]
  · simp [lineEncoder.AddInt64, lineEncoder.addKey_eq, lineEncoder.AppendInt64,
      Buffer.AppendInt]
  · simp [lineEncoder.AddUint64, lineEncoder.addKey_eq, lineEncoder.AppendUint64,
      Buffer.AppendUint]
  · simp [lineEncoder.AddBool, lineEncoder.addKey_eq, lineEncoder.AppendBool,
      Buffer.AppendBool]
  · simp [lineEncoder.AppendString_eq]
  · simp [lineEncoder.AppendInt64, Buffer.AppendInt]
  · simp [lineEncoder.AppendUint64, Buffer.AppendUint]
  · simp [Field.AddTo_eq]
  · intro h
    simp [lineEncoder.addElementSeparator, h, Buffer.Len]
  · intro init c h
    have hlast : enc.buf.getD ((((enc.buf.Len : Nat) : Int) - 1).toNat) 0 = c := by
      simp [h, Buffer.Len]
    have hnn : ¬ (((enc.buf.Len : Nat) : Int) - 1 < 0) := by
      simp [h, Buffer.Len]
    constructor
    · intro hc
      simp only [lineEncoder.addElementSeparator, hnn, hlast, hc, if_true, if_false]
    · intro hc
      simp only [lineEncoder.addElementSeparator, hnn, hlast, hc, if_false,
        Buffer.AppendByte]
      by_cases hs : enc.spaced = true <;> simp [hs]

/-- C2, counterexample. With a tab as separator token the line is not the
concatenation of the segments with the token between them: `EncodeEntry`
writes the token through the escaper, so backslash and `t` stand in the line
where the tab would. -/
theorem segment_order_counterexample :
    EncodeEntry (NewLineEncoder { initLoggerConfig with ConsoleSeparator := [0x09] } false)
        linePoolNew entryHello []
      ≠ some (segmentOrderLine [0x09]
          (NewLineEncoder { initLoggerConfig with ConsoleSeparator := [0x09] } false)
          entryHello []) ∧
    EncodeEntry (NewLineEncoder { initLoggerConfig with ConsoleSeparator := [0x09] } false)
        linePoolNew entryHello []
      = some (ascii "0\\tINFO\\t|file.go:10\\t\\thello\n") := by
  decide

/-- C2, amended. When the caller renderer is there where it is called, the
line `EncodeEntry` returns is the nine segments in their fixed order, with the
escaped separator token in the place of the separator token. -/
theorem segment_order_with_escaped_separator (enc pooled : lineEncoder) (ent : Entry)
    (fields : List Field) (hc : callerRenderable enc.EncoderConfig ent = true) :
    EncodeEntry enc pooled ent fields
      = some (segmentOrderLine (escape enc.EncoderConfig.ConsoleSeparator) enc ent fields) :=
  EncodeEntry_eq enc pooled ent fields hc

/-- C2, at the configuration of `InitLogger`, an encoder holding `a=1` and one
field. -/
theorem segment_order_with_escaped_separator_witness :
    EncodeEntry (encoderA1 true) linePoolNew entryHello [Field.Int64Type (ascii "n=") 5]
      = some (ascii "0|INFO|a=1|file.go:10||hellon=5\n") :=
  (segment_order_with_escaped_separator (encoderA1 true) linePoolNew entryHello
    [Field.Int64Type (ascii "n=") 5] (by decide)).trans (by decide)

/-- C3, counterexample. The number of separator tokens in the line is 4 with a
level key and a defined caller, 3 when the level key is empty and 3 when the
caller is not defined. -/
theorem fixed_column_count_counterexample :
    (EncodeEntry (NewLineEncoder plainConfig false) linePoolNew entryHello []).map
        (List.count 0x7C) = some 4 ∧
    (EncodeEntry (NewLineEncoder { plainConfig with LevelKey := OmitKey } false) linePoolNew
        entryHello []).map (List.count 0x7C) = some 3 ∧
    (EncodeEntry (NewLineEncoder plainConfig false) linePoolNew entryNoCaller []).map
        (List.count 0x7C) = some 3 := by
  decide

/-- C3, amended. Before the message `EncodeEntry` writes the escaped separator
token after the time segment and after the reserved segment always, after the
level segment when a level key and a level renderer are configured, after the
caller segment when the caller is defined, and not after the accumulated
fields, which stand in the column of the caller segment: the bytes before the
message are the columns of `headColumns`, each followed by the token, and
their number is 2, plus 1 for a configured level, plus 1 for a defined
caller. -/
theorem separator_follows_each_written_column (enc pooled : lineEncoder) (ent : Entry)
    (fields : List Field) (hc : callerRenderable enc.EncoderConfig ent = true) :
    ∃ final, encodeEntryHead enc pooled ent = some final ∧
      final.buf = ((headColumns enc ent).map
        (fun col => col ++ escape enc.EncoderConfig.ConsoleSeparator)).flatten ∧
      (headColumns enc ent).length
        = 2 + (if levelConfigured enc.EncoderConfig then 1 else 0)
            + (if ent.Caller.Defined then 1 else 0) ∧
      EncodeEntry enc pooled ent fields
        = some (final.buf ++ (enc.EncoderConfig.MessageKey ++ escape ent.Message)
            ++ (fields.map (fieldText enc.EncoderConfig)).flatten
            ++ (enc.EncoderConfig.StacktraceKey ++ escape ent.Stack)
            ++ enc.EncoderConfig.LineEnding) := by
  refine ⟨_, encodeEntryHead_eq enc pooled ent hc, ?_, headColumns_length enc ent, ?_⟩
  · exact (headColumns_flatten _ enc ent).symm
  · rw [EncodeEntry_eq enc pooled ent fields hc]
    simp [segmentOrderLine, headText]

/-- C3, at an entry without caller under a configuration without level key:
two columns, the time and the accumulated fields. -/
theorem separator_follows_each_written_column_witness :
    ∃ final, encodeEntryHead (NewLineEncoder { plainConfig with LevelKey := OmitKey } false)
        linePoolNew entryNoCaller = some final ∧ final.buf = ascii "0||" := by
  obtain ⟨final, h1, h2, _, _⟩ := separator_follows_each_written_column
    (NewLineEncoder { plainConfig with LevelKey := OmitKey } false) linePoolNew entryNoCaller []
    (by decide)
  exact ⟨final, h1, h2.trans (by decide)⟩

/-! ## One line: claim C4 -/

theorem digitByte_val (d : Nat) : 48 ≤ (digitByte d).val ∧ (digitByte d).val ≤ 57 := by
  have h : (digitByte d).val = (48 + d % 10) % 256 := rfl
  omega

theorem decimalAux_mem (fuel n : Nat) (acc : List Byte) (b : Byte)
    (h : b ∈ decimalAux fuel n acc) : b ∈ acc ∨ (48 ≤ b.val ∧ b.val ≤ 57) := by
  induction fuel generalizing n acc with
  | zero => exact Or.inl h
  | succ fuel ih =>
    unfold decimalAux at h
    split_ifs at h
    · rcases List.mem_cons.1 h with e | e
      · exact Or.inr (e ▸ digitByte_val n)
      · exact Or.inl e
    · rcases ih _ _ h with e | e
      · rcases List.mem_cons.1 e with e' | e'
        · exact Or.inr (e' ▸ digitByte_val n)
        · exact Or.inl e'
      · exact Or.inr e

theorem formatInt_no_newline (i : Int) : (10 : Byte) ∉ formatInt i := by
  intro h
  have key : ∀ n, (10 : Byte) ∉ formatUint n := by
    intro n hn
    rcases decimalAux_mem _ _ _ _ hn with e | e
    · simp at e
    · have : ((10 : Byte) : Nat) = 10 := rfl
      omega
  unfold formatInt at h
  split_ifs at h
  · rcases List.mem_cons.1 h with e | e
    · exact absurd e (by decide)
    · exact key _ e
  · exact key _ h

theorem escape_no_newline (s : List Byte) : (10 : Byte) ∉ escape s := by
  intro h
  have := escape_ge s 10 h
  have e : ((10 : Byte) : Nat) = 10 := rfl
  omega

theorem timeText_no_newline (cfg : EncoderConfig) (t : Time)
    (h : ∀ e, cfg.EncodeTime = some e → ∀ t, (10 : Byte) ∉ e t) :
    (10 : Byte) ∉ timeText cfg t := by
  unfold timeText
  rcases he : cfg.EncodeTime with _ | e
  · exact formatInt_no_newline _
  · simp only
    split_ifs
    · exact formatInt_no_newline _
    · exact h e he t

theorem levelSegment_no_newline (sep : List Byte) (cfg : EncoderConfig) (l : Level)
    (hsep : (10 : Byte) ∉ sep)
    (h : ∀ e, cfg.EncodeLevel = some e → ∀ l, (10 : Byte) ∉ e l) :
    (10 : Byte) ∉ levelSegment sep cfg l := by
  unfold levelSegment levelText
  rcases he : cfg.EncodeLevel with _ | e
  · simp
  · simp only
    split_ifs
    · simp [escape_no_newline, hsep]
    · simp [h e he l, hsep]
    · simp

theorem callerSegment_no_newline (cfg : EncoderConfig) (c : EntryCaller)
    (hk : (10 : Byte) ∉ cfg.CallerKey) (hf : (10 : Byte) ∉ cfg.FunctionKey)
    (h : ∀ e, cfg.EncodeCaller = some e → ∀ c, (10 : Byte) ∉ e c) :
    (10 : Byte) ∉ callerSegment cfg c := by
  have hl : (10 : Byte) ∉ locationText cfg c := by
    unfold locationText
    rcases he : cfg.EncodeCaller with _ | e
    · exact escape_no_newline _
    · simp only
      split_ifs
      · exact escape_no_newline _
      · exact h e he c
  unfold callerSegment
  split_ifs <;> simp [hk, hf, hl, escape_no_newline]

theorem stringFields_no_newline (cfg : EncoderConfig) (kvs : List (List Byte × List Byte))
    (h : ∀ kv ∈ kvs, (10 : Byte) ∉ kv.1) :
    (10 : Byte) ∉ ((kvs.map fun kv => Field.StringType kv.1 kv.2).map
      (fieldText cfg)).flatten := by
  intro hm
  simp only [List.mem_flatten, List.mem_map] at hm
  obtain ⟨l, ⟨f, ⟨kv, hkv, rfl⟩, rfl⟩, hl⟩ := hm
  simp only [fieldText, List.mem_append] at hl
  rcases hl with e | e
  · exact h kv hkv e
  · exact escape_no_newline _ e

theorem one_newline_at_end (body : List Byte) (h : (10 : Byte) ∉ body) :
    (body ++ [10]).count 10 = 1 ∧ (body ++ [10]).getLast? = some 10 := by
  constructor
  · rw [List.count_append, List.count_eq_zero_of_not_mem h]
    rfl
  · simp

theorem segmentOrderLine_one_line (sep : List Byte) (enc : lineEncoder) (ent : Entry)
    (kvs : List (List Byte × List Byte))
    (hle : enc.EncoderConfig.LineEnding = [10])
    (hbuf : (10 : Byte) ∉ enc.buf)
    (hsep : (10 : Byte) ∉ sep)
    (htime : ∀ e, enc.EncoderConfig.EncodeTime = some e → ∀ t, (10 : Byte) ∉ e t)
    (hlevel : ∀ e, enc.EncoderConfig.EncodeLevel = some e → ∀ l, (10 : Byte) ∉ e l)
    (hcaller : ∀ e, enc.EncoderConfig.EncodeCaller = some e → ∀ c, (10 : Byte) ∉ e c)
    (hkeys : (10 : Byte) ∉ enc.EncoderConfig.TimeKey ∧ (10 : Byte) ∉ enc.EncoderConfig.CallerKey
      ∧ (10 : Byte) ∉ enc.EncoderConfig.FunctionKey ∧ (10 : Byte) ∉ enc.EncoderConfig.MessageKey
      ∧ (10 : Byte) ∉ enc.EncoderConfig.StacktraceKey)
    (hfk : ∀ kv ∈ kvs, (10 : Byte) ∉ kv.1) :
    (segmentOrderLine sep enc ent (kvs.map fun kv => Field.StringType kv.1 kv.2)).count 10 = 1
      ∧ (segmentOrderLine sep enc ent
          (kvs.map fun kv => Field.StringType kv.1 kv.2)).getLast? = some 10 := by
  obtain ⟨hk1, hk2, hk3, hk4, hk5⟩ := hkeys
  have h1 := timeText_no_newline enc.EncoderConfig ent.Time htime
  have h2 := levelSegment_no_newline sep enc.EncoderConfig ent.Level hsep hlevel
  have h3 := callerSegment_no_newline enc.EncoderConfig ent.Caller hk2 hk3 hcaller
  have h4 := stringFields_no_newline enc.EncoderConfig kvs hfk
  have h5 : (10 : Byte) ∉ (if ent.Caller.Defined then
      callerSegment enc.EncoderConfig ent.Caller ++ sep else []) := by
    split_ifs
    · simp only [List.mem_append, not_or]
      exact ⟨h3, hsep⟩
    · simp
  unfold segmentOrderLine
  rw [hle]
  apply one_newline_at_end
  simp only [List.mem_append, not_or]
  exact ⟨⟨⟨⟨⟨⟨⟨⟨⟨hk1, h1⟩, hsep⟩, h2⟩, hbuf⟩, h5⟩, hsep⟩, hk4, escape_no_newline _⟩, h4⟩,
    hk5, escape_no_newline _⟩

theorem NewLineEncoder_config (cfg : EncoderConfig) (spaced : Bool)
    (hskip : cfg.SkipLineEnding = false)
    (hle : cfg.LineEnding = [] ∨ cfg.LineEnding = DefaultLineEnding) :
    (NewLineEncoder cfg spaced).EncoderConfig = { cfg with LineEnding := DefaultLineEnding } := by
  unfold NewLineEncoder
  rcases hle with h | h
  · simp [hskip, h]
  · cases cfg
    simp_all [DefaultLineEnding]

theorem EncodeEntry_one_line (cfg : EncoderConfig) (spaced : Bool) (enc pooled : lineEncoder)
    (ent : Entry) (kvs : List (List Byte × List Byte))
    (hskip : cfg.SkipLineEnding = false)
    (hle : cfg.LineEnding = [] ∨ cfg.LineEnding = DefaultLineEnding)
    (htime : ∀ e, cfg.EncodeTime = some e → ∀ t, (10 : Byte) ∉ e t)
    (hlevel : ∀ e, cfg.EncodeLevel = some e → ∀ l, (10 : Byte) ∉ e l)
    (hcaller : ∀ e, cfg.EncodeCaller = some e → ∀ c, (10 : Byte) ∉ e c)
    (hkeys : (10 : Byte) ∉ cfg.TimeKey ∧ (10 : Byte) ∉ cfg.CallerKey
      ∧ (10 : Byte) ∉ cfg.FunctionKey ∧ (10 : Byte) ∉ cfg.MessageKey
      ∧ (10 : Byte) ∉ cfg.StacktraceKey)
    (hfk : ∀ kv ∈ kvs, (10 : Byte) ∉ kv.1)
    (hc : callerRenderable cfg ent = true)
    (henc : enc.EncoderConfig = (NewLineEncoder cfg spaced).EncoderConfig)
    (hbuf : (10 : Byte) ∉ enc.buf) :
    ∃ line, EncodeEntry enc pooled ent
        (kvs.map fun kv => Field.StringType kv.1 kv.2) = some line
      ∧ line.count 10 = 1 ∧ line.getLast? = some 10 := by
  have hcfg := henc.trans (NewLineEncoder_config cfg spaced hskip hle)
  have hc' : callerRenderable enc.EncoderConfig ent = true := by
    rw [hcfg]
    exact hc
  refine ⟨_, EncodeEntry_eq _ pooled ent _ hc', ?_⟩
  apply segmentOrderLine_one_line
  · rw [hcfg]
    rfl
  · exact hbuf
  · exact escape_no_newline _
  · rw [hcfg]
    exact htime
  · rw [hcfg]
    exact hlevel
  · rw [hcfg]
    exact hcaller
  · rw [hcfg]
    exact hkeys
  · exact hfk

theorem addFields_strings_no_newline (enc : lineEncoder)
    (acc : List (List Byte × List Byte)) (hbuf : (10 : Byte) ∉ enc.buf)
    (hak : ∀ kv ∈ acc, (10 : Byte) ∉ kv.1) :
    (addFields enc (acc.map fun kv => Field.StringType kv.1 kv.2)).EncoderConfig
        = enc.EncoderConfig ∧
    (10 : Byte) ∉ (addFields enc (acc.map fun kv => Field.StringType kv.1 kv.2)).buf := by
  rw [addFields_eq]
  refine ⟨rfl, ?_⟩
  simp only [List.mem_append, not_or]
  exact ⟨hbuf, stringFields_no_newline enc.EncoderConfig acc hak⟩

/-- C4, counterexample. A string field whose key is a newline byte puts a second
newline into the line; and so does a field with such a key that was added to
the encoder before the call. -/
theorem one_line_counterexample :
    (EncodeEntry (NewLineEncoder initLoggerConfig false) linePoolNew entryHello
        [Field.StringType [0x0A] (ascii "v")]).map (List.count 10) = some 2 ∧
    EncodeEntry (NewLineEncoder initLoggerConfig false) linePoolNew entryHello
        [Field.StringType [0x0A] (ascii "v")]
      = some (ascii "0|INFO||file.go:10||hello\nv\n") ∧
    EncodeEntry ((NewLineEncoder initLoggerConfig false).AddString [0x0A] (ascii "v"))
        linePoolNew entryHello []
      = some (ascii "0|INFO|\nv|file.go:10||hello\n") := by
  decide

/-- C4, amended. For an encoder with the configuration `NewLineEncoder` gives
for the default line terminator, renderers that write no newline, a caller
renderer where it is called, and no newline byte in the key names of the
configuration, in the bytes the encoder has accumulated, nor in the keys of the
fields (keys are written unescaped, and the accumulated bytes are copied as
they are), the line `EncodeEntry` returns for any entry and any list of string
fields holds exactly one newline byte, its last byte. The accumulated bytes
hold no newline in the encoder `NewLineEncoder` returns and after any string
fields, of any values, whose keys hold none were added to it. -/
theorem encoded_entry_is_one_line (cfg : EncoderConfig) (spaced : Bool)
    (enc pooled : lineEncoder) (ent : Entry) (kvs : List (List Byte × List Byte))
    (hskip : cfg.SkipLineEnding = false)
    (hle : cfg.LineEnding = [] ∨ cfg.LineEnding = DefaultLineEnding)
    (htime : ∀ e, cfg.EncodeTime = some e → ∀ t, (10 : Byte) ∉ e t)
    (hlevel : ∀ e, cfg.EncodeLevel = some e → ∀ l, (10 : Byte) ∉ e l)
    (hcaller : ∀ e, cfg.EncodeCaller = some e → ∀ c, (10 : Byte) ∉ e c)
    (hkeys : (10 : Byte) ∉ cfg.TimeKey ∧ (10 : Byte) ∉ cfg.CallerKey
      ∧ (10 : Byte) ∉ cfg.FunctionKey ∧ (10 : Byte) ∉ cfg.MessageKey
      ∧ (10 : Byte) ∉ cfg.StacktraceKey)
    (hfk : ∀ kv ∈ kvs, (10 : Byte) ∉ kv.1)
    (hc : callerRenderable cfg ent = true)
    (henc : enc.EncoderConfig = (NewLineEncoder cfg spaced).EncoderConfig)
    (hbuf : (10 : Byte) ∉ enc.buf) :
    (∃ line, EncodeEntry enc pooled ent
        (kvs.map fun kv => Field.StringType kv.1 kv.2) = some line
      ∧ line.count 10 = 1 ∧ line.getLast? = some 10) ∧
    (∃ line, EncodeEntry (NewLineEncoder cfg spaced) pooled ent
        (kvs.map fun kv => Field.StringType kv.1 kv.2) = some line
      ∧ line.count 10 = 1 ∧ line.getLast? = some 10) ∧
    (∀ acc : List (List Byte × List Byte), (∀ kv ∈ acc, (10 : Byte) ∉ kv.1) →
      ∃ line, EncodeEntry (addFields enc (acc.map fun kv => Field.StringType kv.1 kv.2))
          pooled ent (kvs.map fun kv => Field.StringType kv.1 kv.2) = some line
        ∧ line.count 10 = 1 ∧ line.getLast? = some 10) := by
  refine ⟨EncodeEntry_one_line cfg spaced enc pooled ent kvs hskip hle htime hlevel hcaller
      hkeys hfk hc henc hbuf,
    EncodeEntry_one_line cfg spaced (NewLineEncoder cfg spaced) pooled ent kvs hskip hle htime
      hlevel hcaller hkeys hfk hc rfl (by simp [NewLineEncoder]), ?_⟩
  intro acc hak
  have ha := addFields_strings_no_newline enc acc hbuf hak
  exact EncodeEntry_one_line cfg spaced _ pooled ent kvs hskip hle htime hlevel hcaller
    hkeys hfk hc (ha.1.trans henc) ha.2

/-- C4, at the configuration of `InitLogger`, an encoder to which a field whose
value holds a newline was added, and a field whose value holds a newline. -/
theorem encoded_entry_is_one_line_witness :
    (10 : Byte) ∉ ((NewLineEncoder initLoggerConfig true).AddString (ascii "a=")
        [0x61, 0x0A, 0x62]).buf ∧
    EncodeEntry ((NewLineEncoder initLoggerConfig true).AddString (ascii "a=")
          [0x61, 0x0A, 0x62]) linePoolNew entryHello
        [Field.StringType (ascii "k=") [0x61, 0x0A, 0x62]]
      = some (ascii "0|INFO|a=a\\nb|file.go:10||hellok=a\\nb\n") ∧
    ∃ line, EncodeEntry ((NewLineEncoder initLoggerConfig true).AddString (ascii "a=")
          [0x61, 0x0A, 0x62]) linePoolNew entryHello
        [Field.StringType (ascii "k=") [0x61, 0x0A, 0x62]] = some line
      ∧ line.count 10 = 1 ∧ line.getLast? = some 10 :=
  ⟨by decide, by decide,
    (encoded_entry_is_one_line initLoggerConfig true
      ((NewLineEncoder initLoggerConfig true).AddString (ascii "a=") [0x61, 0x0A, 0x62])
      linePoolNew entryHello [(ascii "k=", [0x61, 0x0A, 0x62])] rfl (Or.inr rfl)
      (fun e h => by simp [initLoggerConfig] at h)
      (fun e h l => by
        have he : e = CapitalLevelEncoder := by
          simp only [initLoggerConfig, Option.some.injEq] at h
          exact h.symm
        subst he
        exact escape_no_newline _)
      (fun e h c => by
        have he : e = FullCallerEncoder := by
          simp only [initLoggerConfig, Option.some.injEq] at h
          exact h.symm
        subst he
        exact escape_no_newline _)
      (by decide) (by decide) (by decide)
      (by simp [lineEncoder.AddString, lineEncoder.addKey_eq, lineEncoder.AppendString_eq])
      (by decide)).1⟩

/-! ## Clone: claim C10 -/

theorem Heap.read_write (h : Heap) (p q : Nat) (b : Buffer) :
    (h.write p b).read q = if q = p then b else h.read q := rfl

theorem Heap.bufferPoolGet_fresh (h : Heap) (pick p : Nat) (hlive : p < h.next)
    (hfree : p ∉ h.freeBufs) :
    (h.bufferPoolGet pick).1 ≠ p ∧ (h.bufferPoolGet pick).2.read p = h.read p ∧
      (h.bufferPoolGet pick).2.read (h.bufferPoolGet pick).1 = [] := by
  unfold Heap.bufferPoolGet
  rcases hg : h.freeBufs.get? pick with _ | q
  · have : h.next ≠ p := by omega
    simp [Heap.read, Heap.write, this, Ne.symm this]
  · have hq : q ∈ h.freeBufs := List.get?_mem hg
    have : q ≠ p := fun e => hfree (e ▸ hq)
    simp [Heap.read, Heap.write, this, Ne.symm this]

theorem Heap.applyAll_read_other (h : Heap) (r : EncoderRef) (ops : List Op) (p : Nat)
    (hp : p ≠ r.buf) : (h.applyAll r ops).read p = h.read p := by
  unfold Heap.applyAll
  induction ops generalizing h with
  | nil => rfl
  | cons op ops ih =>
    rw [List.foldl_cons, ih]
    simp [Heap.apply, Heap.read_write, hp]

theorem lineEncoder.ext_fields (a b : lineEncoder) (h1 : a.EncoderConfig = b.EncoderConfig)
    (h2 : a.buf = b.buf) (h3 : a.spaced = b.spaced) : a = b := by
  cases a
  cases b
  simp_all

theorem Op.run_frame (op : Op) (e : lineEncoder) :
    (op.run e).EncoderConfig = e.EncoderConfig ∧ (op.run e).spaced = e.spaced := by
  cases op <;>
    simp [Op.run, lineEncoder.AddBool, lineEncoder.AddByteString, lineEncoder.AddDuration,
      lineEncoder.AddInt64, lineEncoder.AddString, lineEncoder.AddTime,
      lineEncoder.AddUint64, lineEncoder.addKey_eq, lineEncoder.AppendString_eq,
      lineEncoder.AppendByteString_eq, lineEncoder.AppendTime_eq,
      lineEncoder.AppendDuration_eq, lineEncoder.AppendBool, lineEncoder.AppendInt64,
      lineEncoder.AppendUint64, lineEncoder.OpenNamespace]

theorem Heap.load_apply (h : Heap) (r : EncoderRef) (op : Op) :
    (h.apply r op).load r = op.run (h.load r) := by
  have hf := Op.run_frame op (h.load r)
  apply lineEncoder.ext_fields
  · exact hf.1.symm
  · simp [Heap.load, Heap.apply, Heap.read_write]
  · exact hf.2.symm

theorem Heap.applyAll_load (h : Heap) (r : EncoderRef) (ops : List Op) :
    (h.applyAll r ops).read r.buf = (ops.foldl (fun e op => op.run e) (h.load r)).buf := by
  unfold Heap.applyAll
  induction ops generalizing h with
  | nil => rfl
  | cons op ops ih =>
    rw [List.foldl_cons, List.foldl_cons, ih, Heap.load_apply]

/-- The clone on references is the clone on values: the encoder the new
reference points to is `Clone` of the encoder `e` points to, on the instance
the pool handed out. -/
theorem Heap.Clone_load (h : Heap) (e : EncoderRef) (pickLine pickBuf : Nat)
    (hlive : e.buf < h.next) (hfree : e.buf ∉ h.freeBufs) :
    (h.Clone e pickLine pickBuf).2.load (h.Clone e pickLine pickBuf).1
      = (h.load e).Clone { linePoolNew with spaced := (h.linePoolGet pickLine).1 } := by
  have hl : (h.linePoolGet pickLine).2.next = h.next
      ∧ (h.linePoolGet pickLine).2.freeBufs = h.freeBufs
      ∧ (h.linePoolGet pickLine).2.bufs = h.bufs := by
    unfold Heap.linePoolGet
    rcases h.freeLines.get? pickLine with _ | s <;> simp
  have hf := Heap.bufferPoolGet_fresh (h.linePoolGet pickLine).2 pickBuf e.buf
    (by rw [hl.1]; exact hlive) (by rw [hl.2.1]; exact hfree)
  have hr : (h.linePoolGet pickLine).2.read e.buf = h.read e.buf := by
    simp [Heap.read, hl.2.2]
  apply lineEncoder.ext_fields
  · rfl
  · simp only [Heap.load, Heap.Clone, Heap.clone, Heap.read_write, if_true, Buffer.Write,
      lineEncoder.Clone, lineEncoder.clone]
    rw [hf.2.2, hf.2.1, hr]
  · rfl

/-- C10. For an encoder `e` that owns its buffer (the buffer is allocated and
not in the pool), the clone `c` has a buffer of its own whose content is that
of `e`, and after any sequence of `Add*` and `Append*` calls on `c`, whatever
buffer and instance the pools hand out, the buffer of `e` holds what it held,
while the buffer of `c` holds what the calls wrote after it. -/
theorem clone_is_independent (h : Heap) (e : EncoderRef) (pickLine pickBuf : Nat)
    (ops : List Op) (hlive : e.buf < h.next) (hfree : e.buf ∉ h.freeBufs) :
    (h.Clone e pickLine pickBuf).1.buf ≠ e.buf ∧
    (h.Clone e pickLine pickBuf).2.read (h.Clone e pickLine pickBuf).1.buf = h.read e.buf ∧
    (h.Clone e pickLine pickBuf).1.EncoderConfig = e.EncoderConfig ∧
    ((h.Clone e pickLine pickBuf).2.applyAll (h.Clone e pickLine pickBuf).1 ops).read e.buf
      = h.read e.buf ∧
    ((h.Clone e pickLine pickBuf).2.applyAll (h.Clone e pickLine pickBuf).1 ops).read
        (h.Clone e pickLine pickBuf).1.buf
      = (ops.foldl (fun enc op => op.run enc)
          ((h.Clone e pickLine pickBuf).2.load (h.Clone e pickLine pickBuf).1)).buf := by
  have hl : (h.linePoolGet pickLine).2.next = h.next
      ∧ (h.linePoolGet pickLine).2.freeBufs = h.freeBufs
      ∧ (h.linePoolGet pickLine).2.bufs = h.bufs := by
    unfold Heap.linePoolGet
    rcases h.freeLines.get? pickLine with _ | s <;> simp
  have hf := Heap.bufferPoolGet_fresh (h.linePoolGet pickLine).2 pickBuf e.buf
    (by rw [hl.1]; exact hlive) (by rw [hl.2.1]; exact hfree)
  have hr : (h.linePoolGet pickLine).2.read e.buf = h.read e.buf := by
    simp [Heap.read, hl.2.2]
  have hne : (h.Clone e pickLine pickBuf).1.buf ≠ e.buf := hf.1
  refine ⟨hne, ?_, rfl, ?_, Heap.applyAll_load _ _ _⟩
  · simp only [Heap.Clone, Heap.clone, Heap.read_write, if_true, Buffer.Write]
    rw [hf.2.2, hf.2.1, hr]
    rfl
  · rw [Heap.applyAll_read_other _ _ _ _ (Ne.symm hne)]
    simp only [Heap.Clone, Heap.clone, Heap.read_write]
    rw [if_neg (Ne.symm hf.1), hf.2.1, hr]

/-- C10, at an encoder holding `a=1`: after `b=2` is added to its clone the
clone holds `a=1b=2` and the encoder still holds `a=1`. -/
theorem clone_is_independent_witness :
    ((heapA1.Clone refA1 0 0).2.applyAll (heapA1.Clone refA1 0 0).1
        [Op.AddInt64 (ascii "b=") 2]).read refA1.buf = ascii "a=1" ∧
    ((heapA1.Clone refA1 0 0).2.applyAll (heapA1.Clone refA1 0 0).1
        [Op.AddInt64 (ascii "b=") 2]).read (heapA1.Clone refA1 0 0).1.buf = ascii "a=1b=2" :=
  ⟨(clone_is_independent heapA1 refA1 0 0 [Op.AddInt64 (ascii "b=") 2] (by decide)
      (by decide)).2.2.2.1.trans (by decide),
    (clone_is_independent heapA1 refA1 0 0 [Op.AddInt64 (ascii "b=") 2] (by decide)
      (by decide)).2.2.2.2.trans (by decide)⟩

/-! ## Reflected values, floats, binary fields, renderers: claims C11 to C14 -/

/-- C11. When the structured encoder fails on the value, `AddReflected` and
`AppendReflected` return its error and leave the encoder, its main buffer
included, as it was: not even the key is written. When it succeeds they return
no error and the buffer gains the key (for `AddReflected`) and then the bytes
the encoder wrote, without the newline at their end. A `nil` value gains the
key and the four bytes `null`. -/
theorem reflected_failure_is_atomic {V : Type} (e : ReflectingEncoder V) (key : List Byte)
    (v : V) :
    (∀ err, (e.NewReflectedEncoder v).2 = some err →
      (e.AddReflected key (some v)).2 = some err ∧
      (e.AddReflected key (some v)).1.enc = e.enc ∧
      (e.AppendReflected (some v)).2 = some err ∧
      (e.AppendReflected (some v)).1.enc = e.enc) ∧
    ((e.NewReflectedEncoder v).2 = none →
      (e.AddReflected key (some v)).2 = none ∧
      (e.AddReflected key (some v)).1.enc.buf
        = e.enc.buf ++ key ++ Buffer.TrimNewline (e.NewReflectedEncoder v).1 ∧
      (e.AppendReflected (some v)).2 = none ∧
      (e.AppendReflected (some v)).1.enc.buf
        = e.enc.buf ++ Buffer.TrimNewline (e.NewReflectedEncoder v).1) ∧
    (e.AddReflected key none).2 = none ∧
    (e.AddReflected key none).1.enc.buf = e.enc.buf ++ key ++ ascii "null" ∧
    (e.AppendReflected none).2 = none ∧
    (e.AppendReflected none).1.enc.buf = e.enc.buf ++ ascii "null" := by
  have hreset : e.resetReflectBuf = { e with reflectBuf := some [] } := by
    unfold ReflectingEncoder.resetReflectBuf
    rcases e.reflectBuf with _ | b <;> rfl
  refine ⟨?_, ?_, ?_, ?_, ?_, ?_⟩
  · intro err herr
    simp [ReflectingEncoder.AddReflected, ReflectingEncoder.AppendReflected,
      ReflectingEncoder.encodeReflected, hreset, herr]
  · intro hok
    simp [ReflectingEncoder.AddReflected, ReflectingEncoder.AppendReflected,
      ReflectingEncoder.encodeReflected, hreset, hok, lineEncoder.addKey_eq, Buffer.Write]
  · rfl
  · simp [ReflectingEncoder.AddReflected, ReflectingEncoder.encodeReflected,
      lineEncoder.addKey_eq, Buffer.Write, nullLiteralBytes]
  · rfl
  · simp [ReflectingEncoder.AppendReflected, ReflectingEncoder.encodeReflected,
      Buffer.Write, nullLiteralBytes]

/-- C11, at an encoder holding `a=1`: a channel leaves `a=1`, the integer 5
under the key `k=` gives `a=1k=5`. -/
theorem reflected_failure_is_atomic_witness :
    (reflectingA1.AddReflected (ascii "k=") (some SampleValue.chan)).1.enc.buf = ascii "a=1" ∧
    (reflectingA1.AddReflected (ascii "k=") (some SampleValue.chan)).2
      = some (ascii "json: unsupported type: chan int") ∧
    (reflectingA1.AddReflected (ascii "k=") (some (SampleValue.int 5))).1.enc.buf
      = ascii "a=1k=5" :=
  ⟨congrArg lineEncoder.buf
      ((reflected_failure_is_atomic reflectingA1 (ascii "k=") SampleValue.chan).1 _ rfl).2.1,
    ((reflected_failure_is_atomic reflectingA1 (ascii "k=") SampleValue.chan).1 _ rfl).1,
    (((reflected_failure_is_atomic reflectingA1 (ascii "k=") (SampleValue.int 5)).2.1
      rfl).2.1).trans (by decide)⟩

/-! ## Binary fields: claim C13 -/

set_option maxRecDepth 100000 in
theorem base64Char_safe : ∀ i : Fin 64,
    (0x2B ≤ (base64Alphabet.getD i.val 0).val ∧ (base64Alphabet.getD i.val 0).val ≤ 0x7A
      ∧ (base64Alphabet.getD i.val 0).val ≠ 0x5C)
      ∧ base64Alphabet.getD i.val 0 ∈ base64Alphabet := by
  decide

theorem base64Char_mem (n : Nat) :
    (0x2B ≤ (base64Char n).val ∧ (base64Char n).val ≤ 0x7A ∧ (base64Char n).val ≠ 0x5C)
      ∧ base64Char n ∈ base64Alphabet :=
  base64Char_safe ⟨n % 64, Nat.mod_lt n (by decide)⟩

theorem base64Encode_forall (P : Byte → Prop) (hc : ∀ n, P (base64Char n)) (hp : P 0x3D)
    (s : List Byte) : ∀ c ∈ base64Encode s, P c := by
  induction' hn : s.length using Nat.strong_induction_on with n ih generalizing s
  rcases s with _ | ⟨a, _ | ⟨b, _ | ⟨c, rest⟩⟩⟩
  · simp [base64Encode]
  · intro x hx
    simp only [base64Encode, List.mem_cons, List.mem_singleton, List.not_mem_nil,
      or_false] at hx
    rcases hx with e | e | e | e <;> subst e <;> first | exact hc _ | exact hp
  · intro x hx
    simp only [base64Encode, List.mem_cons, List.mem_singleton, List.not_mem_nil,
      or_false] at hx
    rcases hx with e | e | e | e <;> subst e <;> first | exact hc _ | exact hp
  · intro x hx
    simp only [base64Encode, List.mem_append, List.mem_cons, List.mem_singleton,
      List.not_mem_nil, or_false] at hx
    rcases hx with (e | e | e | e) | e
    · subst e
      exact hc _
    · subst e
      exact hc _
    · subst e
      exact hc _
    · subst e
      exact hc _
    · simp only [List.length_cons] at hn
      exact ih rest.length (by omega) rest rfl x e

theorem validUTF8_of_ascii (s : List Byte) (h : ∀ b ∈ s, b.val < 0x80) :
    validUTF8 s = true := by
  have := validUTF8_ascii_append s [] h
  rw [List.append_nil] at this
  rw [this]
  rfl

/-- The escaper leaves base64 text as it is. -/
theorem escape_base64Encode (s : List Byte) : escape (base64Encode s) = base64Encode s := by
  have hm := base64Encode_forall
    (fun c => 0x2B ≤ c.val ∧ c.val ≤ 0x7A ∧ c.val ≠ 0x5C)
    (fun n => (base64Char_mem n).1) (by decide) s
  apply escape_safe
  · apply validUTF8_of_ascii
    intro b hb
    have := hm b hb
    omega
  · intro b hb
    have := hm b hb
    omega

/-- C13. `AddBinary` appends the key and then the standard padded base64
encoding of the bytes: the escaper, through which the text goes, changes none
of its characters, all of them in the alphabet of base64 or `=`. -/
theorem binary_field_is_plain_base64 (enc : lineEncoder) (key val : List Byte) :
    (enc.AddBinary key val).buf = enc.buf ++ key ++ base64Encode val ∧
    (enc.AppendString (base64Encode val)).buf = enc.buf ++ base64Encode val ∧
    (base64Encode val).all (fun c => decide (c ∈ base64Alphabet ∨ c = 0x3D)) = true := by
  refine ⟨?_, ?_, ?_⟩
  · simp [lineEncoder.AddBinary, lineEncoder.AddString, lineEncoder.addKey_eq,
      lineEncoder.AppendString_eq, escape_base64Encode]
  · simp [lineEncoder.AppendString_eq, escape_base64Encode]
  · rw [List.all_eq_true]
    intro c hc
    have := base64Encode_forall (fun c => c ∈ base64Alphabet ∨ c = 0x3D)
      (fun n => Or.inl (base64Char_mem n).2) (Or.inr rfl) val c hc
    simpa using this

/-- C13, at the test vectors of RFC 4648 and one binary field. -/
theorem binary_field_is_plain_base64_witness :
    base64Encode (ascii "f") = ascii "Zg==" ∧
    base64Encode (ascii "fo") = ascii "Zm8=" ∧
    base64Encode (ascii "foobar") = ascii "Zm9vYmFy" ∧
    ((encoderA1 false).AddBinary (ascii "b=") [0xFB, 0xFF]).buf = ascii "a=1b=+/8=" :=
  ⟨by decide, by decide, by decide,
    (binary_field_is_plain_base64 (encoderA1 false) (ascii "b=") [0xFB, 0xFF]).1.trans
      (by decide)⟩

/-! ## Renderers without output: claim C14 -/

/-- C14. `AppendDuration` and `AppendTime` append the decimal digits of the raw
integer (the ticks of the duration, the nanoseconds since the epoch of the
time) when the renderer is absent or writes nothing, and what the renderer
wrote, and no more, when it writes at least one byte. -/
theorem renderer_without_output_falls_back (enc : lineEncoder) (d : Int) (t : Time) :
    (enc.EncoderConfig.EncodeDuration = none →
      (enc.AppendDuration d).buf = enc.buf ++ formatInt d) ∧
    (∀ e, enc.EncoderConfig.EncodeDuration = some e → e d = [] →
      (enc.AppendDuration d).buf = enc.buf ++ formatInt d) ∧
    (∀ e, enc.EncoderConfig.EncodeDuration = some e → e d ≠ [] →
      (enc.AppendDuration d).buf = enc.buf ++ e d) ∧
    (enc.EncoderConfig.EncodeTime = none →
      (enc.AppendTime t).buf = enc.buf ++ formatInt t.UnixNano) ∧
    (∀ e, enc.EncoderConfig.EncodeTime = some e → e t = [] →
      (enc.AppendTime t).buf = enc.buf ++ formatInt t.UnixNano) ∧
    (∀ e, enc.EncoderConfig.EncodeTime = some e → e t ≠ [] →
      (enc.AppendTime t).buf = enc.buf ++ e t) := by
  refine ⟨?_, ?_, ?_, ?_, ?_, ?_⟩
  · intro h
    simp [lineEncoder.AppendDuration_eq, durationText, h]
  · intro e h he
    simp [lineEncoder.AppendDuration_eq, durationText, h, he]
  · intro e h he
    simp [lineEncoder.AppendDuration_eq, durationText, h, he]
  · intro h
    simp [lineEncoder.AppendTime_eq, timeText, h]
  · intro e h he
    simp [lineEncoder.AppendTime_eq, timeText, h, he]
  · intro e h he
    simp [lineEncoder.AppendTime_eq, timeText, h, he]

/-- C14, at a duration of 1500 ticks: no renderer, a renderer that writes
nothing, and a renderer that writes `1.5us`. -/
theorem renderer_without_output_falls_back_witness :
    ((NewLineEncoder initLoggerConfig false).AppendDuration 1500).buf = ascii "1500" ∧
    ((NewLineEncoder { initLoggerConfig with EncodeDuration := some (fun _ => []) }
      false).AppendDuration 1500).buf = ascii "1500" ∧
    ((NewLineEncoder { initLoggerConfig with EncodeDuration := some (fun _ => ascii "1.5us") }
      false).AppendDuration 1500).buf = ascii "1.5us" ∧
    ((NewLineEncoder initLoggerConfig false).AppendTime { UnixNano := -42 }).buf
      = ascii "-42" :=
  ⟨((renderer_without_output_falls_back (NewLineEncoder initLoggerConfig false) 1500
      { UnixNano := -42 }).1 rfl).trans (by decide),
    ((renderer_without_output_falls_back
      (NewLineEncoder { initLoggerConfig with EncodeDuration := some (fun _ => []) } false)
      1500 { UnixNano := -42 }).2.1 _ rfl rfl).trans (by decide),
    ((renderer_without_output_falls_back
      (NewLineEncoder { initLoggerConfig with EncodeDuration := some (fun _ => ascii "1.5us") }
        false) 1500 { UnixNano := -42 }).2.2.1 _ rfl (by decide)).trans (by decide),
    ((renderer_without_output_falls_back (NewLineEncoder initLoggerConfig false) 1500
      { UnixNano := -42 }).2.2.2.1 rfl).trans (by decide)⟩

/-! ## Floats: claim C12 -/

theorem Float32.toFloat64_IsNaN (w : Float32) : w.toFloat64.IsNaN = w.IsNaN := by
  have hm := w.mant.isLt
  have he := w.exp.isLt
  unfold Float32.toFloat64 Float64.IsNaN Float32.IsNaN
  by_cases h1 : w.exp.val = 255
  · have hv : ((Fin.ofNat (w.mant.val * 536870912) : Fin 4503599627370496) : Nat)
        = w.mant.val * 536870912 % 4503599627370496 := rfl
    have h2047 : ((2047 : Fin 2048) : Nat) = 2047 := rfl
    simp only [h1, if_true, hv, h2047, true_and]
    congr 1
    apply propext
    constructor <;> intro h <;> omega
  · by_cases h0 : w.exp.val = 0
    · by_cases hz : w.mant.val = 0
      · have h00 : ((0 : Fin 2048) : Nat) = 0 := rfl
        simp [h1, h0, hz, h00]
      · have hlog : Nat.log2 w.mant.val < 23 := (Nat.log2_lt hz).2 hm
        have hv : ((Fin.ofNat (Nat.log2 w.mant.val + 874) : Fin 2048) : Nat)
            = (Nat.log2 w.mant.val + 874) % 2048 := rfl
        have : ¬ ((Nat.log2 w.mant.val + 874) % 2048 = 2047) := by omega
        simp [h0, hz, hv, this]
    · have hv : ((Fin.ofNat (w.exp.val + 896) : Fin 2048) : Nat)
          = (w.exp.val + 896) % 2048 := rfl
      have : ¬ ((w.exp.val + 896) % 2048 = 2047) := by omega
      simp [h1, h0, hv, this]

theorem Float32.toFloat64_IsInf (w : Float32) (sign : Int) :
    w.toFloat64.IsInf sign = w.IsInf sign := by
  have hm := w.mant.isLt
  have he := w.exp.isLt
  unfold Float32.toFloat64 Float64.IsInf Float32.IsInf
  by_cases h1 : w.exp.val = 255
  · have hv : ((Fin.ofNat (w.mant.val * 536870912) : Fin 4503599627370496) : Nat)
        = w.mant.val * 536870912 % 4503599627370496 := rfl
    have h2047 : ((2047 : Fin 2048) : Nat) = 2047 := rfl
    have hiff : (w.mant.val * 536870912 % 4503599627370496 = 0) ↔ (w.mant.val = 0) := by
      constructor <;> intro h <;> omega
    simp only [h1, if_true, hv, h2047, true_and, hiff]
  · by_cases h0 : w.exp.val = 0
    · by_cases hz : w.mant.val = 0
      · have h00 : ((0 : Fin 2048) : Nat) = 0 := rfl
        simp [h1, h0, hz, h00]
      · have hlog : Nat.log2 w.mant.val < 23 := (Nat.log2_lt hz).2 hm
        have hv : ((Fin.ofNat (Nat.log2 w.mant.val + 874) : Fin 2048) : Nat)
            = (Nat.log2 w.mant.val + 874) % 2048 := rfl
        have : ¬ ((Nat.log2 w.mant.val + 874) % 2048 = 2047) := by omega
        simp [h0, hz, hv, this]
    · have hv : ((Fin.ofNat (w.exp.val + 896) : Fin 2048) : Nat)
          = (w.exp.val + 896) % 2048 := rfl
      have : ¬ ((w.exp.val + 896) % 2048 = 2047) := by omega
      simp [h1, h0, hv, this]

theorem lineEncoder.appendFloat_eq (fmt : FloatFormatter) (enc : lineEncoder) (v : Float64)
    (bitSize : Nat) :
    (v.IsNaN = true → (enc.appendFloat fmt v bitSize).buf = enc.buf ++ ascii "\"NaN\"") ∧
    (v.IsInf 1 = true → (enc.appendFloat fmt v bitSize).buf = enc.buf ++ ascii "\"+Inf\"") ∧
    (v.IsInf (-1) = true →
      (enc.appendFloat fmt v bitSize).buf = enc.buf ++ ascii "\"-Inf\"") ∧
    (v.IsNaN = false → v.IsInf 0 = false →
      (enc.appendFloat fmt v bitSize).buf = enc.buf ++ fmt v bitSize) := by
  unfold lineEncoder.appendFloat
  refine ⟨?_, ?_, ?_, ?_⟩
  · intro h
    simp [h, Buffer.AppendString]
  · intro h
    have hn : v.IsNaN = false := by
      simp only [Float64.IsInf, Float64.IsNaN, decide_eq_true_eq, decide_eq_false_iff_not] at h ⊢
      omega
    simp [h, hn, Buffer.AppendString]
  · intro h
    have hn : v.IsNaN = false := by
      simp only [Float64.IsInf, Float64.IsNaN, decide_eq_true_eq, decide_eq_false_iff_not] at h ⊢
      omega
    have hp : v.IsInf 1 = false := by
      simp only [Float64.IsInf, decide_eq_true_eq, decide_eq_false_iff_not] at h ⊢
      intro hc
      rcases h.2.2 with h' | h'
      · omega
      · rcases hc.2.2 with h'' | h''
        · rw [h'.2] at h''
          exact absurd h''.2 (by decide)
        · omega
    simp [h, hn, hp, Buffer.AppendString]
  · intro hn hi
    have hp : v.IsInf 1 = false := by
      simp only [Float64.IsInf, decide_eq_false_iff_not] at hi ⊢
      intro hc
      apply hi
      refine ⟨hc.1, hc.2.1, ?_⟩
      rcases hc.2.2 with h' | h'
      · exact Or.inl ⟨le_refl _, h'.2⟩
      · omega
    have hm : v.IsInf (-1) = false := by
      simp only [Float64.IsInf, decide_eq_false_iff_not] at hi ⊢
      intro hc
      apply hi
      refine ⟨hc.1, hc.2.1, ?_⟩
      rcases hc.2.2 with h' | h'
      · omega
      · exact Or.inr ⟨le_refl _, h'.2⟩
    simp [hn, hp, hm, Buffer.AppendFloat]

/-- C12. `AppendFloat64` and `AppendFloat32` append the five characters `"NaN"`
for a NaN, `"+Inf"` for positive and `"-Inf"` for negative infinity, quotes
included, and for every other value what the float formatter gives at the bit
size 64, respectively 32. -/
theorem float_special_values (fmt : FloatFormatter) (enc : lineEncoder) (v : Float64)
    (w : Float32) :
    (v.IsNaN = true → (enc.AppendFloat64 fmt v).buf = enc.buf ++ ascii "\"NaN\"") ∧
    (v.IsInf 1 = true → (enc.AppendFloat64 fmt v).buf = enc.buf ++ ascii "\"+Inf\"") ∧
    (v.IsInf (-1) = true → (enc.AppendFloat64 fmt v).buf = enc.buf ++ ascii "\"-Inf\"") ∧
    (v.IsNaN = false → v.IsInf 0 = false →
      (enc.AppendFloat64 fmt v).buf = enc.buf ++ fmt v 64) ∧
    (w.IsNaN = true → (enc.AppendFloat32 fmt w).buf = enc.buf ++ ascii "\"NaN\"") ∧
    (w.IsInf 1 = true → (enc.AppendFloat32 fmt w).buf = enc.buf ++ ascii "\"+Inf\"") ∧
    (w.IsInf (-1) = true → (enc.AppendFloat32 fmt w).buf = enc.buf ++ ascii "\"-Inf\"") ∧
    (w.IsNaN = false → w.IsInf 0 = false →
      (enc.AppendFloat32 fmt w).buf = enc.buf ++ fmt w.toFloat64 32) := by
  have h64 := lineEncoder.appendFloat_eq fmt enc v 64
  have h32 := lineEncoder.appendFloat_eq fmt enc w.toFloat64 32
  rw [Float32.toFloat64_IsNaN, Float32.toFloat64_IsInf, Float32.toFloat64_IsInf,
    Float32.toFloat64_IsInf] at h32
  exact ⟨h64.1, h64.2.1, h64.2.2.1, h64.2.2.2, h32.1, h32.2.1, h32.2.2.1, h32.2.2.2⟩

/-- C12, at a NaN and the two infinities of `float64`, at a NaN of `float32`
and at the `float32` 1.5 under a formatter that writes `1.5`. -/
theorem float_special_values_witness :
    ((encoderA1 false).AppendFloat64 (fun _ _ => ascii "1.5")
      { sign := false, exp := 2047, mant := 1 }).buf = ascii "a=1\"NaN\"" ∧
    ((encoderA1 false).AppendFloat64 (fun _ _ => ascii "1.5")
      { sign := false, exp := 2047, mant := 0 }).buf = ascii "a=1\"+Inf\"" ∧
    ((encoderA1 false).AppendFloat64 (fun _ _ => ascii "1.5")
      { sign := true, exp := 2047, mant := 0 }).buf = ascii "a=1\"-Inf\"" ∧
    ((encoderA1 false).AppendFloat32 (fun _ _ => ascii "1.5")
      { sign := true, exp := 255, mant := 4194304 }).buf = ascii "a=1\"NaN\"" ∧
    ((encoderA1 false).AppendFloat32 (fun _ _ => ascii "1.5")
      { sign := false, exp := 127, mant := 4194304 }).buf = ascii "a=11.5" :=
  ⟨((float_special_values (fun _ _ => ascii "1.5") (encoderA1 false)
      { sign := false, exp := 2047, mant := 1 }
      { sign := true, exp := 255, mant := 4194304 }).1 (by decide)).trans (by decide),
    ((float_special_values (fun _ _ => ascii "1.5") (encoderA1 false)
      { sign := false, exp := 2047, mant := 0 }
      { sign := true, exp := 255, mant := 4194304 }).2.1 (by decide)).trans (by decide),
    ((float_special_values (fun _ _ => ascii "1.5") (encoderA1 false)
      { sign := true, exp := 2047, mant := 0 }
      { sign := true, exp := 255, mant := 4194304 }).2.2.1 (by decide)).trans (by decide),
    ((float_special_values (fun _ _ => ascii "1.5") (encoderA1 false)
      { sign := false, exp := 2047, mant := 1 }
      { sign := true, exp := 255, mant := 4194304 }).2.2.2.2.1 (by decide)).trans (by decide),
    ((float_special_values (fun _ _ => ascii "1.5") (encoderA1 false)
      { sign := false, exp := 2047, mant := 1 }
      { sign := false, exp := 127, mant := 4194304 }).2.2.2.2.2.2.2 (by decide)
      (by decide)).trans (by decide)⟩

/-! ## The scenario, the stack trace, the caller: claims C15 to C17 -/

theorem decimalAux_ne_nil (fuel n : Nat) (acc : List Byte) (h : acc ≠ []) :
    decimalAux fuel n acc ≠ [] := by
  induction fuel generalizing n acc with
  | zero => exact h
  | succ fuel ih =>
    unfold decimalAux
    split_ifs
    · simp
    · exact ih _ _ (by simp)

theorem formatInt_ne_nil (i : Int) : formatInt i ≠ [] := by
  have key : ∀ n, formatUint n ≠ [] := by
    intro n
    unfold formatUint decimalAux
    split_ifs
    · simp
    · exact decimalAux_ne_nil _ _ _ (by simp)
  unfold formatInt
  split_ifs
  · simp
  · exact key _

theorem timeText_ne_nil (cfg : EncoderConfig) (t : Time) : timeText cfg t ≠ [] := by
  unfold timeText
  rcases cfg.EncodeTime with _ | e
  · exact formatInt_ne_nil _
  · simp only
    split_ifs with h
    · exact formatInt_ne_nil _
    · exact h

/-- C15, counterexample. With the time key omitted the line begins with the
rendered time, here `0`, and not with the separator token; and with the level
key omitted too no separator stands in for the level: one separator token
only is between the time and the caller. -/
theorem end_to_end_counterexample :
    EncodeEntry (NewLineEncoder plainConfig false) linePoolNew entryHello
        [Field.Int64Type (ascii "n=") 5]
      = some (ascii "0|INFO|at file.go:10||hellon=5\n") ∧
    EncodeEntry (NewLineEncoder plainConfig false) linePoolNew entryHello
        [Field.Int64Type (ascii "n=") 5]
      ≠ some (ascii "|INFO|at file.go:10||hellon=5\n") ∧
    EncodeEntry (NewLineEncoder { plainConfig with LevelKey := OmitKey } false) linePoolNew
        entryHello [Field.Int64Type (ascii "n=") 5]
      = some (ascii "0|at file.go:10||hellon=5\n") ∧
    EncodeEntry (NewLineEncoder { plainConfig with LevelKey := OmitKey } false) linePoolNew
        entryHello [Field.Int64Type (ascii "n=") 5]
      ≠ some (ascii "||at file.go:10||hellon=5\n") ∧
    plainConfig.TimeKey = OmitKey := by
  decide

/-- C15, amended. For an encoder with the time key omitted and the entry at
level INFO with the caller `file.go:10` and the message `hello`, at any time,
and one integer field of value 5, the line is the rendered time (written
without key, and never empty), the separator, the level segment and the
separator when a level key and a level renderer are configured and nothing
otherwise, the accumulated fields, the caller segment and the separator, the
separator of the reserved segment, the message, the field, the stacktrace key
and the line end, the separator being the escaped token. Under the capital
level renderer the level segment is the token `INFO` and the separator when the
level key is configured, and empty when it is omitted. -/
theorem end_to_end_line (enc pooled : lineEncoder) (t : Time) (key : List Byte)
    (ht : enc.EncoderConfig.TimeKey = OmitKey)
    (hc : callerRenderable enc.EncoderConfig { entryHello with Time := t } = true) :
    EncodeEntry enc pooled { entryHello with Time := t } [Field.Int64Type key 5]
      = some (timeText enc.EncoderConfig t ++ escape enc.EncoderConfig.ConsoleSeparator
          ++ levelSegment (escape enc.EncoderConfig.ConsoleSeparator) enc.EncoderConfig 0
          ++ enc.buf
          ++ (callerSegment enc.EncoderConfig entryHello.Caller
              ++ escape enc.EncoderConfig.ConsoleSeparator)
          ++ escape enc.EncoderConfig.ConsoleSeparator
          ++ (enc.EncoderConfig.MessageKey ++ ascii "hello")
          ++ (key ++ ascii "5")
          ++ enc.EncoderConfig.StacktraceKey
          ++ enc.EncoderConfig.LineEnding) ∧
    timeText enc.EncoderConfig t ≠ [] ∧
    (enc.EncoderConfig.EncodeLevel = some CapitalLevelEncoder →
      levelSegment (escape enc.EncoderConfig.ConsoleSeparator) enc.EncoderConfig 0
        = if enc.EncoderConfig.LevelKey ≠ [] then
            ascii "INFO" ++ escape enc.EncoderConfig.ConsoleSeparator
          else []) := by
  refine ⟨?_, timeText_ne_nil _ _, ?_⟩
  · rw [EncodeEntry_eq enc pooled _ _ hc]
    have e1 : escape (ascii "hello") = ascii "hello" := by decide
    have e2 : formatInt 5 = ascii "5" := by decide
    have e3 : escape ([] : List Byte) = [] := rfl
    have e4 : entryHello.Caller.Defined = true := rfl
    simp [segmentOrderLine, ht, OmitKey, entryHello, fieldText, e1, e2, e3]
  · intro hl
    have e1 : CapitalLevelEncoder 0 = ascii "INFO" := by decide
    have e2 : ascii "INFO" ≠ [] := by decide
    simp only [levelSegment, hl, levelText, e1, e2, if_false]

/-- C15, at the configuration of `InitLogger` and an encoder holding `a=1`. -/
theorem end_to_end_line_witness :
    EncodeEntry (encoderA1 true) linePoolNew { entryHello with Time := { UnixNano := 7 } }
        [Field.Int64Type (ascii "n=") 5]
      = some (ascii "7|INFO|a=1|file.go:10||hellon=5\n") :=
  (end_to_end_line (encoderA1 true) linePoolNew { UnixNano := 7 } (ascii "n=") rfl
    (by decide)).1.trans (by decide)

/-- C16, counterexample. With the stacktrace key `stack=` and an empty stack
trace, the stack-trace step appends the key: it stands between the fields and
the line terminator. -/
theorem empty_stack_counterexample :
    EncodeEntry (NewLineEncoder { initLoggerConfig with StacktraceKey := ascii "stack=" } false)
        linePoolNew entryHello [Field.Int64Type (ascii "n=") 5]
      = some (ascii "0|INFO||file.go:10||hellon=5stack=\n") ∧
    entryHello.Stack = [] ∧
    ((encoderA1 false).AddString (ascii "stack=") []).buf ≠ (encoderA1 false).buf := by
  decide

/-- C16, amended. For an entry whose stack trace is empty the stack-trace step
of `EncodeEntry` appends the stacktrace key and nothing else: the line is the
bytes before the message, the message, the fields, the stacktrace key and the
line terminator; so the step appends no byte exactly when the stacktrace key is
empty. -/
theorem empty_stack_appends_the_key (enc pooled : lineEncoder) (ent : Entry)
    (fields : List Field) (key : List Byte) (hs : ent.Stack = [])
    (hc : callerRenderable enc.EncoderConfig ent = true) :
    (enc.AddString key ent.Stack).buf = enc.buf ++ key ∧
    ((enc.AddString key ent.Stack).buf = enc.buf ↔ key = []) ∧
    EncodeEntry enc pooled ent fields
      = some (headText (escape enc.EncoderConfig.ConsoleSeparator) enc ent
          ++ (enc.EncoderConfig.MessageKey ++ escape ent.Message)
          ++ (fields.map (fieldText enc.EncoderConfig)).flatten
          ++ enc.EncoderConfig.StacktraceKey
          ++ enc.EncoderConfig.LineEnding) := by
  have e3 : escape ([] : List Byte) = [] := rfl
  have h1 : (enc.AddString key ent.Stack).buf = enc.buf ++ key := by
    simp [lineEncoder.AddString, lineEncoder.addKey_eq, lineEncoder.AppendString_eq, hs, e3]
  refine ⟨h1, ?_, ?_⟩
  · rw [h1]
    constructor
    · intro h
      have := congrArg List.length h
      simp at this
      exact this
    · intro h
      simp [h]
  · rw [EncodeEntry_eq enc pooled ent fields hc]
    simp [segmentOrderLine, headText, hs, e3]

/-- C16, at the configuration of `InitLogger`, whose stacktrace key is
omitted. -/
theorem empty_stack_appends_the_key_witness :
    EncodeEntry (NewLineEncoder initLoggerConfig false) linePoolNew entryHello
        [Field.Int64Type (ascii "n=") 5]
      = some (ascii "0|INFO||file.go:10||hellon=5\n") :=
  (empty_stack_appends_the_key (NewLineEncoder initLoggerConfig false) linePoolNew entryHello
    [Field.Int64Type (ascii "n=") 5] [] rfl (by decide)).2.2.trans (by decide)

/-- C17. With a caller key, a defined caller and no caller renderer (`nil`),
`EncodeEntry` returns no line: the call of the renderer panics. With a
renderer that writes nothing the caller segment is the caller key and the
`file:line` form of the caller. -/
theorem nil_caller_renderer_panics (enc pooled : lineEncoder) (ent : Entry)
    (fields : List Field) (hd : ent.Caller.Defined = true)
    (hk : enc.EncoderConfig.CallerKey ≠ []) :
    (enc.EncoderConfig.EncodeCaller = none → EncodeEntry enc pooled ent fields = none) ∧
    (∀ e, enc.EncoderConfig.EncodeCaller = some e → e ent.Caller = [] →
      (∃ line, EncodeEntry enc pooled ent fields = some line) ∧
      callerSegment enc.EncoderConfig ent.Caller
        = enc.EncoderConfig.CallerKey ++ escape (ent.Caller.File ++ ascii ":"
            ++ formatInt ent.Caller.Line)
          ++ (if enc.EncoderConfig.FunctionKey ≠ [] then
                enc.EncoderConfig.FunctionKey ++ escape ent.Caller.Function
              else [])) := by
  constructor
  · intro hn
    have h1 : ∀ final : lineEncoder, final.EncoderConfig = enc.EncoderConfig →
        entryCaller enc final ent = none := by
      intro final hf
      simp [entryCaller, hd, hf, hk, hn, lineEncoder.addKey_eq]
    simp only [EncodeEntry, encodeEntryHead]
    rw [h1]
    · rfl
    · simp [entryAccumulated_eq, entryLevel_eq, entryTime_eq, lineEncoder.clone]
  · intro e he hw
    have hc : callerRenderable enc.EncoderConfig ent = true := by
      simp [callerRenderable, he]
    refine ⟨⟨_, EncodeEntry_eq enc pooled ent fields hc⟩, ?_⟩
    simp [callerSegment, locationText, he, hw, hk, EntryCaller.String, hd]

/-- C17, at the configuration of `InitLogger` without caller renderer, and with
a caller renderer that writes nothing. -/
theorem nil_caller_renderer_panics_witness :
    EncodeEntry (NewLineEncoder { initLoggerConfig with EncodeCaller := none } false)
        linePoolNew entryHello [] = none ∧
    EncodeEntry (NewLineEncoder { initLoggerConfig with EncodeCaller := some (fun _ => []) }
        false) linePoolNew entryHello [] = some (ascii "0|INFO||file.go:10||hello\n") :=
  ⟨(nil_caller_renderer_panics
      (NewLineEncoder { initLoggerConfig with EncodeCaller := none } false) linePoolNew
      entryHello [] rfl (by decide)).1 rfl, by decide⟩

/-! ## Keys and values: claim C20 -/

/-- C20. `AddString` appends the key as it is and, directly after it, the
escaped value; so the pairs (`a`, `bc`) and (`ab`, `c`), which differ, give
the same bytes `abc` on an empty encoder. -/
theorem key_value_boundary_is_lost (enc : lineEncoder) (key val : List Byte) :
    (enc.addKey key).buf = enc.buf ++ key ∧
    (enc.AddString key val).buf = enc.buf ++ key ++ escape val ∧
    ((NewLineEncoder initLoggerConfig false).AddString (ascii "a") (ascii "bc")).buf
      = ascii "abc" ∧
    ((NewLineEncoder initLoggerConfig false).AddString (ascii "ab") (ascii "c")).buf
      = ascii "abc" ∧
    (ascii "a", ascii "bc") ≠ (ascii "ab", ascii "c") := by
  refine ⟨?_, ?_, by decide, by decide, by decide⟩
  · simp [lineEncoder.addKey_eq]
  · simp [lineEncoder.AddString, lineEncoder.addKey_eq, lineEncoder.AppendString_eq]

/-! ## EncodeEntry by reference: claims C18 and C19 -/

theorem entryTail_eq (enc final : lineEncoder) (ent : Entry) (fields : List Field) :
    entryTail enc final ent fields
      = { final with buf := (final.buf ++ (enc.EncoderConfig.MessageKey ++ escape ent.Message)
            ++ (fields.map (fieldText final.EncoderConfig)).flatten
            ++ (final.EncoderConfig.StacktraceKey ++ escape ent.Stack)
            ++ final.EncoderConfig.LineEnding) } := by
  simp [entryTail, lineEncoder.addKey_eq, lineEncoder.AppendString_eq, addFields_eq,
    lineEncoder.AddString, Buffer.AppendString]

theorem EncodeEntry_eq_tail (enc pooled : lineEncoder) (ent : Entry) (fields : List Field) :
    EncodeEntry enc pooled ent fields
      = (encodeEntryHead enc pooled ent).map
          (fun final => (entryTail enc final ent fields).buf) := rfl

theorem entryCaller_none (enc final : lineEncoder) (ent : Entry)
    (hc : callerRenderable final.EncoderConfig ent = false) :
    entryCaller enc final ent = none := by
  simp only [callerRenderable, Bool.or_eq_false_iff, Bool.not_eq_false',
    decide_eq_false_iff_not] at hc
  obtain ⟨⟨hd, hk⟩, hn⟩ := hc
  have hn' : final.EncoderConfig.EncodeCaller = none := by
    cases hq : final.EncoderConfig.EncodeCaller with
    | none => rfl
    | some r => rw [hq] at hn; exact absurd hn (by simp)
  simp [entryCaller, hd, hk, hn', lineEncoder.addKey_eq]

theorem entryCaller_frame (enc final f : lineEncoder) (ent : Entry)
    (h : entryCaller enc final ent = some f) :
    f.EncoderConfig = final.EncoderConfig ∧ f.spaced = final.spaced := by
  by_cases hc : callerRenderable final.EncoderConfig ent = true
  · rw [entryCaller_eq enc final ent hc] at h
    simp only [Option.some.injEq] at h
    subst h
    exact ⟨rfl, rfl⟩
  · rw [entryCaller_none enc final ent (by simpa using hc)] at h
    exact absurd h (by simp)

theorem encodeEntryHead_none (enc pooled : lineEncoder) (ent : Entry)
    (hc : callerRenderable enc.EncoderConfig ent = false) :
    encodeEntryHead enc pooled ent = none := by
  simp only [encodeEntryHead]
  rw [entryCaller_none]
  · rfl
  · simpa [entryAccumulated_eq, entryLevel_eq, entryTime_eq, lineEncoder.clone] using hc

/-- The line does not depend on the instance the pool hands out. -/
theorem EncodeEntry_pooled (enc p1 p2 : lineEncoder) (ent : Entry) (fields : List Field) :
    EncodeEntry enc p1 ent fields = EncodeEntry enc p2 ent fields := by
  by_cases hc : callerRenderable enc.EncoderConfig ent = true
  · rw [EncodeEntry_eq enc p1 ent fields hc, EncodeEntry_eq enc p2 ent fields hc]
  · have hc' : callerRenderable enc.EncoderConfig ent = false := by simpa using hc
    rw [EncodeEntry_eq_tail, EncodeEntry_eq_tail, encodeEntryHead_none enc p1 ent hc',
      encodeEntryHead_none enc p2 ent hc']

theorem Heap.load_write_self (h : Heap) (r : EncoderRef) (b : Buffer) :
    (h.write r.buf b).load r = { h.load r with buf := b } := by
  simp [Heap.load, Heap.read_write]

theorem Heap.load_write_other (h : Heap) (r : EncoderRef) (p : Nat) (b : Buffer)
    (hp : r.buf ≠ p) : (h.write p b).load r = h.load r := by
  simp [Heap.load, Heap.read_write, hp]

theorem Heap.step_load_final (h : Heap) (enc final : EncoderRef)
    (block : lineEncoder → lineEncoder → lineEncoder)
    (hb : ∀ e f, (block e f).EncoderConfig = f.EncoderConfig ∧ (block e f).spaced = f.spaced) :
    (h.step enc final block).load final = block (h.load enc) (h.load final) := by
  have := hb (h.load enc) (h.load final)
  apply lineEncoder.ext_fields
  · exact this.1.symm
  · simp [Heap.step, Heap.load, Heap.read_write]
  · exact this.2.symm

theorem Heap.step_load_enc (h : Heap) (enc final : EncoderRef)
    (block : lineEncoder → lineEncoder → lineEncoder) (hne : enc.buf ≠ final.buf) :
    (h.step enc final block).load enc = h.load enc :=
  Heap.load_write_other _ _ _ _ hne

/-- What `clone` on references gives for an encoder that owns its buffer. -/
theorem Heap.clone_fresh (h : Heap) (e : EncoderRef) (pickLine pickBuf : Nat)
    (hlive : e.buf < h.next) (hfree : e.buf ∉ h.freeBufs) :
    e.buf ≠ (h.clone e pickLine pickBuf).1.buf ∧
    (h.clone e pickLine pickBuf).2.load e = h.load e ∧
    (h.clone e pickLine pickBuf).2.load (h.clone e pickLine pickBuf).1
      = (h.load e).clone { linePoolNew with spaced := (h.clone e pickLine pickBuf).1.spaced } ∧
    e.buf < (h.clone e pickLine pickBuf).2.next ∧
    e.buf ∉ (h.clone e pickLine pickBuf).2.freeBufs := by
  have hl : (h.linePoolGet pickLine).2.next = h.next
      ∧ (h.linePoolGet pickLine).2.freeBufs = h.freeBufs
      ∧ (h.linePoolGet pickLine).2.bufs = h.bufs := by
    unfold Heap.linePoolGet
    rcases h.freeLines.get? pickLine with _ | s <;> simp
  have hf := Heap.bufferPoolGet_fresh (h.linePoolGet pickLine).2 pickBuf e.buf
    (by rw [hl.1]; exact hlive) (by rw [hl.2.1]; exact hfree)
  have hr : (h.linePoolGet pickLine).2.read e.buf = h.read e.buf := by
    simp [Heap.read, hl.2.2]
  have hnf : e.buf < ((h.linePoolGet pickLine).2.bufferPoolGet pickBuf).2.next
      ∧ e.buf ∉ ((h.linePoolGet pickLine).2.bufferPoolGet pickBuf).2.freeBufs := by
    unfold Heap.bufferPoolGet
    rcases hg : (h.linePoolGet pickLine).2.freeBufs.get? pickBuf with _ | q
    · simp only [Heap.write]
      rw [hl.1, hl.2.1]
      exact ⟨by omega, hfree⟩
    · simp only [Heap.write]
      rw [hl.1, hl.2.1]
      exact ⟨hlive, fun hm => hfree (List.mem_of_mem_eraseIdx hm)⟩
  refine ⟨Ne.symm hf.1, ?_, ?_, hnf.1, hnf.2⟩
  · simp only [Heap.load, Heap.clone]
    rw [hf.2.1, hr]
  · apply lineEncoder.ext_fields
    · rfl
    · simp only [Heap.load, Heap.clone, lineEncoder.clone]
      exact hf.2.2
    · rfl


theorem Heap.putLineEncoder_read (h : Heap) (r : EncoderRef) (p : Nat) :
    (h.putLineEncoder r).read p = h.read p := rfl

theorem Heap.load_read (h1 h2 : Heap) (r : EncoderRef) (hl : h1.load r = h2.load r) :
    h1.read r.buf = h2.read r.buf :=
  congrArg lineEncoder.buf hl

/-- `EncodeEntry` on references and on values: for an encoder that owns its
buffer the call by reference panics exactly when the call by value does, and
otherwise it returns a buffer other than the one of the receiver, holding the
line of the call by value, and leaves the buffer of the receiver as it was,
owned by the receiver. -/
theorem EncodeEntry_by_reference (h : Heap) (e : EncoderRef) (ent : Entry)
    (fields : List Field) (pickLine pickBuf : Nat) (pooled : lineEncoder)
    (hlive : e.buf < h.next) (hfree : e.buf ∉ h.freeBufs) :
    (h.EncodeEntry e ent fields pickLine pickBuf = none ∧
      EncodeEntry (h.load e) pooled ent fields = none) ∨
    ∃ r h1, h.EncodeEntry e ent fields pickLine pickBuf = some (r, h1) ∧
      r ≠ e.buf ∧ h1.read e.buf = h.read e.buf ∧
      EncodeEntry (h.load e) pooled ent fields = some (h1.read r) ∧
      e.buf < h1.next ∧ e.buf ∉ h1.freeBufs := by
  obtain ⟨hne, hle, hlf, hnx, hfr⟩ := Heap.clone_fresh h e pickLine pickBuf hlive hfree
  rw [EncodeEntry_pooled (h.load e) pooled
    { linePoolNew with spaced := (h.clone e pickLine pickBuf).1.spaced }]
  unfold Heap.EncodeEntry
  dsimp only
  generalize h.clone e pickLine pickBuf = c at *
  generalize hp : ({ linePoolNew with spaced := c.1.spaced } : lineEncoder) = p at *
  -- the block `// time`
  have f1 := Heap.step_load_final c.2 e c.1 (fun e f => entryTime e f ent)
    (by intro e f; simp [entryTime_eq])
  have e1 := Heap.step_load_enc c.2 e c.1 (fun e f => entryTime e f ent) hne
  have n1 : (c.2.step e c.1 (fun e f => entryTime e f ent)).next = c.2.next
      ∧ (c.2.step e c.1 (fun e f => entryTime e f ent)).freeBufs = c.2.freeBufs := ⟨rfl, rfl⟩
  rw [hle, hlf] at f1
  dsimp only at f1
  rw [hle] at e1
  generalize c.2.step e c.1 (fun e f => entryTime e f ent) = h1 at *
  -- the block `// level`
  have f2 := Heap.step_load_final h1 e c.1 (fun e f => entryLevel e f ent)
    (by intro e f; simp [entryLevel_eq])
  have e2 := Heap.step_load_enc h1 e c.1 (fun e f => entryLevel e f ent) hne
  have n2 : (h1.step e c.1 (fun e f => entryLevel e f ent)).next = h1.next
      ∧ (h1.step e c.1 (fun e f => entryLevel e f ent)).freeBufs = h1.freeBufs := ⟨rfl, rfl⟩
  rw [e1, f1] at f2
  dsimp only at f2
  rw [e1] at e2
  generalize h1.step e c.1 (fun e f => entryLevel e f ent) = h2 at *
  -- the block `// final log`
  have f3 := Heap.step_load_final h2 e c.1 entryAccumulated
    (by intro e f; simp [entryAccumulated_eq])
  have e3 := Heap.step_load_enc h2 e c.1 entryAccumulated hne
  have n3 : (h2.step e c.1 entryAccumulated).next = h2.next
      ∧ (h2.step e c.1 entryAccumulated).freeBufs = h2.freeBufs := ⟨rfl, rfl⟩
  rw [e2, f2] at f3
  rw [e2] at e3
  generalize h2.step e c.1 entryAccumulated = h3 at *
  -- the block `// caller`
  simp only [EncodeEntry_eq_tail, encodeEntryHead]
  rw [e3, f3]
  rcases hcal : entryCaller (h.load e)
      (entryAccumulated (h.load e) (entryLevel (h.load e)
        (entryTime (h.load e) ((h.load e).clone p) ent) ent)) ent with _ | f
  · left
    exact ⟨rfl, rfl⟩
  · right
    dsimp only
    have hfr4 := entryCaller_frame _ _ _ _ hcal
    have f4 : (h3.write c.1.buf f.buf).load c.1 = f := by
      rw [Heap.load_write_self, f3]
      exact lineEncoder.ext_fields _ _ hfr4.1.symm rfl hfr4.2.symm
    have e4 : (h3.write c.1.buf f.buf).load e = h.load e := by
      rw [Heap.load_write_other _ _ _ _ hne, e3]
    have n4 : (h3.write c.1.buf f.buf).next = h3.next
        ∧ (h3.write c.1.buf f.buf).freeBufs = h3.freeBufs := ⟨rfl, rfl⟩
    generalize h3.write c.1.buf f.buf = h4 at *
    -- the reserved segment
    have f5 := Heap.step_load_final h4 e c.1
      (fun e f => f.AppendString e.EncoderConfig.ConsoleSeparator)
      (by intro e f; simp [lineEncoder.AppendString_eq])
    have e5 := Heap.step_load_enc h4 e c.1
      (fun e f => f.AppendString e.EncoderConfig.ConsoleSeparator) hne
    have n5 : (h4.step e c.1
          (fun e f => f.AppendString e.EncoderConfig.ConsoleSeparator)).next = h4.next
        ∧ (h4.step e c.1
          (fun e f => f.AppendString e.EncoderConfig.ConsoleSeparator)).freeBufs
            = h4.freeBufs := ⟨rfl, rfl⟩
    rw [e4, f4] at f5
    dsimp only at f5
    rw [e4] at e5
    generalize h4.step e c.1 (fun e f => f.AppendString e.EncoderConfig.ConsoleSeparator)
      = h5 at *
    -- the message, the fields, the stack trace and the line ending
    have f6 := Heap.step_load_final h5 e c.1 (fun e f => entryTail e f ent fields)
      (by intro e f; simp [entryTail_eq])
    have e6 := Heap.step_load_enc h5 e c.1 (fun e f => entryTail e f ent fields) hne
    have n6 : (h5.step e c.1 (fun e f => entryTail e f ent fields)).next = h5.next
        ∧ (h5.step e c.1 (fun e f => entryTail e f ent fields)).freeBufs
            = h5.freeBufs := ⟨rfl, rfl⟩
    rw [e5, f5] at f6
    dsimp only at f6
    rw [e5] at e6
    generalize h5.step e c.1 (fun e f => entryTail e f ent fields) = h6 at *
    refine ⟨c.1.buf, h6.putLineEncoder c.1, rfl, Ne.symm hne, ?_, ?_, ?_, ?_⟩
    · rw [Heap.putLineEncoder_read]
      exact Heap.load_read _ _ _ e6
    · rw [Heap.putLineEncoder_read]
      have := congrArg lineEncoder.buf f6
      simp only [Heap.load] at this
      rw [this]
      rfl
    · show e.buf < h6.next
      rw [n6.1, n5.1, n4.1, n3.1, n2.1, n1.1]
      exact hnx
    · show e.buf ∉ h6.freeBufs
      rw [n6.2, n5.2, n4.2, n3.2, n2.2, n1.2]
      exact hfr

/-- C18. For an encoder that owns its buffer, `EncodeEntry` returns a line
whenever the caller renderer is configured where it is called, and the buffer
of the receiver holds after the call what it held before. A second call with
the same entry and the same field list, whatever the pools hand out and whether
the first line was freed or not, returns a line too, and it has the bytes of
the first; the line is the one of `EncodeEntry` on the content of the
receiver. -/
theorem encode_entry_is_idempotent (h : Heap) (e : EncoderRef) (ent : Entry)
    (fields : List Field) (pickLine1 pickBuf1 pickLine2 pickBuf2 : Nat) (freed : Bool)
    (hlive : e.buf < h.next) (hfree : e.buf ∉ h.freeBufs) :
    (callerRenderable e.EncoderConfig ent = true →
      ∃ r1 h1, h.EncodeEntry e ent fields pickLine1 pickBuf1 = some (r1, h1)) ∧
    ∀ r1 h1, h.EncodeEntry e ent fields pickLine1 pickBuf1 = some (r1, h1) →
      h1.read e.buf = h.read e.buf ∧
      EncodeEntry (h.load e) linePoolNew ent fields = some (h1.read r1) ∧
      ∃ r2 h2,
        (if freed then h1.Free r1 else h1).EncodeEntry e ent fields pickLine2 pickBuf2
          = some (r2, h2) ∧
        h2.read r2 = h1.read r1 ∧ h2.read e.buf = h.read e.buf := by
  have s1 := EncodeEntry_by_reference h e ent fields pickLine1 pickBuf1 linePoolNew hlive hfree
  constructor
  · intro hc
    rcases s1 with ⟨_, hv⟩ | ⟨r, h1, heq, _⟩
    · rw [EncodeEntry_eq (h.load e) linePoolNew ent fields hc] at hv
      exact absurd hv (by simp)
    · exact ⟨r, h1, heq⟩
  · intro r1 h1 heq
    rcases s1 with ⟨hn, _⟩ | ⟨r, h1', heq', hne, hrd, hv, hnx, hfr⟩
    · rw [hn] at heq
      exact absurd heq (by simp)
    · rw [heq] at heq'
      simp only [Option.some.injEq, Prod.mk.injEq] at heq'
      obtain ⟨hr, hh⟩ := heq'
      subst hr
      subst hh
      refine ⟨hrd, hv, ?_⟩
      have hrd2 : (if freed then h1.Free r1 else h1).read e.buf = h.read e.buf := by
        cases freed
        · exact hrd
        · exact hrd
      have hl2 : (if freed then h1.Free r1 else h1).load e = h.load e := by
        simp only [Heap.load, hrd2]
      have hnx2 : e.buf < (if freed then h1.Free r1 else h1).next := by
        cases freed
        · exact hnx
        · exact hnx
      have hfr2 : e.buf ∉ (if freed then h1.Free r1 else h1).freeBufs := by
        cases freed
        · exact hfr
        · simp only [if_true, Heap.Free, List.mem_cons, not_or]
          exact ⟨Ne.symm hne, hfr⟩
      have s2 := EncodeEntry_by_reference (if freed then h1.Free r1 else h1) e ent fields
        pickLine2 pickBuf2 linePoolNew hnx2 hfr2
      rw [hl2, hv] at s2
      rcases s2 with ⟨_, hv2⟩ | ⟨r2, h2, heq2, _, hrd3, hv3, _, _⟩
      · exact absurd hv2 (by simp)
      · simp only [Option.some.injEq] at hv3
        exact ⟨r2, h2, heq2, hv3.symm, hrd3.trans hrd2⟩

/-- C18, at an encoder holding `a=1` and empty pools: both calls return the
line `0|INFO|a=1|file.go:10||hellon=5` and the encoder still holds `a=1`. -/
theorem encode_entry_is_idempotent_witness :
    (heapA1.EncodeEntry refA1 entryHello [Field.Int64Type (ascii "n=") 5] 0 0).map
        (fun x => (x.2.read x.1, x.2.read refA1.buf))
      = some (ascii "0|INFO|a=1|file.go:10||hellon=5\n", ascii "a=1") ∧
    ∃ r1 h1, heapA1.EncodeEntry refA1 entryHello [Field.Int64Type (ascii "n=") 5] 0 0
        = some (r1, h1) ∧
      ∃ r2 h2, (h1.Free r1).EncodeEntry refA1 entryHello [Field.Int64Type (ascii "n=") 5] 0 0
          = some (r2, h2) ∧
        h2.read r2 = h1.read r1 ∧ h2.read refA1.buf = heapA1.read refA1.buf := by
  refine ⟨by decide, ?_⟩
  have w := encode_entry_is_idempotent heapA1 refA1 entryHello
    [Field.Int64Type (ascii "n=") 5] 0 0 0 0 true (by decide) (by decide)
  obtain ⟨r1, h1, heq⟩ := w.1 (by decide)
  obtain ⟨_, _, r2, h2, heq2, hl, hr⟩ := w.2 r1 h1 heq
  exact ⟨r1, h1, heq, r2, h2, heq2, hl, hr⟩

/-- C19. The encoder `Clone` returns, and the clone `EncodeEntry` works on,
have the configuration of the encoder, and the `spaced` flag of the instance
the pool of encoders hands out, not the one of the encoder: with an empty pool
the flag of the clone is off, also for an encoder created with `spaced = true`. -/
theorem clone_does_not_copy_spaced (h : Heap) (e : EncoderRef) (pickLine pickBuf : Nat)
    (enc pooled : lineEncoder) (cfg : EncoderConfig) :
    (h.Clone e pickLine pickBuf).1.EncoderConfig = e.EncoderConfig ∧
    (h.Clone e pickLine pickBuf).1.spaced = (h.linePoolGet pickLine).1 ∧
    (h.clone e pickLine pickBuf).1.spaced = (h.linePoolGet pickLine).1 ∧
    (h.freeLines = [] → (h.Clone e pickLine pickBuf).1.spaced = false) ∧
    (enc.Clone pooled).EncoderConfig = enc.EncoderConfig ∧
    (enc.Clone pooled).spaced = pooled.spaced ∧
    (enc.clone pooled).spaced = pooled.spaced ∧
    (NewLineEncoder cfg true).spaced = true ∧
    ((NewLineEncoder cfg true).Clone linePoolNew).spaced = false ∧
    refA1.spaced = true ∧
    (heapA1.Clone refA1 0 0).1.spaced = false := by
  refine ⟨rfl, rfl, rfl, ?_, rfl, rfl, rfl, rfl, rfl, rfl, rfl⟩
  intro hf
  simp [Heap.Clone, Heap.clone, Heap.linePoolGet, hf]

end zaplog
